import Mathlib

/-!
# A JSON value model, printer and recursive-descent loader

Shallow embedding of `json.h` / `json.cpp`.

* A character stream (`std::istream`) is the list of characters that are still
  unread; `peek` looks at the head, `get` removes it, and an exhausted stream
  answers every read with end of file.  A `char` is embedded as a `Char` whose
  code point is the byte value.
* `std::string` is `List Char`, `std::vector<Node>` is `List Node`, and
  `std::map<std::string, Node>` is an association list kept in strictly
  ascending key order (the iteration order of the map).
* A thrown `ParsingError` is the result `ParseResult.parsingError`; a thrown
  `std::logic_error` is `Except.error LogicError.mk`.
* The recursion of `LoadNode` is indexed by a fuel counter; `Load` supplies
  more fuel than the input has characters.  Exhausted fuel is reported as
  `ParseResult.outOfFuel`, which is distinct from a parsing error.
* The conversions `std::stoi` and `std::stod` are written out on decimal
  strings, as the C++ standard and IEEE-754 binary64 rounding describe them.
  The text that `operator<<` writes for a `double` is a parameter of the
  printer.
-/

namespace Json

/-! ## Character classes of the "C" locale -/

/-- The predicate `std::isspace`: space, `\t`, `\n`, `\v`, `\f`, `\r`. -/
def isspace (c : Char) : Bool :=
  c.toNat = 32 || (9 ≤ c.toNat && c.toNat ≤ 13)

/-- The predicate `std::isdigit`: `0` to `9`. -/
def isdigit (c : Char) : Bool :=
  48 ≤ c.toNat && c.toNat ≤ 57

/-- The predicate `std::isalpha`: `A` to `Z` and `a` to `z`. -/
def isalpha (c : Char) : Bool :=
  (65 ≤ c.toNat && c.toNat ≤ 90) || (97 ≤ c.toNat && c.toNat ≤ 122)

/-! ## The type `double` -/

/-- An IEEE-754 binary64 datum.  A finite datum is kept as the rational number
it denotes (the two zeros are not told apart, as `operator==` does not). -/
inductive Double where
  | finite (q : ℚ)
  | infinite (negative : Bool)
  | nan

/-- The comparison `operator==` on `double`: a NaN is equal to nothing. -/
def Double.eq : Double → Double → Bool
  | .finite a, .finite b => decide (a = b)
  | .infinite s, .infinite t => s == t
  | _, _ => false

/-- The conversion of an `int` to `double`; it is exact on 32-bit integers. -/
def Double.ofInt (n : Int) : Double := .finite n

/-- Rounding of a rational to the nearest integer, ties to the even one. -/
def roundHalfEven (x : ℚ) : Int :=
  let f := Int.floor x
  let r := x - f
  if r < 1 / 2 then f
  else if 1 / 2 < r then f + 1
  else if f % 2 = 0 then f else f + 1

/-- The power of two that weighs the last place of the binary64 significand
of a magnitude `a`: 52 places below the leading bit, never below `2^-1074`. -/
def binary64Exponent (a : ℚ) : Int :=
  max (Int.log 2 a - 52) (-1074)

/-- Rounding of a positive magnitude to the nearest multiple of the weight of
its last place, ties to even; the exponent range is not bounded above. -/
def roundMagnitude (a : ℚ) : ℚ :=
  (roundHalfEven (a / (2 : ℚ) ^ binary64Exponent a) : ℚ) * (2 : ℚ) ^ binary64Exponent a

/-- Rounding to the nearest binary64 value (ties to even) when the exponent
range is unbounded above: the sign is kept and the magnitude is rounded. -/
def roundBinary64 (q : ℚ) : ℚ :=
  if q = 0 then 0
  else if q < 0 then -roundMagnitude |q|
  else roundMagnitude |q|

/-- Rounding of a positive magnitude to 53 significant bits (ties to even)
when the exponent range is unbounded below as well: the weight of the last
place is always 52 places below the leading bit. -/
def roundUnbounded (a : ℚ) : ℚ :=
  (roundHalfEven (a / (2 : ℚ) ^ (Int.log 2 a - 52)) : ℚ) * (2 : ℚ) ^ (Int.log 2 a - 52)

/-- The largest finite binary64 value, `DBL_MAX`. -/
def binary64Max : ℚ := 2 ^ 1024 - 2 ^ 971

/-- The smallest positive normal binary64 value, `DBL_MIN`. -/
def binary64MinNormal : ℚ := (2 : ℚ) ^ (-1022 : Int)

/-! ## The value model -/

/-- The class `Node`: one constructor for each alternative of
`std::variant<std::nullptr_t, Array, Dict, int, double, bool, std::string>`. -/
inductive Node where
  | null
  | array (v : List Node)
  | dict (v : List (List Char × Node))
  | int (v : Int)
  | double (v : Double)
  | bool (v : Bool)
  | string (v : List Char)

/-- The type `Array`, a `std::vector<Node>`. -/
abbrev Array := List Node

/-- The type `Dict`, a `std::map<std::string, Node>` listed in iteration order. -/
abbrev Dict := List (List Char × Node)

/-- The exception type `std::logic_error` thrown by the typed extractors. -/
inductive LogicError where
  | mk

namespace Node

/-- The method `Node::IsInt`. -/
def IsInt : Node → Bool
  | .int _ => true
  | _ => false

/-- The method `Node::IsPureDouble`. -/
def IsPureDouble : Node → Bool
  | .double _ => true
  | _ => false

/-- The method `Node::IsDouble`: holds a `double` or holds an `int`. -/
def IsDouble : Node → Bool
  | .double _ => true
  | .int _ => true
  | _ => false

/-- The method `Node::IsBool`. -/
def IsBool : Node → Bool
  | .bool _ => true
  | _ => false

/-- The method `Node::IsString`. -/
def IsString : Node → Bool
  | .string _ => true
  | _ => false

/-- The method `Node::IsNull`. -/
def IsNull : Node → Bool
  | .null => true
  | _ => false

/-- The method `Node::IsArray`. -/
def IsArray : Node → Bool
  | .array _ => true
  | _ => false

/-- The method `Node::IsMap`. -/
def IsMap : Node → Bool
  | .dict _ => true
  | _ => false

/-- The method `Node::AsInt`. -/
def AsInt (node : Node) : Except LogicError Int :=
  if !node.IsInt then .error .mk
  else match node with
    | .int v => .ok v
    | _ => .error .mk

/-- The method `Node::AsBool`. -/
def AsBool (node : Node) : Except LogicError Bool :=
  if !node.IsBool then .error .mk
  else match node with
    | .bool v => .ok v
    | _ => .error .mk

/-- The method `Node::AsDouble`: an `int` is widened to `double`. -/
def AsDouble (node : Node) : Except LogicError Double :=
  if !node.IsDouble then .error .mk
  else if node.IsInt then
    match node with
    | .int v => .ok (Double.ofInt v)
    | _ => .error .mk
  else
    match node with
    | .double v => .ok v
    | _ => .error .mk

/-- The method `Node::AsString`. -/
def AsString (node : Node) : Except LogicError (List Char) :=
  if !node.IsString then .error .mk
  else match node with
    | .string v => .ok v
    | _ => .error .mk

/-- The method `Node::AsArray`. -/
def AsArray (node : Node) : Except LogicError Array :=
  if !node.IsArray then .error .mk
  else match node with
    | .array v => .ok v
    | _ => .error .mk

/-- The method `Node::AsMap`. -/
def AsMap (node : Node) : Except LogicError Dict :=
  if !node.IsMap then .error .mk
  else match node with
    | .dict v => .ok v
    | _ => .error .mk

mutual
/-- The operator `Node::operator==`, the equality of `std::variant`: the same
alternative is active on both sides and the two payloads compare equal. -/
def eq : Node → Node → Bool
  | .null, .null => true
  | .array a, .array b => eqArray a b
  | .dict a, .dict b => eqDict a b
  | .int a, .int b => decide (a = b)
  | .double a, .double b => Double.eq a b
  | .bool a, .bool b => decide (a = b)
  | .string a, .string b => decide (a = b)
  | _, _ => false
/-- Equality of `std::vector<Node>`: equal sizes and equal elements in order. -/
def eqArray : List Node → List Node → Bool
  | [], [] => true
  | x :: xs, y :: ys => eq x y && eqArray xs ys
  | _, _ => false
/-- Equality of `std::map<std::string, Node>`: equal sizes and, in iteration
order, equal keys and equal values. -/
def eqDict : List (List Char × Node) → List (List Char × Node) → Bool
  | [], [] => true
  | (k, x) :: xs, (l, y) :: ys => decide (k = l) && eq x y && eqDict xs ys
  | _, _ => false
end

/-- The operator `Node::operator!=`. -/
def ne (a b : Node) : Bool := !(eq a b)

end Node

/-! ## The ordered map -/

/-- The comparison `operator<` of `std::string`, the key order of `Dict`:
lexicographic on the character codes, a proper prefix coming first. -/
def stringLess : List Char → List Char → Bool
  | [], [] => false
  | [], _ :: _ => true
  | _ :: _, [] => false
  | a :: as, b :: bs =>
    if a.toNat < b.toNat then true
    else if b.toNat < a.toNat then false
    else stringLess as bs

/-- The call `dict.emplace(key, value)`: the entry is put at its place in
the key order, unless the map already holds an equivalent key, in which case
the map is left as it is. -/
def emplace (key : List Char) (value : Node) : Dict → Dict
  | [] => [(key, value)]
  | (k, v) :: rest =>
    if stringLess key k then (key, value) :: (k, v) :: rest
    else if stringLess k key then (k, v) :: emplace key value rest
    else (k, v) :: rest

/-- The lookup `dict.find(key)`: the value stored under an equivalent key. -/
def find (key : List Char) : Dict → Option Node
  | [] => none
  | (k, v) :: rest =>
    if stringLess key k then none
    else if stringLess k key then find key rest
    else some v

/-- The keys of a map are strictly ascending: the invariant of `std::map`. -/
def keysAscending : Dict → Bool
  | [] => true
  | [_] => true
  | (k, _) :: (l, w) :: rest => stringLess k l && keysAscending ((l, w) :: rest)

/-! ## The printer -/

/-- The character that `operator<<` writes for the decimal digit `d`. -/
def digitChar (d : Nat) : Char := Char.ofNat (48 + d)

/-- The decimal digits of `n`, most significant first; `fuel` bounds the
number of digits. -/
def decimalDigits : Nat → Nat → List Char
  | 0, _ => []
  | fuel + 1, n =>
    if n < 10 then [digitChar n]
    else decimalDigits fuel (n / 10) ++ [digitChar (n % 10)]

namespace PrintValue

/-- The overload `PrintValue::operator()(int)`: `out << value` writes the
decimal digits, after a minus sign for a negative value. -/
def int (value : Int) : List Char :=
  if value < 0 then '-' :: decimalDigits (value.natAbs + 1) value.natAbs
  else decimalDigits (value.natAbs + 1) value.natAbs

/-- The overload `PrintValue::operator()(bool)`. -/
def bool (value : Bool) : List Char :=
  match value with
  | true => "true".toList
  | false => "false".toList

/-- The body of the loop of `PrintValue::operator()(const std::string&)`:
what is appended to `str` for the characters of `value`. -/
def escape : List Char → List Char
  | [] => []
  | ch :: rest =>
    (if ch = '\n' then ['\\', 'n']
     else if ch = '\r' then ['\\', 'r']
     else if ch = '"' then ['\\', '"']
     else if ch = '\t' then ['\\', 't']
     else if ch = '\\' then ['\\', '\\']
     else [ch]) ++ escape rest

/-- The overload `PrintValue::operator()(const std::string&)`. -/
def string (value : List Char) : List Char :=
  ['"'] ++ escape value ++ ['"']

/-- The overload `PrintValue::operator()(std::nullptr_t)`. -/
def null : List Char := "null".toList

end PrintValue

section Printer

/- `fmtDouble` is the text that `out << value` writes for a `double`.  The
stream formatting of floating-point numbers is not described here: every
statement below holds for each way of writing them. -/
variable (fmtDouble : Double → List Char)

mutual
/-- The method `Node::Print`: `std::visit(PrintValue(out), value_)`. -/
def Node.Print : Node → List Char
  | .null => PrintValue.null
  | .array v => ['['] ++ PrintValue.array true v ++ [']']
  | .dict v => ['{'] ++ PrintValue.dict true v ++ ['}']
  | .int v => PrintValue.int v
  | .double v => fmtDouble v
  | .bool v => PrintValue.bool v
  | .string v => PrintValue.string v
/-- The loop of `PrintValue::operator()(const Array&)`, entered with the
current value of `is_first`. -/
def PrintValue.array : Bool → List Node → List Char
  | _, [] => []
  | is_first, i :: rest =>
    (if is_first then [] else ", ".toList) ++ Node.Print i ++ PrintValue.array false rest
/-- The loop of `PrintValue::operator()(const Dict&)`, entered with the
current value of `is_first`; the key is written by
`std::format("\"\x7b\x7d\": ", key)`. -/
def PrintValue.dict : Bool → List (List Char × Node) → List Char
  | _, [] => []
  | is_first, (key, value) :: rest =>
    (if is_first then [] else ", ".toList) ++ (['"'] ++ key ++ "\": ".toList)
      ++ Node.Print value ++ PrintValue.dict false rest
end

end Printer

/-- The class `Document`: the owner of one root `Node`. -/
structure Document where
  root_ : Node

/-- The method `Document::GetRoot`. -/
def Document.GetRoot (doc : Document) : Node := doc.root_

/-- The operator `Document::operator==`. -/
def Document.eq (a b : Document) : Bool := Node.eq a.root_ b.root_

/-- The function `Print(const Document&, std::ostream&)`. -/
def Print (fmtDouble : Double → List Char) (doc : Document) : List Char :=
  Node.Print fmtDouble doc.GetRoot

/-! ## Conversions of the standard library -/

/-- The value of a run of decimal digits, most significant first. -/
def digitsValue (ds : List Char) : Nat :=
  ds.foldl (fun acc c => acc * 10 + (c.toNat - 48)) 0

/-- White space at the front of a string, which `strtol` and `strtod` pass over. -/
def skipBlank : List Char → List Char
  | [] => []
  | c :: rest => if isspace c then skipBlank rest else c :: rest

/-- The function `std::stoi` in base ten: optional white space, an optional
sign, then the longest run of digits.  `none` stands for a thrown
`std::invalid_argument` (no digit) or `std::out_of_range` (the value is not
an `int`, which has 32 bits). -/
def stoi (str : List Char) : Option Int :=
  let s := skipBlank str
  let negative : Bool := decide (s.head? = some '-')
  let s := if s.head? = some '-' ∨ s.head? = some '+' then s.tail else s
  let ds := s.takeWhile isdigit
  if ds = [] then none
  else
    let v : Int := if negative then -(digitsValue ds : Int) else (digitsValue ds : Int)
    if -2147483648 ≤ v ∧ v ≤ 2147483647 then some v else none

/-- The exponent part of a decimal floating-point string: `e` or `E`, an
optional sign and a run of digits; it counts only when a digit is there. -/
def decimalExponent (s : List Char) : Int :=
  if s.head? = some 'e' ∨ s.head? = some 'E' then
    let t := s.tail
    let negative : Bool := decide (t.head? = some '-')
    let t := if t.head? = some '-' ∨ t.head? = some '+' then t.tail else t
    let ds := t.takeWhile isdigit
    if negative then -(digitsValue ds : Int) else (digitsValue ds : Int)
  else 0

/-- The function `std::stod` on decimal strings: optional white space, an
optional sign, digits, an optional `.` and digits, an optional exponent.  The
decimal value is rounded to the nearest binary64 value.  `none` stands
for a thrown `std::invalid_argument` (no digit) or `std::out_of_range`
(`strtod` reports `ERANGE`: the rounded value is past `DBL_MAX`, or the result
is tiny and inexact; a result is tiny when the value, rounded to 53 bits in an
unbounded exponent range, is still below `DBL_MIN`, which is how tininess is
detected after rounding). -/
def stod (str : List Char) : Option Double :=
  let s := skipBlank str
  let negative : Bool := decide (s.head? = some '-')
  let s := if s.head? = some '-' ∨ s.head? = some '+' then s.tail else s
  let ip := s.takeWhile isdigit
  let s := s.dropWhile isdigit
  let fp := if s.head? = some '.' then s.tail.takeWhile isdigit else []
  let s := if s.head? = some '.' then s.tail.dropWhile isdigit else s
  if ip = [] ∧ fp = [] then none
  else
    let m : ℚ := (digitsValue (ip ++ fp) : ℚ) * (10 : ℚ) ^ (decimalExponent s - (fp.length : Int))
    let v : ℚ := if negative then -m else m
    if binary64Max < |roundBinary64 v| then none
    else if roundUnbounded |v| < binary64MinNormal ∧ roundBinary64 v ≠ v then none
    else some (.finite (roundBinary64 v))

/-! ## The loader -/

/-- What a parsing routine does with the stream: it returns a value and
leaves `rest` unread, or it throws `ParsingError`.  The third outcome belongs
to the fuel counter alone. -/
inductive ParseResult (α : Type) where
  | ok (value : α) (rest : List Char)
  | parsingError
  | outOfFuel

/-- The result of wrapping the returned value, as in `Document(LoadNode(input))`. -/
def ParseResult.map {α β : Type} (f : α → β) : ParseResult α → ParseResult β
  | .ok value rest => .ok (f value) rest
  | .parsingError => .parsingError
  | .outOfFuel => .outOfFuel

/-- The function `SkipSpace`: `get` as long as `peek` is white space. -/
def SkipSpace : List Char → List Char
  | [] => []
  | c :: rest => if isspace c then SkipSpace rest else c :: rest

/-- The loop of `ParseString`.  `c` is the character read last (`none` before
the first read, when the variable is not yet initialised), `escape` the flag.
At end of file `input.get(c)` leaves `c` as it is and the loop ends; the test
`c != '"'` that follows decides between the throw and the return.  A `c` that
was never written is taken to differ from the quote. -/
def ParseStringLoop : List Char → Option Char → Bool → List Char → ParseResult (List Char)
  | str, c, _, [] => if c = some '"' then .ok str [] else .parsingError
  | str, _, escape, ch :: rest =>
    if !escape && ch = '"' then .ok str rest
    else if escape then
      ParseStringLoop
        (if ch = 'n' then str ++ ['\n']
         else if ch = 'r' then str ++ ['\r']
         else if ch = '"' then str ++ ['"']
         else if ch = 't' then str ++ ['\t']
         else if ch = '\\' then str ++ ['\\']
         else str)
        (some ch) false rest
    else if ch = '\\' then ParseStringLoop str (some ch) true rest
    else ParseStringLoop (str ++ [ch]) (some ch) false rest

/-- The function `ParseString`. -/
def ParseString : List Char → ParseResult (List Char)
  | [] => .parsingError
  | c :: rest => if c ≠ '"' then .parsingError else ParseStringLoop [] none false rest

/-- The function `LoadString`. -/
def LoadString (input : List Char) : ParseResult Node :=
  (ParseString input).map Node.string

/-- The loop `while(std::isalpha(input.peek())) str += input.get();` of
`LoadBool` and `LoadNull`. -/
def readAlpha : List Char → List Char → List Char × List Char
  | str, [] => (str, [])
  | str, c :: rest => if isalpha c then readAlpha (str ++ [c]) rest else (str, c :: rest)

/-- The function `LoadBool`. -/
def LoadBool (input : List Char) : ParseResult Node :=
  let r := readAlpha [] input
  if r.1 = "true".toList then .ok (.bool true) r.2
  else if r.1 = "false".toList then .ok (.bool false) r.2
  else .parsingError

/-- The function `LoadNull`. -/
def LoadNull (input : List Char) : ParseResult Node :=
  let r := readAlpha [] input
  if r.1 ≠ "null".toList then .parsingError
  else .ok .null r.2

/-- The lambda `read_char` of `LoadNumber`, on the pair of `str` and the
stream; `none` is its throw at end of file. -/
def read_char : List Char × List Char → Option (List Char × List Char)
  | (_, []) => none
  | (str, c :: rest) => some (str ++ [c], rest)

/-- The loop `while (std::isdigit(input.peek())) read_char();`. -/
def readDigitRun : List Char → List Char → List Char × List Char
  | str, [] => (str, [])
  | str, c :: rest => if isdigit c then readDigitRun (str ++ [c]) rest else (str, c :: rest)

/-- The lambda `read_digits` of `LoadNumber`; `none` is its throw. -/
def read_digits : List Char × List Char → Option (List Char × List Char)
  | (_, []) => none
  | (str, c :: rest) => if !isdigit c then none else some (readDigitRun str (c :: rest))

/-- The statement `if(input.peek() == '-') read_char();`. -/
def scanSign (s : List Char × List Char) : Option (List Char × List Char) :=
  if s.2.head? = some '-' then read_char s else some s

/-- The statement `if (input.peek() == '0') read_char(); else read_digits();`. -/
def scanInteger (s : List Char × List Char) : Option (List Char × List Char) :=
  if s.2.head? = some '0' then read_char s else read_digits s

/-- The declaration of `is_int` and the statement on `.` that follows it: the
new pair and the value of `is_int`. -/
def scanFraction (s : List Char × List Char) : Option ((List Char × List Char) × Bool) :=
  if s.2.head? = some '.' then
    ((read_char s).bind read_digits).map (fun t => (t, false))
  else some (s, true)

/-- The statement on the exponent marker `e` or `E`. -/
def scanExponent (p : (List Char × List Char) × Bool) :
    Option ((List Char × List Char) × Bool) :=
  if p.1.2.head? = some 'e' ∨ p.1.2.head? = some 'E' then
    (((read_char p.1).bind
      (fun t => if t.2.head? = some '+' ∨ t.2.head? = some '-' then read_char t else some t)).bind
      read_digits).map (fun t => (t, false))
  else some p

/-- The scanning part of `LoadNumber` (up to the `try`): the token `str`, the
flag `is_int` and the stream behind the token; `none` is a throw. -/
def scanNumber (input : List Char) : Option (List Char × Bool × List Char) :=
  ((((scanSign ([], input)).bind scanInteger).bind scanFraction).bind scanExponent).map
    (fun p => (p.1.1, p.2, p.1.2))

/-- The converting part of `LoadNumber`: `std::stoi` when `is_int` holds, with
every exception swallowed, then `std::stod`, whose exception is turned into
`ParsingError`. -/
def convertNumber (str : List Char) (is_int : Bool) (rest : List Char) : ParseResult Node :=
  match (if is_int then stoi str else none) with
  | some n => .ok (.int n) rest
  | none =>
    match stod str with
    | some d => .ok (.double d) rest
    | none => .parsingError

/-- The function `LoadNumber`. -/
def LoadNumber (input : List Char) : ParseResult Node :=
  match scanNumber input with
  | none => .parsingError
  | some (str, is_int, rest) => convertNumber str is_int rest

section Containers

/- `LoadNode` stands for the recursive call `LoadNode(input)` made by the two
container routines. -/
variable (LoadNode : List Char → ParseResult Node)

/-- The loop `while(true)` of `LoadArray`; `fuel` bounds the iterations.  At
end of file `input.get()` gives a character that is neither `]` nor `,`. -/
def LoadArrayLoop : Nat → List Node → List Char → ParseResult Node
  | 0, _, _ => .outOfFuel
  | fuel + 1, result, input =>
    match LoadNode (SkipSpace input) with
    | .parsingError => .parsingError
    | .outOfFuel => .outOfFuel
    | .ok value rest =>
      match SkipSpace rest with
      | [] => .parsingError
      | c :: rest1 =>
        if c = ']' then .ok (.array (result ++ [value])) rest1
        else if c ≠ ',' then .parsingError
        else LoadArrayLoop fuel (result ++ [value]) rest1

/-- The function `LoadArray`.  Every turn of the loop that does not end it
reads at least one character, so the length of the stream bounds the turns. -/
def LoadArray : List Char → ParseResult Node
  | [] => .parsingError
  | c :: rest =>
    if c ≠ '[' then .parsingError
    else if (SkipSpace rest).head? = some ']' then .ok (.array []) (SkipSpace rest).tail
    else LoadArrayLoop LoadNode ((SkipSpace rest).length + 1) [] (SkipSpace rest)

/-- The loop `while(true)` of `LoadDict`; `fuel` bounds the iterations. -/
def LoadDictLoop : Nat → Dict → List Char → ParseResult Node
  | 0, _, _ => .outOfFuel
  | fuel + 1, result, input =>
    match ParseString (SkipSpace input) with
    | .parsingError => .parsingError
    | .outOfFuel => .outOfFuel
    | .ok key rest =>
      match SkipSpace rest with
      | [] => .parsingError
      | c :: rest1 =>
        if c ≠ ':' then .parsingError
        else
          match LoadNode (SkipSpace rest1) with
          | .parsingError => .parsingError
          | .outOfFuel => .outOfFuel
          | .ok value rest2 =>
            match SkipSpace rest2 with
            | [] => .parsingError
            | d :: rest3 =>
              if d = '}' then .ok (.dict (emplace key value result)) rest3
              else if d ≠ ',' then .parsingError
              else LoadDictLoop fuel (emplace key value result) rest3

/-- The function `LoadDict`. -/
def LoadDict : List Char → ParseResult Node
  | [] => .parsingError
  | c :: rest =>
    if c ≠ '{' then .parsingError
    else if (SkipSpace rest).head? = some '}' then .ok (.dict []) (SkipSpace rest).tail
    else LoadDictLoop LoadNode ((SkipSpace rest).length + 1) [] (SkipSpace rest)

end Containers

/-- The function `LoadNode`; `fuel` bounds the depth of the recursion.  After
`SkipSpace`, `input >> c` reads the character that `putback` then returns to
the stream.  At end of file nothing is read and the stream is in a failed
state, in which every branch of the `switch` ends in a throw. -/
def LoadNode : Nat → List Char → ParseResult Node
  | 0, _ => .outOfFuel
  | fuel + 1, input =>
    match SkipSpace input with
    | [] => .parsingError
    | c :: rest =>
      if c = '[' then LoadArray (LoadNode fuel) (c :: rest)
      else if c = '{' then LoadDict (LoadNode fuel) (c :: rest)
      else if c = '"' then LoadString (c :: rest)
      else if c = 'n' then LoadNull (c :: rest)
      else if c = 't' then LoadBool (c :: rest)
      else if c = 'f' then LoadBool (c :: rest)
      else LoadNumber (c :: rest)

/-- The function `Load`.  Each nested call of `LoadNode` comes after a `[` or
a `\x7b` has been read, so the depth stays below the length of the input. -/
def Load (input : List Char) : ParseResult Document :=
  (LoadNode (input.length + 1) input).map Document.mk

/-! ## Notions used by the statements -/

mutual
/-- No node of the tree holds a `double`. -/
def Node.DoubleFree : Node → Bool
  | .double _ => false
  | .array v => DoubleFree.array v
  | .dict v => DoubleFree.dict v
  | _ => true
/-- No element of the array holds a `double` at any depth. -/
def DoubleFree.array : List Node → Bool
  | [] => true
  | x :: xs => Node.DoubleFree x && DoubleFree.array xs
/-- No value of the map holds a `double` at any depth. -/
def DoubleFree.dict : List (List Char × Node) → Bool
  | [] => true
  | (_, x) :: xs => Node.DoubleFree x && DoubleFree.dict xs
end

mutual
/-- The tree is a value that the C++ types can hold: every `int` has 32 bits
and the keys of every map are strictly ascending. -/
def Node.WellFormed : Node → Bool
  | .int v => decide (-2147483648 ≤ v ∧ v ≤ 2147483647)
  | .array v => WellFormed.array v
  | .dict v => keysAscending v && WellFormed.dict v
  | _ => true
/-- Every element of the array is well formed. -/
def WellFormed.array : List Node → Bool
  | [] => true
  | x :: xs => Node.WellFormed x && WellFormed.array xs
/-- Every value of the map is well formed. -/
def WellFormed.dict : List (List Char × Node) → Bool
  | [] => true
  | (_, x) :: xs => Node.WellFormed x && WellFormed.dict xs
end

/-- Structural equality as the specification words it: the same alternative
is active and the payloads are equal, arrays element by element in order, maps
as the same set of keys with equal values under each key.  (No rule for
`double`: the relation is used on trees without one.) -/
inductive StructEq : Node → Node → Prop where
  | null : StructEq .null .null
  | bool (v : Bool) : StructEq (.bool v) (.bool v)
  | int (v : Int) : StructEq (.int v) (.int v)
  | string (v : List Char) : StructEq (.string v) (.string v)
  | array (a b : List Node) :
      a.length = b.length →
      (∀ (i : Nat) (x y : Node), a[i]? = some x → b[i]? = some y → StructEq x y) →
      StructEq (.array a) (.array b)
  | dict (a b : List (List Char × Node)) :
      (∀ key : List Char, (find key a).isSome = (find key b).isSome) →
      (∀ (key : List Char) (x y : Node), find key a = some x → find key b = some y →
        StructEq x y) →
      StructEq (.dict a) (.dict b)

/-- The value that stands first under `key` in a list of entries. -/
def firstValue (key : List Char) : List (List Char × Node) → Option Node
  | [] => none
  | (k, v) :: rest => if k = key then some v else firstValue key rest

section Entries

variable (LoadNode : List Char → ParseResult Node)

/-- The entries that the loop of `LoadDict` reads, in the order of the text:
the same loop with `entries.push_back` in the place of `result.emplace`. -/
def LoadDictEntriesLoop :
    Nat → List (List Char × Node) → List Char → ParseResult (List (List Char × Node))
  | 0, _, _ => .outOfFuel
  | fuel + 1, entries, input =>
    match ParseString (SkipSpace input) with
    | .parsingError => .parsingError
    | .outOfFuel => .outOfFuel
    | .ok key rest =>
      match SkipSpace rest with
      | [] => .parsingError
      | c :: rest1 =>
        if c ≠ ':' then .parsingError
        else
          match LoadNode (SkipSpace rest1) with
          | .parsingError => .parsingError
          | .outOfFuel => .outOfFuel
          | .ok value rest2 =>
            match SkipSpace rest2 with
            | [] => .parsingError
            | d :: rest3 =>
              if d = '}' then .ok (entries ++ [(key, value)]) rest3
              else if d ≠ ',' then .parsingError
              else LoadDictEntriesLoop fuel (entries ++ [(key, value)]) rest3

/-- The entries of the object that `LoadDict` reads, in the order of the text. -/
def LoadDictEntries : List Char → ParseResult (List (List Char × Node))
  | [] => .parsingError
  | c :: rest =>
    if c ≠ '{' then .parsingError
    else if (SkipSpace rest).head? = some '}' then .ok [] (SkipSpace rest).tail
    else LoadDictEntriesLoop LoadNode ((SkipSpace rest).length + 1) [] (SkipSpace rest)

end Entries

/-- The entries, in the order of the text, of the object that `Load` reads
from an input whose first character after white space is `\x7b`. -/
def LoadEntries (input : List Char) : ParseResult (List (List Char × Node)) :=
  if (SkipSpace input).head? = some '{' then
    LoadDictEntries (LoadNode input.length) (SkipSpace input)
  else .parsingError

/-- The sign of a number token: nothing or one `-`. -/
def IsSign (sign : List Char) : Prop := sign = [] ∨ sign = ['-']

/-- The integer part of a number token: a single `0`, or a run of digits
that does not begin with `0`. -/
def IsIntegerPart (ip : List Char) : Prop :=
  ip = ['0'] ∨ (ip ≠ [] ∧ (∀ c ∈ ip, isdigit c = true) ∧ ip.head? ≠ some '0')

/-- The fraction part of a number token: nothing, or `.` and a run of digits. -/
def IsFractionPart (fp : List Char) : Prop :=
  fp = [] ∨ ∃ ds : List Char, ds ≠ [] ∧ (∀ c ∈ ds, isdigit c = true) ∧ fp = '.' :: ds

/-- The stream does not go on with a digit. -/
def NoDigitAhead (rest : List Char) : Prop :=
  ∀ c ∈ rest.head?, isdigit c = false

/-- The inputs of `LoadNumber` in which a required run of digits is missing:
after the leading `-`, after the `.` that follows the integer part, or after
the exponent marker and its optional sign. -/
inductive MissingDigits : List Char → Prop where
  | afterMinus (rest : List Char) :
      NoDigitAhead rest → MissingDigits ('-' :: rest)
  | afterPoint (sign ip rest : List Char) :
      IsSign sign → IsIntegerPart ip → NoDigitAhead rest →
      MissingDigits (sign ++ ip ++ ('.' :: rest))
  | afterExponent (sign ip fp : List Char) (e : Char) (esign rest : List Char) :
      IsSign sign → IsIntegerPart ip → IsFractionPart fp → (e = 'e' ∨ e = 'E') →
      (esign = [] ∨ esign = ['+'] ∨ esign = ['-']) →
      (esign = [] → rest.head? ≠ some '+' ∧ rest.head? ≠ some '-') →
      NoDigitAhead rest →
      MissingDigits (sign ++ ip ++ fp ++ (e :: esign) ++ rest)

/-- The exponent part of a number token: nothing, or the marker `e` or `E`,
an optional sign and a run of digits. -/
def IsExponentPart (ep : List Char) : Prop :=
  ep = [] ∨ ∃ (e : Char) (esign ds : List Char), (e = 'e' ∨ e = 'E') ∧
    (esign = [] ∨ esign = ['+'] ∨ esign = ['-']) ∧ ds ≠ [] ∧ (∀ c ∈ ds, isdigit c = true) ∧
    ep = e :: (esign ++ ds)

/-- The stream behind the number token `sign ++ ip ++ fp ++ ep` does not
lengthen the token: no digit is ahead (unless the token is the integer `0`,
which a digit does not lengthen), no `.` is ahead of a token without fraction
and exponent, and no exponent marker is ahead of a token without exponent. -/
def EndsNumber (ip fp ep tail : List Char) : Prop :=
  ((ip = ['0'] ∧ fp = [] ∧ ep = []) ∨ NoDigitAhead tail) ∧
  (fp = [] → ep = [] → tail.head? ≠ some '.') ∧
  (ep = [] → tail.head? ≠ some 'e' ∧ tail.head? ≠ some 'E')

/-- The integer that a token without `.` and without exponent denotes: the
value of its digits, negated after a `-`. -/
def integerValue (str : List Char) : Int :=
  if str.head? = some '-' then -(digitsValue str.tail : Int) else (digitsValue str : Int)

/-- The least magnitude that `std::stod` does not convert: `DBL_MAX` plus half
a unit in its last place, `2^1024 - 2^970`. -/
def binary64Overflow : ℚ := 2 ^ 1024 - 2 ^ 970

/-- The stream ends, or goes on with a character that cannot lengthen an
integer token: no digit, no `.`, no `e` and no `E`. -/
def EndsToken (rest : List Char) : Prop :=
  ∀ c ∈ rest.head?, isdigit c = false ∧ c ≠ '.' ∧ c ≠ 'e' ∧ c ≠ 'E'

/-- A sample tree without `double`: a map over an array and a string. -/
def sampleObject : Node :=
  .dict [("a".toList, .array [.int 1, .null]), ("b".toList, .string "x".toList)]

/-- A sample integer literal of 310 digits: `1` and 309 times `0`. -/
def sampleHugeLiteral : List Char := '1' :: List.replicate 309 '0'

/-! ## Notions used by the statements on the loader and the printer -/

/-- A piece of the contents of a string literal: one character that is not
escaped, or a backslash and the character behind it. -/
inductive Piece where
  | plain (c : Char)
  | escaped (x : Char)

/-- The characters of the piece in the literal. -/
def Piece.text : Piece → List Char
  | .plain c => [c]
  | .escaped x => ['\\', x]

/-- What the piece stands for, in the words of the specification: the five
escapes stand for one character each, any other escape stands for nothing, a
character that is not escaped stands for itself. -/
def Piece.decoded : Piece → List Char
  | .plain c => [c]
  | .escaped x =>
    if x = 'n' then ['\n']
    else if x = 'r' then ['\r']
    else if x = 't' then ['\t']
    else if x = '"' then ['"']
    else if x = '\\' then ['\\']
    else []

/-- A character that is not escaped is neither the backslash nor the double
quote. -/
def Piece.Proper : Piece → Prop
  | .plain c => c ≠ '\\' ∧ c ≠ '"'
  | .escaped _ => True

/-- The contents of the literal made of the pieces. -/
def literalText : List Piece → List Char
  | [] => []
  | p :: ps => p.text ++ literalText ps

/-- The string that the pieces stand for. -/
def literalValue : List Piece → List Char
  | [] => []
  | p :: ps => p.decoded ++ literalValue ps

/-- The loader reads `value` from the front of `input` and leaves `rest`:
some amount of fuel gives that result. -/
def Parses (input : List Char) (value : Node) (rest : List Char) : Prop :=
  ∃ fuel : Nat, LoadNode fuel input = .ok value rest

/-- The stream, at the place where the loop of `LoadArray` expects an element,
goes on to a delimiter error: behind some element that is read, and optional
white space, comes the end of the input or a character that is neither `,` nor
`]`; or behind a `,` and optional white space comes `]`. -/
inductive ArrayDelimiterError : List Char → Prop where
  | badDelimiter (input : List Char) (value : Node) (rest : List Char) :
      Parses (SkipSpace input) value rest →
      (∀ c ∈ (SkipSpace rest).head?, c ≠ ',' ∧ c ≠ ']') →
      ArrayDelimiterError input
  | trailingComma (input : List Char) (value : Node) (rest next : List Char) :
      Parses (SkipSpace input) value rest →
      SkipSpace rest = ',' :: next →
      (SkipSpace next).head? = some ']' →
      ArrayDelimiterError input
  | later (input : List Char) (value : Node) (rest next : List Char) :
      Parses (SkipSpace input) value rest →
      SkipSpace rest = ',' :: next →
      ArrayDelimiterError next →
      ArrayDelimiterError input

/-- The stream, at the place where the loop of `LoadDict` expects a key, goes
on to a key error: the first character after white space is not a double quote
(or the input ends), or the first character after white space behind the key
is not `:` (or the input ends); possibly behind some entries that are read. -/
inductive ObjectKeyError : List Char → Prop where
  | noQuote (input : List Char) :
      (SkipSpace input).head? ≠ some '"' →
      ObjectKeyError input
  | noColon (input key rest : List Char) :
      ParseString (SkipSpace input) = .ok key rest →
      (SkipSpace rest).head? ≠ some ':' →
      ObjectKeyError input
  | later (input key rest rest1 : List Char) (value : Node) (rest2 next : List Char) :
      ParseString (SkipSpace input) = .ok key rest →
      SkipSpace rest = ':' :: rest1 →
      Parses (SkipSpace rest1) value rest2 →
      SkipSpace rest2 = ',' :: next →
      ObjectKeyError next →
      ObjectKeyError input

/-- The texts joined with `sep` between each two of them. -/
def separated (sep : List Char) : List (List Char) → List Char
  | [] => []
  | [t] => t
  | t :: u :: ts => t ++ sep ++ separated sep (u :: ts)

mutual
/-- The output format in the words of the specification: `null`; `true` or
`false`; the decimal text of an `Int`; for an array `[`, the texts of the
elements in stored order with comma and space between them, `]`; for a map
`\x7b`, the entries in stored order with comma and space between them, each
entry being the key between double quotes, a colon, a space and the text of the
value, `\x7d`.  A string is written as the String printer writes it; nothing is
said of a `double`. -/
def canonicalText : Node → List Char
  | .array v => ['['] ++ separated [',', ' '] (canonicalTexts v) ++ [']']
  | .dict v => ['{'] ++ separated [',', ' '] (canonicalEntries v) ++ ['}']
  | .int v => (toString v).toList
  | .bool v => if v = true then "true".toList else "false".toList
  | .null => "null".toList
  | .string v => PrintValue.string v
  | .double _ => []
/-- The texts of the elements of an array, in stored order. -/
def canonicalTexts : List Node → List (List Char)
  | [] => []
  | x :: xs => canonicalText x :: canonicalTexts xs
/-- The texts of the entries of a map, in stored order. -/
def canonicalEntries : List (List Char × Node) → List (List Char)
  | [] => []
  | (key, x) :: xs => (['"'] ++ key ++ ['"', ':', ' '] ++ canonicalText x) :: canonicalEntries xs
end

/-- The characters that the printer escapes in a String and writes as they
are in a key: double quote, backslash, newline, carriage return and tab. -/
def isEscaped (c : Char) : Bool :=
  c = '"' || c = '\\' || c = '\n' || c = '\r' || c = '\t'

mutual
/-- No key of a map, at any depth, holds a double quote, a backslash, a
newline, a carriage return or a tab. -/
def Node.KeysPlain : Node → Bool
  | .array v => KeysPlain.array v
  | .dict v => KeysPlain.dict v
  | _ => true
/-- The keys of the maps in the elements are plain. -/
def KeysPlain.array : List Node → Bool
  | [] => true
  | x :: xs => Node.KeysPlain x && KeysPlain.array xs
/-- The keys of the map, and of the maps in its values, are plain. -/
def KeysPlain.dict : List (List Char × Node) → Bool
  | [] => true
  | (key, x) :: xs => key.all (fun c => !isEscaped c) && Node.KeysPlain x && KeysPlain.dict xs
end

/-- The stream ends, or goes on with a character that is no digit, no letter
and no `.`: what follows a value in the text of the printer. -/
def Delimited (tail : List Char) : Prop :=
  ∀ c ∈ tail.head?, isdigit c = false ∧ isalpha c = false ∧ c ≠ '.'

/-! ## Lemmas -/

theorem stringLess_irrefl : ∀ a : List Char, stringLess a a = false
  | [] => rfl
  | a :: as => by simp [stringLess, stringLess_irrefl as]

theorem stringLess_asymm : ∀ a b : List Char, stringLess a b = true → stringLess b a = false
  | [], [], h => by simp [stringLess] at h
  | [], _ :: _, _ => by simp [stringLess]
  | _ :: _, [], h => by simp [stringLess] at h
  | a :: as, b :: bs, h => by
    simp only [stringLess] at h ⊢
    by_cases h1 : a.toNat < b.toNat
    · have h2 : ¬ b.toNat < a.toNat := by omega
      simp [h1, h2]
    · by_cases h2 : b.toNat < a.toNat
      · simp [h1, h2] at h
      · simp only [h1, h2, if_false] at h ⊢
        exact stringLess_asymm as bs h

theorem stringLess_total : ∀ a b : List Char,
    stringLess a b = false → stringLess b a = false → a = b
  | [], [], _, _ => rfl
  | [], _ :: _, h, _ => by simp [stringLess] at h
  | _ :: _, [], _, h => by simp [stringLess] at h
  | a :: as, b :: bs, h, h' => by
    simp only [stringLess] at h h'
    by_cases h1 : a.toNat < b.toNat
    · simp [h1] at h
    · by_cases h2 : b.toNat < a.toNat
      · simp [h2] at h'
      · simp only [h1, h2, if_false] at h h'
        have hab : a = b := Char.ext (UInt32.ext (by
          have : a.toNat = b.toNat := by omega
          exact this))
        rw [hab, stringLess_total as bs h h']

theorem stringLess_trans : ∀ a b c : List Char,
    stringLess a b = true → stringLess b c = true → stringLess a c = true
  | [], [], _, h, _ => by simp [stringLess] at h
  | [], _ :: _, [], _, h => by simp [stringLess] at h
  | [], _ :: _, _ :: _, _, _ => by simp [stringLess]
  | _ :: _, [], _, h, _ => by simp [stringLess] at h
  | _ :: _, _ :: _, [], _, h => by simp [stringLess] at h
  | a :: as, b :: bs, c :: cs, h, h' => by
    simp only [stringLess] at h h' ⊢
    by_cases h1 : a.toNat < b.toNat
    · by_cases h3 : b.toNat < c.toNat
      · have : a.toNat < c.toNat := by omega
        simp [this]
      · by_cases h4 : c.toNat < b.toNat
        · simp [h3, h4] at h'
        · have : a.toNat < c.toNat := by omega
          simp [this]
    · by_cases h2 : b.toNat < a.toNat
      · simp [h1, h2] at h
      · simp only [h1, h2, if_false] at h
        by_cases h3 : b.toNat < c.toNat
        · have : a.toNat < c.toNat := by omega
          simp [this]
        · by_cases h4 : c.toNat < b.toNat
          · simp [h3, h4] at h'
          · simp only [h3, h4, if_false] at h'
            have e1 : ¬ a.toNat < c.toNat := by omega
            have e2 : ¬ c.toNat < a.toNat := by omega
            simp only [e1, e2, if_false]
            exact stringLess_trans as bs cs h h'

/-- What `find` sees after an `emplace`: an entry that was there stays, and
the new key is found only if no equivalent key was there. -/
theorem find_emplace (key : List Char) (value : Node) (k : List Char) :
    ∀ d : Dict, find k (emplace key value d) =
      match find k d with
      | some x => some x
      | none => if key = k then some value else none
  | [] => by
    simp only [emplace, find]
    by_cases h1 : stringLess k key = true
    · have : key ≠ k := by
        rintro rfl
        rw [stringLess_irrefl] at h1
        exact absurd h1 (by simp)
      simp [h1, this]
    · by_cases h2 : stringLess key k = true
      · have : key ≠ k := by
          rintro rfl
          rw [stringLess_irrefl] at h2
          exact absurd h2 (by simp)
        simp [h1, h2, this]
      · have e : key = k := stringLess_total key k (by simpa using h2) (by simpa using h1)
        subst e
        simp [stringLess_irrefl]
  | (k', v') :: rest => by
    have ih := find_emplace key value k rest
    simp only [emplace]
    by_cases c1 : stringLess key k' = true
    · simp only [c1, if_true]
      by_cases h1 : stringLess k key = true
      · have hk : stringLess k k' = true := stringLess_trans k key k' h1 c1
        have : key ≠ k := by
          rintro rfl
          rw [stringLess_irrefl] at h1
          exact absurd h1 (by simp)
        simp [find, h1, hk, this]
      · by_cases h2 : stringLess key k = true
        · have : key ≠ k := by
            rintro rfl
            rw [stringLess_irrefl] at h2
            exact absurd h2 (by simp)
          rw [find]
          simp only [h1, h2, if_true, if_false]
          cases find k ((k', v') :: rest) <;> simp [this]
        · have e : key = k := stringLess_total key k (by simpa using h2) (by simpa using h1)
          subst e
          simp [find, c1, stringLess_irrefl]
    · by_cases c2 : stringLess k' key = true
      · simp only [c1, c2, if_true, if_false]
        by_cases h1 : stringLess k k' = true
        · have : key ≠ k := by
            rintro rfl
            rw [stringLess_asymm _ _ h1] at c2
            exact absurd c2 (by simp)
          simp [find, h1, this]
        · by_cases h2 : stringLess k' k = true
          · simp only [find, h1, h2, if_true, if_false]
            exact ih
          · simp [find, h1, h2]
      · have e : key = k' := stringLess_total key k' (by simpa using c1) (by simpa using c2)
        subst e
        simp only [stringLess_irrefl, Bool.false_eq_true, if_false]
        cases hf : find k ((key, v') :: rest) with
        | some x => rfl
        | none =>
          have : key ≠ k := by
            rintro rfl
            simp [find, stringLess_irrefl] at hf
          simp [this]

theorem firstValue_append (key : List Char) (e : List Char × Node) :
    ∀ entries : List (List Char × Node), firstValue key (entries ++ [e]) =
      match firstValue key entries with
      | some x => some x
      | none => if e.1 = key then some e.2 else none
  | [] => by simp [firstValue]
  | (k, v) :: rest => by
    simp only [List.cons_append, firstValue]
    by_cases h : k = key
    · simp [h]
    · simp only [h, if_false]
      exact firstValue_append key e rest

theorem isdigit_toNat {c : Char} (h : isdigit c = true) : 48 ≤ c.toNat ∧ c.toNat ≤ 57 := by
  simpa [isdigit] using h

theorem isdigit_not_space {c : Char} (h : isdigit c = true) : isspace c = false := by
  have := isdigit_toNat h
  simp only [isspace, Bool.or_eq_false_iff, decide_eq_false_iff_not, Bool.and_eq_false_iff]
  omega

theorem NoDigitAhead_nil : NoDigitAhead [] := by
  intro c hc
  simp at hc

theorem NoDigitAhead_cons {c : Char} (rest : List Char) (h : isdigit c = false) :
    NoDigitAhead (c :: rest) := by
  intro d hd
  simp only [List.head?_cons, Option.mem_def, Option.some.injEq] at hd
  subst hd
  exact h

theorem readDigitRun_eq : ∀ (input str : List Char),
    readDigitRun str input = (str ++ input.takeWhile isdigit, input.dropWhile isdigit)
  | [], str => by simp [readDigitRun]
  | c :: rest, str => by
    simp only [readDigitRun, List.takeWhile_cons, List.dropWhile_cons]
    by_cases h : isdigit c = true
    · simp [h, readDigitRun_eq rest]
    · simp [h]

theorem takeWhile_run : ∀ (ds tail : List Char), (∀ c ∈ ds, isdigit c = true) →
    NoDigitAhead tail → (ds ++ tail).takeWhile isdigit = ds ∧ (ds ++ tail).dropWhile isdigit = tail
  | [], [], _, _ => by simp
  | [], c :: rest, _, ht => by
    have : isdigit c = false := ht c (by simp)
    simp [List.takeWhile_cons, List.dropWhile_cons, this]
  | d :: ds, tail, hd, ht => by
    have h1 : isdigit d = true := hd d (by simp)
    have ih := takeWhile_run ds tail (fun c hc => hd c (by simp [hc])) ht
    simp [List.takeWhile_cons, List.dropWhile_cons, h1, ih.1, ih.2]

theorem read_digits_run (str ds tail : List Char) (hne : ds ≠ [])
    (hd : ∀ c ∈ ds, isdigit c = true) (ht : NoDigitAhead tail) :
    read_digits (str, ds ++ tail) = some (str ++ ds, tail) := by
  cases ds with
  | nil => exact absurd rfl hne
  | cons d ds' =>
    have h1 : isdigit d = true := hd d (by simp)
    have := takeWhile_run (d :: ds') tail hd ht
    simp only [List.cons_append] at this
    simp only [List.cons_append, read_digits, h1, readDigitRun_eq, this.1, this.2]
    simp

theorem read_digits_none (str input : List Char) (h : NoDigitAhead input) :
    read_digits (str, input) = none := by
  cases input with
  | nil => rfl
  | cons c rest =>
    have : isdigit c = false := h c (by simp)
    simp [read_digits, this]

theorem read_char_some {s t : List Char × List Char} (h : read_char s = some t) :
    ∃ c, s.2 = c :: t.2 ∧ t.1 = s.1 ++ [c] := by
  obtain ⟨str, input⟩ := s
  cases input with
  | nil => simp [read_char] at h
  | cons c rest =>
    simp only [read_char, Option.some.injEq] at h
    subst h
    exact ⟨c, rfl, rfl⟩

theorem read_digits_some {s t : List Char × List Char} (h : read_digits s = some t) :
    ∃ ds, ds ≠ [] ∧ (∀ c ∈ ds, isdigit c = true) ∧ t.1 = s.1 ++ ds ∧ s.2 = ds ++ t.2 := by
  obtain ⟨str, input⟩ := s
  cases input with
  | nil => simp [read_digits] at h
  | cons c rest =>
    simp only [read_digits] at h
    by_cases hc : isdigit c = true
    · simp only [hc, Bool.not_true, Bool.false_eq_true, if_false, Option.some.injEq,
        readDigitRun_eq] at h
      subst h
      refine ⟨(c :: rest).takeWhile isdigit, ?_, ?_, rfl, ?_⟩
      · simp [List.takeWhile_cons, hc]
      · intro d hd
        exact (List.mem_takeWhile_imp hd)
      · exact (List.takeWhile_append_dropWhile _ _).symm
    · simp [hc] at h

/-! Forward behaviour of the four statements of the scan. -/

theorem scanSign_minus (str tail : List Char) :
    scanSign (str, '-' :: tail) = some (str ++ ['-'], tail) := by
  simp [scanSign, read_char]

theorem scanSign_skip (str tail : List Char) (h : tail.head? ≠ some '-') :
    scanSign (str, tail) = some (str, tail) := by
  simp [scanSign, h]

theorem IsIntegerPart_head {ip : List Char} (h : IsIntegerPart ip) :
    ∃ c r, ip = c :: r ∧ isdigit c = true ∧ (∀ d ∈ ip, isdigit d = true) := by
  rcases h with rfl | ⟨hne, hd, _⟩
  · exact ⟨'0', [], rfl, by decide, by simp; decide⟩
  · cases ip with
    | nil => exact absurd rfl hne
    | cons c r => exact ⟨c, r, rfl, hd c (by simp), hd⟩

theorem scanInteger_part (str ip tail : List Char) (hip : IsIntegerPart ip)
    (ht : ip ≠ ['0'] → NoDigitAhead tail) :
    scanInteger (str, ip ++ tail) = some (str ++ ip, tail) := by
  rcases hip with rfl | ⟨hne, hd, h0⟩
  · simp [scanInteger, read_char]
  · have hn0 : ip ≠ ['0'] := by
      rintro rfl
      simp at h0
    have hh : (ip ++ tail).head? ≠ some '0' := by
      cases ip with
      | nil => exact absurd rfl hne
      | cons c r => simpa using h0
    simp only [scanInteger, hh, if_false]
    exact read_digits_run str ip tail hne hd (ht hn0)

theorem scanInteger_none (str input : List Char) (h : NoDigitAhead input) :
    scanInteger (str, input) = none := by
  have : input.head? ≠ some '0' := by
    intro h0
    have := h '0' (by simp [h0])
    exact absurd this (by decide)
  simp only [scanInteger, this, if_false]
  exact read_digits_none str input h

theorem scanFraction_skip (s : List Char × List Char) (h : s.2.head? ≠ some '.') :
    scanFraction s = some (s, true) := by
  simp [scanFraction, h]

theorem scanFraction_part (str ds tail : List Char) (hne : ds ≠ [])
    (hd : ∀ c ∈ ds, isdigit c = true) (ht : NoDigitAhead tail) :
    scanFraction (str, '.' :: ds ++ tail) = some ((str ++ '.' :: ds, tail), false) := by
  simp only [scanFraction, List.cons_append, List.head?_cons, if_true, read_char,
    Option.some_bind]
  rw [read_digits_run (str ++ ['.']) ds tail hne hd ht]
  simp

theorem scanFraction_none (str rest : List Char) (h : NoDigitAhead rest) :
    scanFraction (str, '.' :: rest) = none := by
  simp only [scanFraction, List.head?_cons, if_true, read_char, Option.some_bind]
  rw [read_digits_none _ _ h]
  rfl

theorem scanExponent_skip (p : (List Char × List Char) × Bool)
    (h : p.1.2.head? ≠ some 'e' ∧ p.1.2.head? ≠ some 'E') : scanExponent p = some p := by
  simp [scanExponent, h.1, h.2]

theorem scanExponent_none (str : List Char) (e : Char) (esign rest : List Char) (b : Bool)
    (he : e = 'e' ∨ e = 'E') (hs : esign = [] ∨ esign = ['+'] ∨ esign = ['-'])
    (hr : esign = [] → rest.head? ≠ some '+' ∧ rest.head? ≠ some '-')
    (ht : NoDigitAhead rest) :
    scanExponent ((str, e :: esign ++ rest), b) = none := by
  have hhead : (some e = some 'e' ∨ some e = some 'E') := by
    rcases he with rfl | rfl <;> simp
  simp only [scanExponent, List.cons_append, List.head?_cons, hhead, if_true, read_char,
    Option.some_bind]
  rcases hs with rfl | rfl | rfl
  · have := hr rfl
    simp only [List.nil_append, this.1, this.2, or_self, if_false, Option.some_bind]
    rw [read_digits_none _ _ ht]
    rfl
  · simp only [List.cons_append, List.nil_append, List.head?_cons, true_or, if_true, read_char,
      Option.some_bind]
    rw [read_digits_none _ _ ht]
    rfl
  · simp only [List.cons_append, List.nil_append, List.head?_cons, or_true, if_true, read_char,
      Option.some_bind]
    rw [read_digits_none _ _ ht]
    rfl

/-- The first two statements of the scan on a sign and an integer part. -/
theorem scan_sign_integer (sign ip tail : List Char) (hs : IsSign sign)
    (hip : IsIntegerPart ip) (ht : ip ≠ ['0'] → NoDigitAhead tail) :
    (scanSign ([], sign ++ ip ++ tail)).bind scanInteger = some (sign ++ ip, tail) := by
  obtain ⟨c, r, hc, hcd, -⟩ := IsIntegerPart_head hip
  rcases hs with rfl | rfl
  · have : (ip ++ tail).head? ≠ some '-' := by
      subst hc
      simp only [List.cons_append, List.head?_cons, ne_eq, Option.some.injEq]
      rintro rfl
      exact absurd hcd (by decide)
    rw [List.nil_append, scanSign_skip _ _ this, Option.some_bind, scanInteger_part _ _ _ hip ht]
    simp
  · rw [List.append_assoc, List.singleton_append, scanSign_minus, Option.some_bind,
      scanInteger_part _ _ _ hip ht]
    simp

/-- Claim C7: `LoadNumber` fails with `ParsingError` on every input in which a
required run of digits is missing, after the leading `-`, after the `.` behind
the integer part, or after the exponent marker and its optional sign; no
shorter token is returned. -/
theorem LoadNumber_missing_digits (input : List Char) (h : MissingDigits input) :
    LoadNumber input = .parsingError := by
  have key : scanNumber input = none := by
    cases h with
    | afterMinus rest hr =>
      simp only [scanNumber, scanSign_minus, Option.some_bind, scanInteger_none _ _ hr,
        Option.none_bind, Option.map_none']
    | afterPoint sign ip rest hs hip hr =>
      have hpt : NoDigitAhead ('.' :: rest) := NoDigitAhead_cons rest (by decide)
      simp only [scanNumber, scan_sign_integer sign ip ('.' :: rest) hs hip (fun _ => hpt),
        Option.some_bind, scanFraction_none _ _ hr, Option.none_bind, Option.map_none']
    | afterExponent sign ip fp e esign rest hs hip hfp he hes hr ht =>
      have hne : isdigit e = false := by rcases he with rfl | rfl <;> decide
      have hedot : e ≠ '.' := by rcases he with rfl | rfl <;> decide
      have hexp : NoDigitAhead (e :: esign ++ rest) := NoDigitAhead_cons _ hne
      rcases hfp with rfl | ⟨ds, hds, hdd, rfl⟩
      · have e1 : sign ++ ip ++ [] ++ e :: esign ++ rest
            = sign ++ ip ++ (e :: esign ++ rest) := by simp
        rw [e1]
        have hskip : scanFraction (sign ++ ip, e :: esign ++ rest)
            = some ((sign ++ ip, e :: esign ++ rest), true) :=
          scanFraction_skip _ (by simpa using hedot)
        simp only [scanNumber, scan_sign_integer sign ip _ hs hip (fun _ => hexp),
          Option.some_bind, hskip, scanExponent_none _ e esign rest _ he hes hr ht,
          Option.map_none']
      · have hpt : NoDigitAhead ('.' :: ds ++ (e :: esign ++ rest)) :=
          NoDigitAhead_cons _ (by decide)
        have e1 : sign ++ ip ++ '.' :: ds ++ e :: esign ++ rest
            = sign ++ ip ++ ('.' :: ds ++ (e :: esign ++ rest)) := by simp
        rw [e1]
        simp only [scanNumber, scan_sign_integer sign ip _ hs hip (fun _ => hpt),
          Option.some_bind, scanFraction_part _ ds _ hds hdd hexp,
          scanExponent_none _ e esign rest _ he hes hr ht, Option.map_none']
  simp [LoadNumber, key]

/-- Claim C7, witness: the input `-1.5e+x`, where no digit follows the sign of
the exponent. -/
theorem LoadNumber_missing_digits_witness :
    MissingDigits "-1.5e+x".toList ∧ LoadNumber "-1.5e+x".toList = .parsingError :=
  have h : MissingDigits "-1.5e+x".toList :=
    MissingDigits.afterExponent ['-'] ['1'] ['.', '5'] 'e' ['+'] ['x']
      (Or.inr rfl) (Or.inr ⟨by decide, by decide, by decide⟩)
      (Or.inr ⟨['5'], by decide, by decide, rfl⟩) (Or.inl rfl) (Or.inr (Or.inl rfl))
      (by decide) (by intro c hc; simp at hc; subst hc; decide)
  ⟨h, LoadNumber_missing_digits _ h⟩

theorem NoDigitAhead_dropWhile : ∀ input : List Char, NoDigitAhead (input.dropWhile isdigit)
  | [] => by simpa using NoDigitAhead_nil
  | c :: rest => by
    by_cases h : isdigit c = true
    · simpa [List.dropWhile_cons, h] using NoDigitAhead_dropWhile rest
    · simp only [Bool.not_eq_true] at h
      simpa [List.dropWhile_cons, h] using NoDigitAhead_cons rest h

/-- What `read_digits` has read when it returns: a run of digits that no digit
follows. -/
theorem read_digits_inv {s t : List Char × List Char} (h : read_digits s = some t) :
    ∃ ds, ds ≠ [] ∧ (∀ c ∈ ds, isdigit c = true) ∧ t.1 = s.1 ++ ds ∧ s.2 = ds ++ t.2 ∧
      NoDigitAhead t.2 := by
  obtain ⟨str, input⟩ := s
  cases input with
  | nil => simp [read_digits] at h
  | cons c rest =>
    simp only [read_digits] at h
    by_cases hc : isdigit c = true
    · simp only [hc, Bool.not_true, Bool.false_eq_true, if_false, Option.some.injEq,
        readDigitRun_eq] at h
      subst h
      refine ⟨(c :: rest).takeWhile isdigit, ?_, ?_, rfl, ?_, NoDigitAhead_dropWhile _⟩
      · simp [List.takeWhile_cons, hc]
      · intro d hd
        exact (List.mem_takeWhile_imp hd)
      · exact (List.takeWhile_append_dropWhile _ _).symm
    · simp [hc] at h

theorem scanSign_inv {s t : List Char × List Char} (h : scanSign s = some t) :
    ∃ sign, IsSign sign ∧ t.1 = s.1 ++ sign ∧ s.2 = sign ++ t.2 := by
  unfold scanSign at h
  by_cases c : s.2.head? = some '-'
  · simp only [c, if_true] at h
    obtain ⟨d, hd, ht⟩ := read_char_some h
    rw [hd] at c
    simp only [List.head?_cons, Option.some.injEq] at c
    subst c
    exact ⟨['-'], Or.inr rfl, ht, by simpa using hd⟩
  · simp only [c, if_false, Option.some.injEq] at h
    subst h
    exact ⟨[], Or.inl rfl, by simp, by simp⟩

theorem scanInteger_inv {s t : List Char × List Char} (h : scanInteger s = some t) :
    ∃ ip, IsIntegerPart ip ∧ t.1 = s.1 ++ ip ∧ s.2 = ip ++ t.2 ∧
      (ip ≠ ['0'] → NoDigitAhead t.2) := by
  unfold scanInteger at h
  by_cases c : s.2.head? = some '0'
  · simp only [c, if_true] at h
    obtain ⟨d, hd, ht⟩ := read_char_some h
    rw [hd] at c
    simp only [List.head?_cons, Option.some.injEq] at c
    subst c
    exact ⟨['0'], Or.inl rfl, ht, by simpa using hd, fun h0 => absurd rfl h0⟩
  · simp only [c, if_false] at h
    obtain ⟨ds, h1, h2, h3, h4, h5⟩ := read_digits_inv h
    refine ⟨ds, Or.inr ⟨h1, h2, ?_⟩, h3, h4, fun _ => h5⟩
    intro h0
    apply c
    rw [h4]
    cases ds with
    | nil => exact absurd rfl h1
    | cons d r => simpa using h0

theorem scanFraction_inv {s : List Char × List Char} {p : (List Char × List Char) × Bool}
    (h : scanFraction s = some p) :
    ∃ fp, IsFractionPart fp ∧ p.1.1 = s.1 ++ fp ∧ s.2 = fp ++ p.1.2 ∧
      p.2 = decide (fp = []) ∧ (fp = [] → p.1.2.head? ≠ some '.') ∧
      (fp ≠ [] → NoDigitAhead p.1.2) := by
  unfold scanFraction at h
  by_cases c : s.2.head? = some '.'
  · simp only [c, if_true, Option.map_eq_some', Option.bind_eq_some] at h
    obtain ⟨t, ⟨u, hu, ht⟩, rfl⟩ := h
    obtain ⟨d, hd, hu1⟩ := read_char_some hu
    rw [hd] at c
    simp only [List.head?_cons, Option.some.injEq] at c
    subst c
    obtain ⟨ds, h1, h2, h3, h4, h5⟩ := read_digits_inv ht
    refine ⟨'.' :: ds, Or.inr ⟨ds, h1, h2, rfl⟩, ?_, ?_, by simp, fun h0 => by simp at h0,
      fun _ => h5⟩
    · simp [h3, hu1]
    · simp [hd, h4]
  · simp only [c, if_false, Option.some.injEq] at h
    subst h
    exact ⟨[], Or.inl rfl, by simp, by simp, by simp, fun _ => c, fun h0 => absurd rfl h0⟩

theorem scanExponent_inv {p q : (List Char × List Char) × Bool}
    (h : scanExponent p = some q) :
    ∃ ep, IsExponentPart ep ∧ q.1.1 = p.1.1 ++ ep ∧ p.1.2 = ep ++ q.1.2 ∧
      q.2 = (p.2 && decide (ep = [])) ∧
      (ep = [] → q.1.2.head? ≠ some 'e' ∧ q.1.2.head? ≠ some 'E') ∧
      (ep ≠ [] → NoDigitAhead q.1.2) := by
  unfold scanExponent at h
  by_cases c : p.1.2.head? = some 'e' ∨ p.1.2.head? = some 'E'
  · simp only [c, if_true, Option.map_eq_some', Option.bind_eq_some] at h
    obtain ⟨t, ⟨u, ⟨v, hv, hu⟩, ht⟩, rfl⟩ := h
    obtain ⟨d, hd, hv1⟩ := read_char_some hv
    rw [hd] at c
    simp only [List.head?_cons, Option.some.injEq] at c
    obtain ⟨ds, h1, h2, h3, h4, h5⟩ := read_digits_inv ht
    have hu1 : ∃ w, (w = [] ∨ w = ['+'] ∨ w = ['-']) ∧ u.1 = v.1 ++ w ∧ v.2 = w ++ u.2 := by
      by_cases c2 : v.2.head? = some '+' ∨ v.2.head? = some '-'
      · simp only [c2, if_true] at hu
        obtain ⟨x, hx1, hx2⟩ := read_char_some hu
        rw [hx1] at c2
        simp only [List.head?_cons, Option.some.injEq] at c2
        refine ⟨[x], ?_, hx2, by simpa using hx1⟩
        rcases c2 with rfl | rfl
        · exact Or.inr (Or.inl rfl)
        · exact Or.inr (Or.inr rfl)
      · simp only [c2, if_false, Option.some.injEq] at hu
        subst hu
        exact ⟨[], Or.inl rfl, by simp, by simp⟩
    obtain ⟨w, hw0, hw1, hw2⟩ := hu1
    refine ⟨d :: (w ++ ds), Or.inr ⟨d, w, ds, c, hw0, h1, h2, rfl⟩, ?_, ?_, by simp,
      fun h0 => by simp at h0, fun _ => h5⟩
    · simp [h3, hw1, hv1]
    · simp [hd, hw2, h4]
  · simp only [c, if_false, Option.some.injEq] at h
    subst h
    refine ⟨[], Or.inl rfl, by simp, by simp, by simp, fun _ => ?_, fun h0 => absurd rfl h0⟩
    exact ⟨fun h1 => c (Or.inl h1), fun h1 => c (Or.inr h1)⟩

/-- Every input that the scan accepts begins with a number token of the
grammar, and the scan returns that token and the stream behind it. -/
theorem scanNumber_inv {input str : List Char} {is_int : Bool} {rest : List Char}
    (h : scanNumber input = some (str, is_int, rest)) :
    ∃ sign ip fp ep, IsSign sign ∧ IsIntegerPart ip ∧ IsFractionPart fp ∧
      IsExponentPart ep ∧ str = sign ++ ip ++ fp ++ ep ∧ input = str ++ rest ∧
      EndsNumber ip fp ep rest := by
  simp only [scanNumber, Option.map_eq_some', Option.bind_eq_some] at h
  obtain ⟨q, ⟨p, ⟨s2, ⟨s1, h1, h2⟩, h3⟩, h4⟩, hq⟩ := h
  simp only [Prod.mk.injEq] at hq
  obtain ⟨rfl, rfl, rfl⟩ := hq
  obtain ⟨sign, hs, a1, b1⟩ := scanSign_inv h1
  obtain ⟨ip, hip, a2, b2, c2⟩ := scanInteger_inv h2
  obtain ⟨fp, hfp, a3, b3, -, d3, e3⟩ := scanFraction_inv h3
  obtain ⟨ep, hep, a4, b4, -, d4, e4⟩ := scanExponent_inv h4
  simp only [List.nil_append] at a1 b1
  refine ⟨sign, ip, fp, ep, hs, hip, hfp, hep, ?_, ?_, ?_, ?_, ?_⟩
  · rw [a4, a3, a2, a1]
  · rw [b1, b2, b3, b4, a4, a3, a2, a1]
    simp
  · by_cases hep0 : ep = []
    · by_cases hfp0 : fp = []
      · by_cases hip0 : ip = ['0']
        · exact Or.inl ⟨hip0, hfp0, hep0⟩
        · right
          have := c2 hip0
          rw [b3, hfp0, b4, hep0] at this
          simpa using this
      · right
        have := e3 hfp0
        rw [b4, hep0] at this
        simpa using this
    · exact Or.inr (e4 hep0)
  · intro hfp0 hep0
    have := d3 hfp0
    rw [b4, hep0] at this
    simpa using this
  · exact d4

theorem digit_not_mark {c : Char} (h : isdigit c = true) :
    c ≠ '.' ∧ c ≠ 'e' ∧ c ≠ 'E' ∧ c ≠ '-' ∧ c ≠ '+' := by
  refine ⟨?_, ?_, ?_, ?_, ?_⟩ <;> (rintro rfl; exact absurd h (by decide))

theorem skipBlank_of_head (c : Char) (rest : List Char) (h : isspace c = false) :
    skipBlank (c :: rest) = c :: rest := by
  simp [skipBlank, h]

theorem integerValue_token (sign ds : List Char) (hs : IsSign sign) (hne : ds ≠ [])
    (hd : ∀ c ∈ ds, isdigit c = true) :
    integerValue (sign ++ ds)
      = if sign = ['-'] then -(digitsValue ds : Int) else (digitsValue ds : Int) := by
  cases ds with
  | nil => exact absurd rfl hne
  | cons c r =>
    have hc := digit_not_mark (hd c (by simp))
    rcases hs with rfl | rfl
    · simp [integerValue, hc.2.2.2.1]
    · simp [integerValue]

/-- The function `std::stoi` on a sign and digits: the value, if it is an `int`. -/
theorem stoi_token (sign ds : List Char) (hs : IsSign sign) (hne : ds ≠ [])
    (hd : ∀ c ∈ ds, isdigit c = true) :
    stoi (sign ++ ds) =
      if -2147483648 ≤ integerValue (sign ++ ds) ∧ integerValue (sign ++ ds) ≤ 2147483647
      then some (integerValue (sign ++ ds)) else none := by
  rw [integerValue_token sign ds hs hne hd]
  have htw : ds.takeWhile isdigit = ds := by
    have := (takeWhile_run ds [] hd NoDigitAhead_nil).1
    simpa using this
  cases ds with
  | nil => exact absurd rfl hne
  | cons c r =>
    have hc := digit_not_mark (hd c (by simp))
    have hsp := isdigit_not_space (hd c (by simp))
    rcases hs with rfl | rfl
    · have hnil : ([] : List Char) ≠ ['-'] := by simp
      simp only [stoi, List.nil_append, skipBlank_of_head c r hsp, List.head?_cons,
        Option.some.injEq, hc.2.2.2.1, hc.2.2.2.2, or_self, if_false, decide_False, htw,
        Bool.false_eq_true, hnil]
      simp
    · have hsp2 : isspace '-' = false := by decide
      simp only [stoi, List.singleton_append, skipBlank_of_head '-' _ hsp2, List.head?_cons,
        true_or, if_true, List.tail_cons, htw, decide_True]
      simp

theorem convertNumber_int (str rest : List Char) (n : Int) (h : stoi str = some n) :
    convertNumber str true rest = .ok (.int n) rest := by
  simp [convertNumber, h]

theorem digitChar_isdigit {d : Nat} (h : d < 10) : isdigit (digitChar d) = true := by
  interval_cases d <;> decide

theorem digitChar_value {d : Nat} (h : d < 10) : (digitChar d).toNat - 48 = d := by
  interval_cases d <;> decide

theorem digitChar_ne_zero {d : Nat} (h : d < 10) (h0 : 0 < d) : digitChar d ≠ '0' := by
  interval_cases d <;> decide

theorem digitsValue_append_single (xs : List Char) (c : Char) :
    digitsValue (xs ++ [c]) = digitsValue xs * 10 + (c.toNat - 48) := by
  simp [digitsValue, List.foldl_append]

theorem decimalDigits_spec : ∀ (fuel n : Nat), n < fuel →
    (∀ c ∈ decimalDigits fuel n, isdigit c = true) ∧
    digitsValue (decimalDigits fuel n) = n ∧
    (∃ c r, decimalDigits fuel n = c :: r ∧ (0 < n → c ≠ '0')) ∧
    (n = 0 → decimalDigits fuel n = ['0'])
  | 0, _, h => by omega
  | fuel + 1, n, h => by
    simp only [decimalDigits]
    by_cases hn : n < 10
    · simp only [hn, if_true]
      refine ⟨?_, ?_, ⟨digitChar n, [], rfl, fun h0 => digitChar_ne_zero hn h0⟩, ?_⟩
      · intro c hc
        simp only [List.mem_singleton] at hc
        subst hc
        exact digitChar_isdigit hn
      · simp [digitsValue, digitChar_value hn]
      · rintro rfl; rfl
    · simp only [hn, if_false]
      have hlt : n / 10 < fuel := by omega
      have hpos : 0 < n / 10 := by omega
      have hmod : n % 10 < 10 := Nat.mod_lt _ (by omega)
      obtain ⟨ih1, ih2, ⟨c, r, ih3, ih4⟩, -⟩ := decimalDigits_spec fuel (n / 10) hlt
      refine ⟨?_, ?_, ⟨c, r ++ [digitChar (n % 10)], ?_, fun _ => ih4 hpos⟩, ?_⟩
      · intro d hd
        simp only [List.mem_append, List.mem_singleton] at hd
        rcases hd with hd | rfl
        · exact ih1 d hd
        · exact digitChar_isdigit hmod
      · rw [digitsValue_append_single, ih2, digitChar_value hmod]
        omega
      · rw [ih3]; simp
      · intro h0; omega

theorem decimalDigits_integerPart (n : Nat) : IsIntegerPart (decimalDigits (n + 1) n) := by
  obtain ⟨h1, -, ⟨c, r, h3, h4⟩, h5⟩ := decimalDigits_spec (n + 1) n (by omega)
  by_cases h0 : n = 0
  · left; exact h5 h0
  · right
    refine ⟨by rw [h3]; simp, h1, ?_⟩
    rw [h3]
    simpa using h4 (by omega)

/-- The stream ends the token or goes on with a character that an integer
token cannot hold. -/
theorem scanNumber_integer (sign ip tail : List Char) (hs : IsSign sign)
    (hip : IsIntegerPart ip) (ht : EndsToken tail) :
    scanNumber (sign ++ ip ++ tail) = some (sign ++ ip, true, tail) := by
  have hnd : NoDigitAhead tail := fun c hc => (ht c hc).1
  have h1 : tail.head? ≠ some '.' := fun h => (ht '.' (by simp [h])).2.1 rfl
  have h2 : tail.head? ≠ some 'e' := fun h => (ht 'e' (by simp [h])).2.2.1 rfl
  have h3 : tail.head? ≠ some 'E' := fun h => (ht 'E' (by simp [h])).2.2.2 rfl
  simp only [scanNumber, scan_sign_integer sign ip tail hs hip (fun _ => hnd), Option.some_bind]
  rw [scanFraction_skip _ h1, Option.some_bind, scanExponent_skip _ ⟨h2, h3⟩]
  rfl

theorem EndsToken_nil : EndsToken [] := by
  intro c hc
  simp at hc

theorem SkipSpace_of_head (c : Char) (rest : List Char) (h : isspace c = false) :
    SkipSpace (c :: rest) = c :: rest := by
  simp [SkipSpace, h]

/-- The default branch of the dispatch: a `-` or a digit goes to `LoadNumber`. -/
theorem LoadNode_number (fuel : Nat) (c : Char) (rest : List Char)
    (h : c = '-' ∨ isdigit c = true) :
    LoadNode (fuel + 1) (c :: rest) = LoadNumber (c :: rest) := by
  have hsp : isspace c = false := by
    rcases h with rfl | h
    · decide
    · exact isdigit_not_space h
  have hne : c ≠ '[' ∧ c ≠ '{' ∧ c ≠ '"' ∧ c ≠ 'n' ∧ c ≠ 't' ∧ c ≠ 'f' := by
    rcases h with rfl | h
    · decide
    · refine ⟨?_, ?_, ?_, ?_, ?_, ?_⟩ <;> (rintro rfl; exact absurd h (by decide))
  simp only [LoadNode, SkipSpace_of_head c rest hsp, hne.1, hne.2.1, hne.2.2.1, hne.2.2.2.1,
    hne.2.2.2.2.1, hne.2.2.2.2.2, if_false]

theorem PrintValue_int_eq (n : Int) :
    PrintValue.int n = (if n < 0 then ['-'] else []) ++ decimalDigits (n.natAbs + 1) n.natAbs := by
  unfold PrintValue.int
  by_cases h : n < 0 <;> simp [h]

theorem integerValue_PrintValue_int (n : Int) : integerValue (PrintValue.int n) = n := by
  obtain ⟨h1, h2, ⟨c, r, h3, -⟩, -⟩ := decimalDigits_spec (n.natAbs + 1) n.natAbs (by omega)
  rw [PrintValue_int_eq]
  have hs : IsSign (if n < 0 then ['-'] else []) := by
    by_cases h : n < 0
    · simp [h, IsSign]
    · simp [h, IsSign]
  rw [integerValue_token _ _ hs (by rw [h3]; simp) h1, h2]
  by_cases h : n < 0
  · simp only [h, if_true]; omega
  · simp only [h, if_false]
    have : ([] : List Char) ≠ ['-'] := by simp
    simp only [this, if_false]; omega

/-- Loading the decimal text of an `int`, whatever follows the token. -/
theorem LoadNode_PrintValue_int (fuel : Nat) (n : Int) (tail : List Char)
    (hn : -2147483648 ≤ n ∧ n ≤ 2147483647) (ht : EndsToken tail) :
    LoadNode (fuel + 1) (PrintValue.int n ++ tail) = .ok (.int n) tail := by
  obtain ⟨h1, h2, ⟨c, r, h3, -⟩, -⟩ := decimalDigits_spec (n.natAbs + 1) n.natAbs (by omega)
  have hip := decimalDigits_integerPart n.natAbs
  have hs : IsSign (if n < 0 then ['-'] else []) := by
    by_cases h : n < 0
    · simp [h, IsSign]
    · simp [h, IsSign]
  have hval := integerValue_PrintValue_int n
  have hstoi := stoi_token _ _ hs (by rw [h3]; simp) h1
  rw [← PrintValue_int_eq, hval] at hstoi
  simp only [hn, and_self, if_true] at hstoi
  have hscan := scanNumber_integer _ _ tail hs hip ht
  rw [← PrintValue_int_eq] at hscan
  have hload : LoadNumber (PrintValue.int n ++ tail) = .ok (.int n) tail := by
    simp only [LoadNumber, hscan]
    exact convertNumber_int _ _ _ hstoi
  have hhead : ∃ c r, PrintValue.int n ++ tail = c :: r ∧ (c = '-' ∨ isdigit c = true) := by
    rw [PrintValue_int_eq, h3]
    by_cases h : n < 0
    · exact ⟨'-', c :: r ++ tail, by simp [h], Or.inl rfl⟩
    · exact ⟨c, r ++ tail, by simp [h], Or.inr (h1 c (by rw [h3]; simp))⟩
  obtain ⟨c', r', e, hc'⟩ := hhead
  rw [e, LoadNode_number fuel c' r' hc', ← e, hload]

theorem scanExponent_part (str : List Char) (e : Char) (esign ds tail : List Char) (b : Bool)
    (he : e = 'e' ∨ e = 'E') (hs : esign = [] ∨ esign = ['+'] ∨ esign = ['-'])
    (hne : ds ≠ []) (hd : ∀ c ∈ ds, isdigit c = true) (ht : NoDigitAhead tail) :
    scanExponent ((str, e :: (esign ++ ds) ++ tail), b)
      = some ((str ++ e :: (esign ++ ds), tail), false) := by
  have hhead : (some e = some 'e' ∨ some e = some 'E') := by
    rcases he with rfl | rfl <;> simp
  simp only [scanExponent, List.cons_append, List.head?_cons, hhead, if_true, read_char,
    Option.some_bind]
  rcases hs with rfl | rfl | rfl
  · have hh : (ds ++ tail).head? ≠ some '+' ∧ (ds ++ tail).head? ≠ some '-' := by
      cases ds with
      | nil => exact absurd rfl hne
      | cons c r =>
        have hc := digit_not_mark (hd c (by simp))
        simp only [List.cons_append, List.head?_cons, ne_eq, Option.some.injEq]
        exact ⟨hc.2.2.2.2, hc.2.2.2.1⟩
    simp only [List.nil_append, hh.1, hh.2, or_self, if_false, Option.some_bind]
    rw [read_digits_run _ ds tail hne hd ht]
    simp
  · simp only [List.cons_append, List.nil_append, List.head?_cons, true_or, if_true, read_char,
      Option.some_bind]
    rw [read_digits_run _ ds tail hne hd ht]
    simp
  · simp only [List.cons_append, List.nil_append, List.head?_cons, or_true, if_true, read_char,
      Option.some_bind]
    rw [read_digits_run _ ds tail hne hd ht]
    simp

/-- The scan of a number token of the grammar: the token is taken whole, the
stream behind it is left, and `is_int` holds when the token has neither a
fraction nor an exponent. -/
theorem scanNumber_token (sign ip fp ep tail : List Char) (hs : IsSign sign)
    (hip : IsIntegerPart ip) (hfp : IsFractionPart fp) (hep : IsExponentPart ep)
    (ht : EndsNumber ip fp ep tail) :
    scanNumber (sign ++ ip ++ fp ++ ep ++ tail)
      = some (sign ++ ip ++ fp ++ ep, decide (fp = [] ∧ ep = []), tail) := by
  obtain ⟨ht1, ht2, ht3⟩ := ht
  rcases hfp with rfl | ⟨fds, hfne, hfd, rfl⟩
  · rcases hep with rfl | ⟨e, esign, eds, he, hes, hene, hed, rfl⟩
    · have hz : ip ≠ ['0'] → NoDigitAhead tail := by
        intro h0
        rcases ht1 with ⟨h, -, -⟩ | h
        · exact absurd h h0
        · exact h
      have h3 := ht3 rfl
      simp only [List.append_nil, scanNumber, scan_sign_integer sign ip tail hs hip hz,
        Option.some_bind]
      rw [scanFraction_skip _ (ht2 rfl rfl), Option.some_bind, scanExponent_skip _ h3]
      simp
    · have hnd : NoDigitAhead tail := by
        rcases ht1 with ⟨-, -, h⟩ | h
        · simp at h
        · exact h
      have hne : isdigit e = false := by rcases he with rfl | rfl <;> decide
      have hedot : e ≠ '.' := by rcases he with rfl | rfl <;> decide
      have hexp : NoDigitAhead (e :: (esign ++ eds) ++ tail) := NoDigitAhead_cons _ hne
      have e1 : sign ++ ip ++ [] ++ e :: (esign ++ eds) ++ tail
          = sign ++ ip ++ (e :: (esign ++ eds) ++ tail) := by simp
      rw [e1]
      have hskip : scanFraction (sign ++ ip, e :: (esign ++ eds) ++ tail)
          = some ((sign ++ ip, e :: (esign ++ eds) ++ tail), true) :=
        scanFraction_skip _ (by simpa using hedot)
      simp only [scanNumber, scan_sign_integer sign ip _ hs hip (fun _ => hexp),
        Option.some_bind, hskip, scanExponent_part _ e esign eds tail _ he hes hene hed hnd]
      simp
  · have hpt : ∀ t : List Char, NoDigitAhead ('.' :: fds ++ t) :=
      fun t => NoDigitAhead_cons _ (by decide)
    have hnd : NoDigitAhead tail := by
      rcases ht1 with ⟨-, h, -⟩ | h
      · simp at h
      · exact h
    rcases hep with rfl | ⟨e, esign, eds, he, hes, hene, hed, rfl⟩
    · have h3 := ht3 rfl
      have e1 : sign ++ ip ++ '.' :: fds ++ [] ++ tail
          = sign ++ ip ++ ('.' :: fds ++ tail) := by simp
      rw [e1]
      simp only [scanNumber, scan_sign_integer sign ip _ hs hip (fun _ => hpt tail),
        Option.some_bind, scanFraction_part _ fds tail hfne hfd hnd]
      rw [scanExponent_skip _ h3]
      simp
    · have hne : isdigit e = false := by rcases he with rfl | rfl <;> decide
      have hexp : NoDigitAhead (e :: (esign ++ eds) ++ tail) := NoDigitAhead_cons _ hne
      have e1 : sign ++ ip ++ '.' :: fds ++ e :: (esign ++ eds) ++ tail
          = sign ++ ip ++ ('.' :: fds ++ (e :: (esign ++ eds) ++ tail)) := by simp
      rw [e1]
      simp only [scanNumber, scan_sign_integer sign ip _ hs hip (fun _ => hpt _),
        Option.some_bind, scanFraction_part _ fds _ hfne hfd hexp,
        scanExponent_part _ e esign eds tail _ he hes hene hed hnd]
      simp

/-- A token has no `.` and no exponent marker exactly when its fraction part
and its exponent part are empty. -/
theorem token_marks (sign ip fp ep : List Char) (hs : IsSign sign)
    (hip : IsIntegerPart ip) (hfp : IsFractionPart fp) (hep : IsExponentPart ep) :
    ('.' ∉ sign ++ ip ++ fp ++ ep ∧ 'e' ∉ sign ++ ip ++ fp ++ ep ∧ 'E' ∉ sign ++ ip ++ fp ++ ep)
      ↔ (fp = [] ∧ ep = []) := by
  constructor
  · rintro ⟨h1, h2, h3⟩
    constructor
    · rcases hfp with rfl | ⟨fds, -, -, rfl⟩
      · rfl
      · exact absurd (by simp) h1
    · rcases hep with rfl | ⟨e, esign, eds, he, -, -, -, rfl⟩
      · rfl
      · rcases he with rfl | rfl
        · exact absurd (by simp) h2
        · exact absurd (by simp) h3
  · rintro ⟨rfl, rfl⟩
    obtain ⟨c, r, -, -, hd⟩ := IsIntegerPart_head hip
    have hmem : ∀ c, c = '.' ∨ c = 'e' ∨ c = 'E' → c ∉ sign ++ ip ++ [] ++ [] := by
      intro c hc hm
      simp only [List.append_nil, List.mem_append] at hm
      rcases hm with hm | hm
      · rcases hs with rfl | rfl
        · simp at hm
        · simp only [List.mem_singleton] at hm
          subst hm
          revert hc; decide
      · have := digit_not_mark (hd c hm)
        rcases hc with rfl | rfl | rfl
        · exact this.1 rfl
        · exact this.2.1 rfl
        · exact this.2.2.1 rfl
    exact ⟨hmem _ (Or.inl rfl), hmem _ (Or.inr (Or.inl rfl)), hmem _ (Or.inr (Or.inr rfl))⟩

/-- The function `LoadNumber` on a number token of the grammar. -/
theorem LoadNumber_token (sign ip fp ep tail : List Char) (hs : IsSign sign)
    (hip : IsIntegerPart ip) (hfp : IsFractionPart fp) (hep : IsExponentPart ep)
    (ht : EndsNumber ip fp ep tail) :
    LoadNumber (sign ++ ip ++ fp ++ ep ++ tail) =
      if ('.' ∉ sign ++ ip ++ fp ++ ep ∧ 'e' ∉ sign ++ ip ++ fp ++ ep ∧
            'E' ∉ sign ++ ip ++ fp ++ ep) ∧
          -2147483648 ≤ integerValue (sign ++ ip ++ fp ++ ep) ∧
          integerValue (sign ++ ip ++ fp ++ ep) ≤ 2147483647 then
        .ok (.int (integerValue (sign ++ ip ++ fp ++ ep))) tail
      else
        match stod (sign ++ ip ++ fp ++ ep) with
        | some d => .ok (.double d) tail
        | none => .parsingError := by
  have hm := token_marks sign ip fp ep hs hip hfp hep
  simp only [LoadNumber, scanNumber_token sign ip fp ep tail hs hip hfp hep ht, convertNumber]
  by_cases hb : fp = [] ∧ ep = []
  · have hmarks := hm.mpr hb
    obtain ⟨rfl, rfl⟩ := hb
    obtain ⟨c, r, hc, -, hd⟩ := IsIntegerPart_head hip
    have hne : ip ≠ [] := by rw [hc]; simp
    have hstoi := stoi_token sign ip hs hne hd
    simp only [List.append_nil] at hmarks ⊢
    simp only [and_self, decide_True, if_true, hstoi]
    by_cases hr : -2147483648 ≤ integerValue (sign ++ ip) ∧ integerValue (sign ++ ip) ≤ 2147483647
    · rw [if_pos hr, if_pos ⟨hmarks, hr⟩]
    · rw [if_neg hr, if_neg (fun h => hr h.2)]
  · have hnm : ¬ (('.' ∉ sign ++ ip ++ fp ++ ep ∧ 'e' ∉ sign ++ ip ++ fp ++ ep ∧
          'E' ∉ sign ++ ip ++ fp ++ ep) ∧
        -2147483648 ≤ integerValue (sign ++ ip ++ fp ++ ep) ∧
        integerValue (sign ++ ip ++ fp ++ ep) ≤ 2147483647) := fun h => hb (hm.mp h.1)
    rw [if_neg hnm]
    simp only [hb, decide_False, Bool.false_eq_true, if_false]

/-- Every input from which `LoadNumber` returns a value begins with a number
token of the grammar, and what is left is the stream behind that token. -/
theorem LoadNumber_inv {input : List Char} {node : Node} {rest : List Char}
    (h : LoadNumber input = .ok node rest) :
    ∃ sign ip fp ep, IsSign sign ∧ IsIntegerPart ip ∧ IsFractionPart fp ∧
      IsExponentPart ep ∧ input = sign ++ ip ++ fp ++ ep ++ rest ∧
      EndsNumber ip fp ep rest := by
  unfold LoadNumber at h
  cases hsc : scanNumber input with
  | none =>
    rw [hsc] at h
    simp at h
  | some r =>
    obtain ⟨str, is_int, rest'⟩ := r
    rw [hsc] at h
    have hrest : rest' = rest := by
      simp only [convertNumber] at h
      cases h1 : (if is_int = true then stoi str else none) with
      | some n =>
        rw [h1] at h
        simp only [ParseResult.ok.injEq] at h
        exact h.2
      | none =>
        rw [h1] at h
        cases h2 : stod str with
        | some d =>
          rw [h2] at h
          simp only [ParseResult.ok.injEq] at h
          exact h.2
        | none =>
          rw [h2] at h
          simp at h
    subst hrest
    obtain ⟨sign, ip, fp, ep, hs, hip, hfp, hep, e1, e2, hend⟩ := scanNumber_inv hsc
    exact ⟨sign, ip, fp, ep, hs, hip, hfp, hep, by rw [e2, e1], hend⟩

theorem roundHalfEven_intCast (z : Int) : roundHalfEven (z : ℚ) = z := by
  unfold roundHalfEven
  simp

/-- A natural number below `2^53` is a binary64 value: rounding keeps it. -/
theorem roundMagnitude_natCast (n : Nat) (h : n < 2 ^ 53) : roundMagnitude (n : ℚ) = n := by
  unfold roundMagnitude binary64Exponent
  rw [Int.log_natCast]
  have hk : Nat.log 2 n < 53 := by
    by_cases h0 : n = 0
    · subst h0; simp
    · exact Nat.log_lt_of_lt_pow h0 h
  obtain ⟨j, hj⟩ : ∃ j : Nat, max ((Nat.log 2 n : Int) - 52) (-1074) = -(j : Int) :=
    ⟨52 - Nat.log 2 n, by omega⟩
  rw [hj]
  have e : (n : ℚ) / (2 : ℚ) ^ (-(j : Int)) = (((n * 2 ^ j : Nat) : Int) : ℚ) := by
    rw [zpow_neg, zpow_natCast]
    push_cast
    field_simp
  rw [e, roundHalfEven_intCast]
  push_cast
  rw [zpow_neg, zpow_natCast]
  field_simp

/-- An integer of magnitude below `2^53` is a binary64 value. -/
theorem roundBinary64_intCast (z : Int) (h : z.natAbs < 2 ^ 53) :
    roundBinary64 (z : ℚ) = z := by
  have habs : |(z : ℚ)| = (z.natAbs : ℚ) := by
    rw [← Int.cast_abs, Int.abs_eq_natAbs, Int.cast_natCast]
  unfold roundBinary64
  by_cases h0 : (z : ℚ) = 0
  · simp [h0]
  · rw [if_neg h0, habs, roundMagnitude_natCast _ h]
    by_cases hneg : (z : ℚ) < 0
    · rw [if_pos hneg, ← habs, abs_of_neg hneg]
      simp
    · rw [if_neg hneg, ← habs, abs_of_nonneg (not_lt.mp hneg)]

theorem stod_sample_fraction : stod "1.0".toList = some (.finite 1) := by
  have h1 : roundBinary64 (1 : ℚ) = 1 := by
    simpa using roundBinary64_intCast 1 (by norm_num)
  simp [stod, skipBlank, isspace, isdigit, digitsValue, decimalExponent, h1, binary64Max]
  norm_num

theorem stod_sample_exponent : stod "-2e1".toList = some (.finite (-20)) := by
  have h1 : roundBinary64 (-20 : ℚ) = -20 := by
    simpa using roundBinary64_intCast (-20) (by norm_num)
  simp [stod, skipBlank, isspace, isdigit, digitsValue, decimalExponent, binary64Max]
  norm_num [h1]

theorem digitChar_eq {d : Nat} (h : d < 10) : Nat.digitChar d = digitChar d := by
  interval_cases d <;> rfl

theorem toDigitsCore_eq : ∀ (fuel n : Nat) (ds : List Char), n < fuel →
    Nat.toDigitsCore 10 fuel n ds = decimalDigits fuel n ++ ds
  | 0, _, _, h => by omega
  | fuel + 1, n, ds, h => by
    have hmod : n % 10 < 10 := Nat.mod_lt _ (by omega)
    simp only [Nat.toDigitsCore, decimalDigits]
    by_cases hn : n < 10
    · have h0 : n / 10 = 0 := by omega
      have h1 : n % 10 = n := by omega
      simp [hn, h0, h1, digitChar_eq hn]
    · have h0 : n / 10 ≠ 0 := by omega
      simp only [hn, h0, if_false]
      rw [toDigitsCore_eq fuel (n / 10) _ (by omega), digitChar_eq hmod]
      simp

theorem PrintValue_int_toString (n : Int) : PrintValue.int n = (toString n).toList := by
  cases n with
  | ofNat m =>
    have h : ¬ (Int.ofNat m < 0) := by simp
    simp only [PrintValue.int, h, if_false]
    show decimalDigits (m + 1) m = (Nat.repr m).toList
    simp only [Nat.repr, Nat.toDigits, toDigitsCore_eq (m + 1) m [] (by omega)]
    simp [List.asString]
  | negSucc m =>
    have h : Int.negSucc m < 0 := Int.negSucc_lt_zero m
    simp only [PrintValue.int, h, if_true]
    show '-' :: decimalDigits (m + 1 + 1) (m + 1) = ("-" ++ Nat.repr (m + 1)).toList
    simp only [Nat.repr, Nat.toDigits, toDigitsCore_eq (m + 1 + 1) (m + 1) [] (by omega)]
    simp [List.asString]

/-- The dispatch of `Load` on a number token: the value that `LoadNumber`
returns, wrapped as the root. -/
theorem Load_number_token (sign ip rest : List Char) (hs : IsSign sign)
    (hip : IsIntegerPart ip) :
    Load (sign ++ ip ++ rest) = (LoadNumber (sign ++ ip ++ rest)).map Document.mk := by
  obtain ⟨c, r, hc, hcd, -⟩ := IsIntegerPart_head hip
  have hhead : ∃ c' r', sign ++ ip ++ rest = c' :: r' ∧ (c' = '-' ∨ isdigit c' = true) := by
    rcases hs with rfl | rfl
    · exact ⟨c, r ++ rest, by simp [hc], Or.inr hcd⟩
    · exact ⟨'-', ip ++ rest, by simp, Or.inl rfl⟩
  obtain ⟨c', r', e, hc'⟩ := hhead
  unfold Load
  rw [e, LoadNode_number _ c' r' hc']

/-- Claim C5: let `token` be a number token of the grammar (an optional `-`, an
integer part, an optional fraction, an optional exponent) and let `tail` be a
stream that does not lengthen it.  On `token ++ tail` the function `LoadNumber`
returns the Int `integerValue token` exactly when the token has no `.`, `e` or
`E` and that value is a 32-bit signed integer; in every other case it returns
the Double that `std::stod` gives for the token, or fails where `std::stod`
throws.  So a returned value is tagged Int exactly under that condition, its
payload is then the integer value, any other returned value is tagged Double,
and a token with `.` or an exponent is never tagged Int.  The stream left is
`tail`, and `Load` returns the same value.  Every input from which `LoadNumber`
returns is such a token and tail.  The decimal text of a 32-bit signed `n`
loads as `Int n`. -/
theorem LoadNumber_tagging (sign ip fp ep tail token : List Char) (hs : IsSign sign)
    (hip : IsIntegerPart ip) (hfp : IsFractionPart fp) (hep : IsExponentPart ep)
    (htok : token = sign ++ ip ++ fp ++ ep) (ht : EndsNumber ip fp ep tail) :
    (LoadNumber (token ++ tail) =
      if ('.' ∉ token ∧ 'e' ∉ token ∧ 'E' ∉ token) ∧
          -2147483648 ≤ integerValue token ∧ integerValue token ≤ 2147483647 then
        .ok (.int (integerValue token)) tail
      else
        match stod token with
        | some d => .ok (.double d) tail
        | none => .parsingError) ∧
    Load (token ++ tail) = (LoadNumber (token ++ tail)).map Document.mk ∧
    (∀ (node : Node) (rest : List Char), LoadNumber (token ++ tail) = .ok node rest →
      rest = tail ∧
      (node.IsInt = true ↔
        (('.' ∉ token ∧ 'e' ∉ token ∧ 'E' ∉ token) ∧
          -2147483648 ≤ integerValue token ∧ integerValue token ≤ 2147483647)) ∧
      (node.IsInt = true → node = .int (integerValue token)) ∧
      (node.IsInt = false → node.IsPureDouble = true)) ∧
    (('.' ∉ token ∧ 'e' ∉ token ∧ 'E' ∉ token) ∧
        -2147483648 ≤ integerValue token ∧ integerValue token ≤ 2147483647 →
      LoadNumber (token ++ tail) = .ok (.int (integerValue token)) tail) ∧
    (('.' ∈ token ∨ 'e' ∈ token ∨ 'E' ∈ token) →
      ∀ (n : Int) (rest : List Char), LoadNumber (token ++ tail) ≠ .ok (.int n) rest) ∧
    (('.' ∉ token ∧ 'e' ∉ token ∧ 'E' ∉ token) ↔ (fp = [] ∧ ep = [])) ∧
    (∀ (input : List Char) (node : Node) (rest : List Char),
      LoadNumber input = .ok node rest →
      ∃ sign' ip' fp' ep', IsSign sign' ∧ IsIntegerPart ip' ∧ IsFractionPart fp' ∧
        IsExponentPart ep' ∧ input = sign' ++ ip' ++ fp' ++ ep' ++ rest ∧
        EndsNumber ip' fp' ep' rest) ∧
    (∀ n : Int, -2147483648 ≤ n ∧ n ≤ 2147483647 →
      Load (toString n).toList = .ok ⟨.int n⟩ [] ∧
      Load (PrintValue.int n) = .ok ⟨.int n⟩ []) := by
  subst htok
  have hform := LoadNumber_token sign ip fp ep tail hs hip hfp hep ht
  have hmarks := token_marks sign ip fp ep hs hip hfp hep
  have hcases : ∀ (node : Node) (rest : List Char),
      LoadNumber (sign ++ ip ++ fp ++ ep ++ tail) = .ok node rest →
      rest = tail ∧
      (node.IsInt = true ↔
        (('.' ∉ sign ++ ip ++ fp ++ ep ∧ 'e' ∉ sign ++ ip ++ fp ++ ep ∧
            'E' ∉ sign ++ ip ++ fp ++ ep) ∧
          -2147483648 ≤ integerValue (sign ++ ip ++ fp ++ ep) ∧
          integerValue (sign ++ ip ++ fp ++ ep) ≤ 2147483647)) ∧
      (node.IsInt = true → node = .int (integerValue (sign ++ ip ++ fp ++ ep))) ∧
      (node.IsInt = false → node.IsPureDouble = true) := by
    intro node rest hnode
    rw [hform] at hnode
    by_cases hc : ('.' ∉ sign ++ ip ++ fp ++ ep ∧ 'e' ∉ sign ++ ip ++ fp ++ ep ∧
          'E' ∉ sign ++ ip ++ fp ++ ep) ∧
        -2147483648 ≤ integerValue (sign ++ ip ++ fp ++ ep) ∧
        integerValue (sign ++ ip ++ fp ++ ep) ≤ 2147483647
    · rw [if_pos hc] at hnode
      simp only [ParseResult.ok.injEq] at hnode
      obtain ⟨rfl, rfl⟩ := hnode
      exact ⟨rfl, ⟨fun _ => hc, fun _ => rfl⟩, fun _ => rfl, fun hh => by
        simp [Node.IsInt] at hh⟩
    · rw [if_neg hc] at hnode
      cases hst : stod (sign ++ ip ++ fp ++ ep) with
      | none =>
        rw [hst] at hnode
        simp at hnode
      | some d =>
        rw [hst] at hnode
        simp only [ParseResult.ok.injEq] at hnode
        obtain ⟨rfl, rfl⟩ := hnode
        exact ⟨rfl, ⟨fun hh => by simp [Node.IsInt] at hh, fun hh => absurd hh hc⟩,
          fun hh => by simp [Node.IsInt] at hh, fun _ => rfl⟩
  refine ⟨hform, ?_, hcases, ?_, ?_, hmarks, fun _ _ _ h => LoadNumber_inv h, ?_⟩
  · have e : sign ++ ip ++ fp ++ ep ++ tail = sign ++ ip ++ (fp ++ ep ++ tail) := by simp
    rw [e]
    exact Load_number_token sign ip _ hs hip
  · intro hc
    rw [hform, if_pos hc]
  · intro hm n rest hn
    have h := (hcases (.int n) rest hn).2.1.mp rfl
    rcases hm with hm | hm | hm
    · exact h.1.1 hm
    · exact h.1.2.1 hm
    · exact h.1.2.2 hm
  · intro n hn
    have := LoadNode_PrintValue_int (PrintValue.int n).length n [] hn EndsToken_nil
    simp only [List.append_nil] at this
    have hl : Load (PrintValue.int n) = .ok ⟨.int n⟩ [] := by
      simp [Load, this, ParseResult.map]
    exact ⟨by rw [← PrintValue_int_toString]; exact hl, hl⟩

/-- Claim C5, witness: the token `1.0` before a comma and the token `-2e1` load
as Double, the token `-12` before a bracket loads as Int, and so does the
decimal text of the least `int`. -/
theorem LoadNumber_tagging_witness :
    LoadNumber ("1.0".toList ++ ",".toList) = .ok (.double (.finite 1)) ",".toList ∧
    LoadNumber ("-2e1".toList ++ []) = .ok (.double (.finite (-20))) [] ∧
    LoadNumber ("-12".toList ++ "]".toList) = .ok (.int (-12)) "]".toList ∧
    Load "-2147483648".toList = .ok ⟨.int (-2147483648)⟩ [] := by
  have h1 := (LoadNumber_tagging [] ['1'] ['.', '0'] [] ",".toList "1.0".toList (Or.inl rfl)
    (Or.inr ⟨by decide, by decide, by decide⟩) (Or.inr ⟨['0'], by decide, by decide, rfl⟩)
    (Or.inl rfl) rfl
    ⟨Or.inr (NoDigitAhead_cons _ (by decide)), fun h => absurd h (by decide), fun _ => by decide⟩).1
  have h2 := (LoadNumber_tagging ['-'] ['2'] [] ['e', '1'] [] "-2e1".toList (Or.inr rfl)
    (Or.inr ⟨by decide, by decide, by decide⟩) (Or.inl rfl)
    (Or.inr ⟨'e', [], ['1'], Or.inl rfl, Or.inl rfl, by decide, by decide, rfl⟩) rfl
    ⟨Or.inr NoDigitAhead_nil, fun _ h => absurd h (by decide),
      fun h => absurd h (by decide)⟩).1
  have h3 := LoadNumber_tagging ['-'] ['1', '2'] [] [] "]".toList "-12".toList (Or.inr rfl)
    (Or.inr ⟨by decide, by decide, by decide⟩) (Or.inl rfl) (Or.inl rfl) rfl
    ⟨Or.inr (NoDigitAhead_cons _ (by decide)), fun _ _ => by decide, fun _ => by decide⟩
  rw [if_neg (by decide), stod_sample_fraction] at h1
  rw [if_neg (by decide), stod_sample_exponent] at h2
  exact ⟨h1, h2, h3.2.2.2.1 (by decide), (h3.2.2.2.2.2.2.2 (-2147483648) (by decide)).1⟩

/-! Rounding to binary64 and the range of `double`. -/

theorem roundHalfEven_le (x : ℚ) (n : Int) (h : x < n + 1 / 2) : roundHalfEven x ≤ n := by
  have hf : ((Int.floor x : Int) : ℚ) ≤ x := Int.floor_le x
  unfold roundHalfEven
  simp only
  by_cases h1 : x - (Int.floor x : ℚ) < 1 / 2
  · simp only [h1, if_true]
    have : ((Int.floor x : Int) : ℚ) < (n : ℚ) + 1 := by linarith
    have : (Int.floor x : Int) < n + 1 := by exact_mod_cast this
    omega
  · simp only [h1, if_false]
    have hlt : ((Int.floor x : Int) : ℚ) < (n : ℚ) := by linarith
    have hlt' : (Int.floor x : Int) < n := by exact_mod_cast hlt
    by_cases h2 : 1 / 2 < x - (Int.floor x : ℚ)
    · simp only [h2, if_true]; omega
    · simp only [h2, if_false]
      by_cases h3 : Int.floor x % 2 = 0
      · simp only [h3, if_true]; omega
      · simp only [h3, if_false]; omega

theorem roundHalfEven_ge (x : ℚ) (n : Int) (hn : n % 2 = 0) (h : (n : ℚ) - 1 / 2 ≤ x) :
    n ≤ roundHalfEven x := by
  have hf : x < ((Int.floor x : Int) : ℚ) + 1 := Int.lt_floor_add_one x
  unfold roundHalfEven
  simp only
  by_cases h1 : x - (Int.floor x : ℚ) < 1 / 2
  · simp only [h1, if_true]
    have : (n : ℚ) < ((Int.floor x : Int) : ℚ) + 1 := by linarith
    have : n < Int.floor x + 1 := by exact_mod_cast this
    omega
  · simp only [h1, if_false]
    have hle : (n : ℚ) < ((Int.floor x : Int) : ℚ) + 2 := by linarith
    have hle' : n < Int.floor x + 2 := by exact_mod_cast hle
    by_cases h2 : 1 / 2 < x - (Int.floor x : ℚ)
    · simp only [h2, if_true]; omega
    · simp only [h2, if_false]
      by_cases h3 : Int.floor x % 2 = 0
      · simp only [h3, if_true]; omega
      · simp only [h3, if_false]; omega

theorem roundMagnitude_overflow (a : ℚ) (h1 : 1 ≤ a) :
    binary64Max < roundMagnitude a ↔ binary64Overflow ≤ a := by
  have ha : 0 < a := by linarith
  have h2 : (1 : ℕ) < 2 := by norm_num
  have hlo : ((2 : ℕ) : ℚ) ^ Int.log 2 a ≤ a := Int.zpow_log_le_self h2 ha
  have hhi : a < ((2 : ℕ) : ℚ) ^ (Int.log 2 a + 1) := Int.lt_zpow_succ_log_self h2 a
  have he0 : 0 ≤ Int.log 2 a := by
    rw [Int.log_of_one_le_right 2 h1]; exact Int.natCast_nonneg _
  simp only [Nat.cast_ofNat] at hlo hhi
  set e := Int.log 2 a with he
  have hk : binary64Exponent a = e - 52 := by
    unfold binary64Exponent
    rw [← he]
    omega
  have hp : (0 : ℚ) < (2 : ℚ) ^ (e - 52) := by positivity
  unfold roundMagnitude
  rw [hk]
  set x := a / (2 : ℚ) ^ (e - 52) with hx
  have hx52 : (2 : ℚ) ^ (52 : Int) ≤ x := by
    rw [hx, le_div_iff₀ hp, ← zpow_add₀ (by norm_num : (2 : ℚ) ≠ 0)]
    have : (52 : Int) + (e - 52) = e := by ring
    rw [this]; exact hlo
  have hx53 : x < (2 : ℚ) ^ (53 : Int) := by
    rw [hx, div_lt_iff₀ hp, ← zpow_add₀ (by norm_num : (2 : ℚ) ≠ 0)]
    have : (53 : Int) + (e - 52) = e + 1 := by ring
    rw [this]; exact hhi
  have hm52 : (2 : Int) ^ 52 ≤ roundHalfEven x := by
    apply roundHalfEven_ge x _ (by norm_num)
    have : ((2 : Int) ^ 52 : Int) = ((2 : ℚ) ^ (52 : Int)) := by norm_num
    push_cast
    have h52 : (2 : ℚ) ^ (52 : Int) = (2 : ℚ) ^ 52 := by norm_num
    rw [h52] at hx52
    linarith
  have hm53 : roundHalfEven x ≤ (2 : Int) ^ 53 := by
    apply roundHalfEven_le
    push_cast
    have h53 : (2 : ℚ) ^ (53 : Int) = (2 : ℚ) ^ 53 := by norm_num
    rw [h53] at hx53
    linarith
  constructor
  · -- the rounded value is past `DBL_MAX`
    intro hbig
    by_contra hsmall
    rw [not_le] at hsmall
    have he1 : e ≤ 1023 := by
      by_contra hc
      have hc' : (1024 : Int) ≤ e := by omega
      have : (2 : ℚ) ^ (1024 : Int) ≤ (2 : ℚ) ^ e := zpow_le_zpow_right₀ (by norm_num) hc'
      have h1024 : (2 : ℚ) ^ (1024 : Int) = (2 : ℚ) ^ 1024 := by norm_num
      unfold binary64Overflow at hsmall
      rw [h1024] at this
      have : (2 : ℚ) ^ 1024 ≤ a := le_trans this hlo
      have hpos : (0 : ℚ) < 2 ^ 970 := by positivity
      linarith
    by_cases he2 : e ≤ 1022
    · have hle : (roundHalfEven x : ℚ) * (2 : ℚ) ^ (e - 52) ≤ (2 : ℚ) ^ (1023 : Int) := by
        have hm : (roundHalfEven x : ℚ) ≤ (2 : ℚ) ^ (53 : Int) := by
          have : ((roundHalfEven x : Int) : ℚ) ≤ (((2 : Int) ^ 53 : Int) : ℚ) := by
            exact_mod_cast hm53
          have h53 : (((2 : Int) ^ 53 : Int) : ℚ) = (2 : ℚ) ^ (53 : Int) := by norm_num
          rw [h53] at this; exact this
        calc (roundHalfEven x : ℚ) * (2 : ℚ) ^ (e - 52)
            ≤ (2 : ℚ) ^ (53 : Int) * (2 : ℚ) ^ (e - 52) :=
              mul_le_mul_of_nonneg_right hm hp.le
          _ = (2 : ℚ) ^ (e + 1) := by
              rw [← zpow_add₀ (by norm_num : (2 : ℚ) ≠ 0)]
              congr 1; ring
          _ ≤ (2 : ℚ) ^ (1023 : Int) := zpow_le_zpow_right₀ (by norm_num) (by omega)
      have h1023 : (2 : ℚ) ^ (1023 : Int) = (2 : ℚ) ^ 1023 := by norm_num
      rw [h1023] at hle
      unfold binary64Max at hbig
      have : (2 : ℚ) ^ 1023 ≤ 2 ^ 1024 - 2 ^ 971 := by norm_num
      linarith
    · have hee : e = 1023 := by omega
      rw [hee] at hbig hx
      have hk971 : (1023 : Int) - 52 = 971 := by norm_num
      rw [hk971] at hbig hx
      have h971 : (2 : ℚ) ^ (971 : Int) = (2 : ℚ) ^ 971 := by norm_num
      rw [h971] at hbig hx
      have hxlt : x < (((2 : Int) ^ 53 - 1 : Int) : ℚ) + 1 / 2 := by
        rw [hx, div_lt_iff₀ (by positivity)]
        unfold binary64Overflow at hsmall
        refine lt_of_lt_of_eq hsmall ?_
        norm_num
      have hm := roundHalfEven_le x _ hxlt
      have hmq : (roundHalfEven x : ℚ) ≤ (2 : ℚ) ^ 53 - 1 := by
        have h' : ((roundHalfEven x : Int) : ℚ) ≤ (((2 : Int) ^ 53 - 1 : Int) : ℚ) := by
          exact_mod_cast hm
        norm_num at h' ⊢
        linarith
      have : (roundHalfEven x : ℚ) * 2 ^ 971 ≤ ((2 : ℚ) ^ 53 - 1) * 2 ^ 971 :=
        mul_le_mul_of_nonneg_right hmq (by positivity)
      unfold binary64Max at hbig
      have e2 : ((2 : ℚ) ^ 53 - 1) * 2 ^ 971 = 2 ^ 1024 - 2 ^ 971 := by norm_num
      linarith
  · -- the value is at or past the bound
    intro hbig
    have he1 : 1023 ≤ e := by
      have : (2 : ℚ) ^ (1023 : Int) < (2 : ℚ) ^ (e + 1) := by
        have h1023 : (2 : ℚ) ^ (1023 : Int) = (2 : ℚ) ^ 1023 := by norm_num
        rw [h1023]
        unfold binary64Overflow at hbig
        have : (2 : ℚ) ^ 1023 ≤ 2 ^ 1024 - 2 ^ 970 := by norm_num
        linarith
      have := (zpow_lt_zpow_iff_right₀ (by norm_num : (1 : ℚ) < 2)).mp this
      omega
    by_cases he2 : 1024 ≤ e
    · have hm : (2 : ℚ) ^ (52 : Int) ≤ (roundHalfEven x : ℚ) := by
        have : (((2 : Int) ^ 52 : Int) : ℚ) ≤ ((roundHalfEven x : Int) : ℚ) := by
          exact_mod_cast hm52
        have h52 : (((2 : Int) ^ 52 : Int) : ℚ) = (2 : ℚ) ^ (52 : Int) := by norm_num
        rw [h52] at this; exact this
      have hge : (2 : ℚ) ^ (1024 : Int) ≤ (roundHalfEven x : ℚ) * (2 : ℚ) ^ (e - 52) := by
        calc (2 : ℚ) ^ (1024 : Int) ≤ (2 : ℚ) ^ e := zpow_le_zpow_right₀ (by norm_num) he2
          _ = (2 : ℚ) ^ (52 : Int) * (2 : ℚ) ^ (e - 52) := by
              rw [← zpow_add₀ (by norm_num : (2 : ℚ) ≠ 0)]
              congr 1; ring
          _ ≤ (roundHalfEven x : ℚ) * (2 : ℚ) ^ (e - 52) :=
              mul_le_mul_of_nonneg_right hm hp.le
      have h1024 : (2 : ℚ) ^ (1024 : Int) = (2 : ℚ) ^ 1024 := by norm_num
      rw [h1024] at hge
      unfold binary64Max
      have : (0 : ℚ) < 2 ^ 971 := by positivity
      linarith
    · have hee : e = 1023 := by omega
      rw [hee] at hx ⊢
      have hk971 : (1023 : Int) - 52 = 971 := by norm_num
      rw [hk971] at hx ⊢
      have h971 : (2 : ℚ) ^ (971 : Int) = (2 : ℚ) ^ 971 := by norm_num
      rw [h971] at hx ⊢
      have hxge : (((2 : Int) ^ 53 : Int) : ℚ) - 1 / 2 ≤ x := by
        rw [hx, le_div_iff₀ (by positivity)]
        unfold binary64Overflow at hbig
        refine le_trans (le_of_eq ?_) hbig
        norm_num
      have hm := roundHalfEven_ge x _ (by norm_num) hxge
      have hmq : (2 : ℚ) ^ 53 ≤ (roundHalfEven x : ℚ) := by
        have h' : (((2 : Int) ^ 53 : Int) : ℚ) ≤ ((roundHalfEven x : Int) : ℚ) := by
          exact_mod_cast hm
        norm_num at h' ⊢
        linarith
      have : (2 : ℚ) ^ 53 * 2 ^ 971 ≤ (roundHalfEven x : ℚ) * 2 ^ 971 :=
        mul_le_mul_of_nonneg_right hmq (by positivity)
      unfold binary64Max
      have e2 : (2 : ℚ) ^ 53 * 2 ^ 971 = 2 ^ 1024 := by norm_num
      have : (0 : ℚ) < 2 ^ 971 := by positivity
      linarith

theorem roundMagnitude_nonneg (a : ℚ) (ha : 0 ≤ a) : 0 ≤ roundMagnitude a := by
  unfold roundMagnitude
  apply mul_nonneg _ (by positivity)
  have hx : (0 : ℚ) ≤ a / (2 : ℚ) ^ binary64Exponent a := by positivity
  have := roundHalfEven_ge (a / (2 : ℚ) ^ binary64Exponent a) 0 (by norm_num)
    (by push_cast; linarith)
  exact_mod_cast this

theorem abs_roundBinary64 (q : ℚ) : |roundBinary64 q| = if q = 0 then 0 else roundMagnitude |q| := by
  unfold roundBinary64
  by_cases h0 : q = 0
  · simp [h0]
  · have hn := roundMagnitude_nonneg |q| (abs_nonneg q)
    by_cases h1 : q < 0
    · simp only [h0, h1, if_true, if_false, abs_neg, abs_of_nonneg hn]
    · simp only [h0, h1, if_false, abs_of_nonneg hn]

/-- The rounded value is past `DBL_MAX` exactly from `2^1024 - 2^970` on. -/
theorem roundBinary64_overflow (q : ℚ) (h1 : 1 ≤ |q|) :
    binary64Max < |roundBinary64 q| ↔ binary64Overflow ≤ |q| := by
  have h0 : q ≠ 0 := by
    rintro rfl
    simp at h1
    linarith
  rw [abs_roundBinary64, if_neg h0]
  exact roundMagnitude_overflow |q| h1

/-- A magnitude of at least one is not tiny: rounding in an unbounded exponent
range keeps it at or above one. -/
theorem roundUnbounded_one_le (a : ℚ) (h1 : 1 ≤ a) : 1 ≤ roundUnbounded a := by
  have ha : 0 < a := by linarith
  have hk : 0 ≤ Int.log 2 a := by
    rw [Int.log_of_one_le_right 2 h1]
    exact Int.natCast_nonneg _
  have hle : (2 : ℚ) ^ Int.log 2 a ≤ a := Int.zpow_log_le_self (by norm_num) ha
  have hpos : (0 : ℚ) < (2 : ℚ) ^ (Int.log 2 a - 52) := zpow_pos (by norm_num) _
  have hsplit : (2 : ℚ) ^ Int.log 2 a = 4503599627370496 * (2 : ℚ) ^ (Int.log 2 a - 52) := by
    rw [zpow_sub₀ (by norm_num : (2 : ℚ) ≠ 0)]
    norm_num
    ring
  have hx : ((4503599627370496 : Int) : ℚ) - 1 / 2 ≤ a / (2 : ℚ) ^ (Int.log 2 a - 52) := by
    rw [le_div_iff₀ hpos]
    rw [hsplit] at hle
    push_cast
    nlinarith
  have hr := roundHalfEven_ge _ 4503599627370496 (by norm_num) hx
  have hr' : (4503599627370496 : ℚ) ≤
      (roundHalfEven (a / (2 : ℚ) ^ (Int.log 2 a - 52)) : ℚ) := by
    exact_mod_cast hr
  unfold roundUnbounded
  have h2 : (1 : ℚ) ≤ (2 : ℚ) ^ Int.log 2 a := one_le_zpow₀ (by norm_num) hk
  calc (1 : ℚ) ≤ (2 : ℚ) ^ Int.log 2 a := h2
    _ = 4503599627370496 * (2 : ℚ) ^ (Int.log 2 a - 52) := hsplit
    _ ≤ _ := mul_le_mul_of_nonneg_right hr' (le_of_lt hpos)

/-- The function `std::stod` on a sign and digits. -/
theorem stod_token (sign ds : List Char) (hs : IsSign sign) (hne : ds ≠ [])
    (hd : ∀ c ∈ ds, isdigit c = true) :
    stod (sign ++ ds) =
      if binary64Max < |roundBinary64 (integerValue (sign ++ ds) : ℚ)| then none
      else if roundUnbounded |(integerValue (sign ++ ds) : ℚ)| < binary64MinNormal ∧
          roundBinary64 (integerValue (sign ++ ds) : ℚ) ≠ (integerValue (sign ++ ds) : ℚ) then none
      else some (.finite (roundBinary64 (integerValue (sign ++ ds) : ℚ))) := by
  rw [integerValue_token sign ds hs hne hd]
  obtain ⟨htw, hdw⟩ := takeWhile_run ds [] hd NoDigitAhead_nil
  simp only [List.append_nil] at htw hdw
  have hexp : decimalExponent [] = 0 := by simp [decimalExponent]
  cases ds with
  | nil => exact absurd rfl hne
  | cons c r =>
    have hc := digit_not_mark (hd c (by simp))
    have hsp := isdigit_not_space (hd c (by simp))
    rcases hs with rfl | rfl
    · have hnil : ([] : List Char) ≠ ['-'] := by simp
      simp only [stod, List.nil_append, skipBlank_of_head c r hsp, List.head?_cons,
        Option.some.injEq, hc.2.2.2.1, hc.2.2.2.2, or_self, if_false, decide_False, htw, hdw,
        List.head?_nil, Bool.false_eq_true, hnil, List.append_nil, hexp, List.length_nil,
        reduceCtorEq, false_and]
      simp
    · have hsp2 : isspace '-' = false := by decide
      simp only [stod, List.singleton_append, skipBlank_of_head '-' _ hsp2, List.head?_cons,
        true_or, if_true, List.tail_cons, htw, hdw, decide_True, List.head?_nil,
        List.append_nil, hexp, List.length_nil, reduceCtorEq, if_false, false_and]
      simp

theorem binary64MinNormal_le_one : binary64MinNormal ≤ 1 := by
  unfold binary64MinNormal
  exact zpow_le_one_of_nonpos₀ (by norm_num) (by norm_num)

/-- The function `LoadNumber` on an integer literal. -/
theorem LoadNumber_integer_literal (sign ip tail : List Char) (hs : IsSign sign)
    (hip : IsIntegerPart ip) (ht : EndsToken tail) :
    LoadNumber (sign ++ ip ++ tail) =
      if -2147483648 ≤ integerValue (sign ++ ip) ∧ integerValue (sign ++ ip) ≤ 2147483647 then
        .ok (.int (integerValue (sign ++ ip))) tail
      else if binary64Overflow ≤ |(integerValue (sign ++ ip) : ℚ)| then .parsingError
      else .ok (.double (.finite (roundBinary64 (integerValue (sign ++ ip) : ℚ)))) tail := by
  obtain ⟨c, r, hc, -, hd⟩ := IsIntegerPart_head hip
  have hne : ip ≠ [] := by rw [hc]; simp
  have hstoi := stoi_token sign ip hs hne hd
  have hstod := stod_token sign ip hs hne hd
  simp only [LoadNumber, scanNumber_integer sign ip tail hs hip ht, convertNumber, if_true]
  by_cases hr : -2147483648 ≤ integerValue (sign ++ ip) ∧ integerValue (sign ++ ip) ≤ 2147483647
  · simp only [hr, and_self, if_true] at hstoi ⊢
    simp [hstoi]
  · simp only [hr, if_false] at hstoi ⊢
    simp only [hstoi]
    have hbig : (1 : ℚ) ≤ |(integerValue (sign ++ ip) : ℚ)| := by
      have : (1 : Int) ≤ |integerValue (sign ++ ip)| := by
        rw [le_abs]
        by_contra hcon
        apply hr
        constructor <;> omega
      exact_mod_cast this
    have hov := roundBinary64_overflow _ hbig
    by_cases ho : binary64Overflow ≤ |(integerValue (sign ++ ip) : ℚ)|
    · simp only [hov.mpr ho, ho, if_true] at hstod ⊢
      simp [hstod]
    · have ho' : ¬ binary64Max < |roundBinary64 (integerValue (sign ++ ip) : ℚ)| :=
        fun h => ho (hov.mp h)
      have hnt : ¬ roundUnbounded |(integerValue (sign ++ ip) : ℚ)| < binary64MinNormal :=
        not_lt.mpr (le_trans binary64MinNormal_le_one (roundUnbounded_one_le _ hbig))
      simp only [ho, ho', if_false, hnt, false_and] at hstod ⊢
      simp [hstod]

/-- Claim C6, as amended: an integer literal whose value is outside the 32-bit
signed range loads as a Double-tagged value when its magnitude is below
`2^1024 - 2^970` (it rounds to a finite binary64 value), and `LoadNumber`
fails with `ParsingError` when the magnitude is at or above that bound. -/
theorem LoadNumber_integer_overflow (sign ip tail : List Char) (hs : IsSign sign)
    (hip : IsIntegerPart ip) (ht : EndsToken tail)
    (hr : integerValue (sign ++ ip) < -2147483648 ∨ 2147483647 < integerValue (sign ++ ip)) :
    (|(integerValue (sign ++ ip) : ℚ)| < binary64Overflow →
      ∃ d, LoadNumber (sign ++ ip ++ tail) = .ok (.double d) tail) ∧
    (binary64Overflow ≤ |(integerValue (sign ++ ip) : ℚ)| →
      LoadNumber (sign ++ ip ++ tail) = .parsingError) := by
  have hnr : ¬ (-2147483648 ≤ integerValue (sign ++ ip) ∧
      integerValue (sign ++ ip) ≤ 2147483647) := by omega
  rw [LoadNumber_integer_literal sign ip tail hs hip ht]
  simp only [hnr, if_false]
  constructor
  · intro h
    simp only [not_le.mpr h, if_false]
    exact ⟨_, rfl⟩
  · intro h
    simp only [h, if_true]

set_option maxRecDepth 100000 in
theorem sample_literal_value : integerValue sampleHugeLiteral = 10 ^ 309 := by
  decide

theorem find_emplace_firstValue (key : List Char) (value : Node) (result : Dict)
    (acc : List (List Char × Node))
    (h : ∀ k, find k result = firstValue k acc) (k : List Char) :
    find k (emplace key value result) = firstValue k (acc ++ [(key, value)]) := by
  rw [find_emplace, firstValue_append, h]

theorem LoadDictLoop_entries (L : List Char → ParseResult Node) :
    ∀ (fuel : Nat) (result : Dict) (acc : List (List Char × Node)) (input : List Char)
      (entries : List (List Char × Node)) (rest : List Char),
      (∀ k, find k result = firstValue k acc) →
      LoadDictEntriesLoop L fuel acc input = .ok entries rest →
      ∃ d, LoadDictLoop L fuel result input = .ok (.dict d) rest ∧
        ∀ k, find k d = firstValue k entries
  | 0, _, _, _, _, _, _, h => by simp [LoadDictEntriesLoop] at h
  | fuel + 1, result, acc, input, entries, rest, hinv, h => by
    simp only [LoadDictEntriesLoop] at h
    simp only [LoadDictLoop]
    cases hk : ParseString (SkipSpace input) with
    | parsingError => simp [hk] at h
    | outOfFuel => simp [hk] at h
    | ok key r0 =>
      simp only [hk] at h ⊢
      cases hs : SkipSpace r0 with
      | nil => simp [hs] at h
      | cons c r1 =>
        simp only [hs] at h ⊢
        by_cases hc : c = ':'
        · simp only [hc, ne_eq, not_true_eq_false, if_false] at h ⊢
          cases hv : L (SkipSpace r1) with
          | parsingError => simp [hv] at h
          | outOfFuel => simp [hv] at h
          | ok value r2 =>
            simp only [hv] at h ⊢
            cases hs2 : SkipSpace r2 with
            | nil => simp [hs2] at h
            | cons d r3 =>
              simp only [hs2] at h ⊢
              have hinv' := find_emplace_firstValue key value result acc hinv
              by_cases hd : d = '}'
              · simp only [hd, if_true] at h ⊢
                simp only [ParseResult.ok.injEq] at h
                obtain ⟨h1, h2⟩ := h
                subst h1 h2
                exact ⟨_, rfl, hinv'⟩
              · simp only [hd, if_false] at h ⊢
                by_cases hd2 : d = ','
                · simp only [hd2, ne_eq, not_true_eq_false, if_false] at h ⊢
                  exact LoadDictLoop_entries L fuel _ _ _ _ _ hinv' h
                · simp [hd2] at h
        · simp [hc] at h

theorem LoadDict_entries (L : List Char → ParseResult Node) (input : List Char)
    (entries : List (List Char × Node)) (rest : List Char)
    (h : LoadDictEntries L input = .ok entries rest) :
    ∃ d, LoadDict L input = .ok (.dict d) rest ∧ ∀ k, find k d = firstValue k entries := by
  cases input with
  | nil => simp [LoadDictEntries] at h
  | cons c r =>
    simp only [LoadDictEntries] at h
    simp only [LoadDict]
    by_cases hc : c = '{'
    · simp only [hc, ne_eq, not_true_eq_false, if_false] at h ⊢
      by_cases he : (SkipSpace r).head? = some '}'
      · simp only [he, if_true, ParseResult.ok.injEq] at h ⊢
        obtain ⟨h1, h2⟩ := h
        subst h1
        exact ⟨[], ⟨rfl, h2⟩, fun k => rfl⟩
      · simp only [he, if_false] at h ⊢
        exact LoadDictLoop_entries L _ [] [] _ _ _ (fun k => rfl) h
    · simp [hc] at h

/-- Claim C3, as amended: when the same key occurs more than once in an object
text, the map that `Load` returns holds, under every key, the value of the
FIRST occurrence of that key in the text (`emplace` leaves an existing entry
as it is). -/
theorem Load_first_occurrence (input : List Char) (entries : List (List Char × Node))
    (rest : List Char) (h : LoadEntries input = .ok entries rest) :
    ∃ d, Load input = .ok ⟨.dict d⟩ rest ∧ ∀ key, find key d = firstValue key entries := by
  unfold LoadEntries at h
  by_cases hb : (SkipSpace input).head? = some '{'
  · simp only [hb, if_true] at h
    obtain ⟨d, hd, hfind⟩ := LoadDict_entries _ _ _ _ h
    refine ⟨d, ?_, hfind⟩
    cases hs : SkipSpace input with
    | nil => simp [hs] at hb
    | cons c r =>
      rw [hs] at hb hd
      simp only [List.head?_cons, Option.some.injEq] at hb
      subst hb
      simp only [Load, LoadNode, hs]
      have : ¬ ('{' = '[') := by decide
      simp only [this, if_false, if_true, hd, ParseResult.map]
  · simp [hb] at h

/-- Claim C3, witness: the object text with the entries `a: 1`, `b: 3`, `a: 2`. -/
theorem Load_first_occurrence_witness :
    LoadEntries "\x7b\"a\": 1, \"b\": 3, \"a\": 2\x7d".toList
        = .ok [("a".toList, .int 1), ("b".toList, .int 3), ("a".toList, .int 2)] [] ∧
    ∃ d, Load "\x7b\"a\": 1, \"b\": 3, \"a\": 2\x7d".toList = .ok ⟨.dict d⟩ [] ∧
      ∀ key, find key d
        = firstValue key [("a".toList, .int 1), ("b".toList, .int 3), ("a".toList, .int 2)] :=
  ⟨rfl, Load_first_occurrence _ _ _ rfl⟩

/-- Claim C3, counterexample: the text `{"a": 1, "a": 2}` does not load as a
map that holds `Int 2` under `a`. -/
theorem Load_duplicate_key_not_last :
    ¬ ∃ (d : Dict) (rest : List Char),
      Load "\x7b\"a\": 1, \"a\": 2\x7d".toList = .ok ⟨.dict d⟩ rest ∧
        find "a".toList d = some (.int 2) := by
  rintro ⟨d, rest, h, hf⟩
  have e : Load "\x7b\"a\": 1, \"a\": 2\x7d".toList = .ok ⟨.dict [("a".toList, .int 1)]⟩ [] := rfl
  rw [e] at h
  simp only [ParseResult.ok.injEq, Document.mk.injEq, Node.dict.injEq] at h
  obtain ⟨h1, -⟩ := h
  subst h1
  simp [find, stringLess] at hf

mutual
theorem eq_structEq : ∀ a b : Node, a.DoubleFree = true → Node.eq a b = true → StructEq a b
  | .null, b, _, h => by cases b <;> simp [Node.eq] at h; exact .null
  | .bool v, b, _, h => by
    cases b <;> simp [Node.eq] at h
    subst h; exact .bool v
  | .int v, b, _, h => by
    cases b <;> simp [Node.eq] at h
    subst h; exact .int v
  | .string v, b, _, h => by
    cases b <;> simp [Node.eq] at h
    subst h; exact .string v
  | .double v, _, hd, _ => by simp [Node.DoubleFree] at hd
  | .array v, b, hd, h => by
    cases b <;> simp only [Node.eq, Bool.false_eq_true] at h
    rename_i w
    have := eqArray_structEq v w (by simpa [Node.DoubleFree] using hd) h
    exact .array v w this.1 this.2
  | .dict v, b, hd, h => by
    cases b <;> simp only [Node.eq, Bool.false_eq_true] at h
    rename_i w
    have := eqDict_structEq v w (by simpa [Node.DoubleFree] using hd) h
    exact .dict v w this.1 this.2
theorem eqArray_structEq : ∀ a b : List Node, DoubleFree.array a = true →
    Node.eqArray a b = true →
    a.length = b.length ∧
      ∀ (i : Nat) (x y : Node), a[i]? = some x → b[i]? = some y → StructEq x y
  | [], [], _, _ => ⟨rfl, by simp⟩
  | [], _ :: _, _, h => by simp [Node.eqArray] at h
  | _ :: _, [], _, h => by simp [Node.eqArray] at h
  | x :: xs, y :: ys, hd, h => by
    simp only [Node.eqArray, Bool.and_eq_true] at h
    simp only [DoubleFree.array, Bool.and_eq_true] at hd
    have h1 := eq_structEq x y hd.1 h.1
    have h2 := eqArray_structEq xs ys hd.2 h.2
    refine ⟨by simp [h2.1], ?_⟩
    intro i a b ha hb
    cases i with
    | zero =>
      simp only [List.getElem?_cons_zero, Option.some.injEq] at ha hb
      subst ha hb; exact h1
    | succ j =>
      simp only [List.getElem?_cons_succ] at ha hb
      exact h2.2 j a b ha hb
theorem eqDict_structEq : ∀ a b : List (List Char × Node), DoubleFree.dict a = true →
    Node.eqDict a b = true →
    (∀ key : List Char, (find key a).isSome = (find key b).isSome) ∧
      ∀ (key : List Char) (x y : Node), find key a = some x → find key b = some y →
        StructEq x y
  | [], [], _, _ => ⟨fun _ => rfl, by simp [find]⟩
  | [], _ :: _, _, h => by simp [Node.eqDict] at h
  | _ :: _, [], _, h => by simp [Node.eqDict] at h
  | (k, x) :: xs, (l, y) :: ys, hd, h => by
    simp only [Node.eqDict, Bool.and_eq_true, decide_eq_true_eq] at h
    simp only [DoubleFree.dict, Bool.and_eq_true] at hd
    obtain ⟨⟨hk, hxy⟩, hrest⟩ := h
    subst hk
    have h1 := eq_structEq x y hd.1 hxy
    have h2 := eqDict_structEq xs ys hd.2 hrest
    constructor
    · intro key
      simp only [find]
      by_cases c1 : stringLess key k = true
      · simp [c1]
      · by_cases c2 : stringLess k key = true
        · simp only [c1, c2, if_true, if_false]; exact h2.1 key
        · simp [c1, c2]
    · intro key a b ha hb
      simp only [find] at ha hb
      by_cases c1 : stringLess key k = true
      · simp [c1] at ha
      · by_cases c2 : stringLess k key = true
        · simp only [c1, c2, if_true, if_false] at ha hb
          exact h2.2 key a b ha hb
        · simp only [c1, c2, Bool.false_eq_true, if_false, Option.some.injEq] at ha hb
          subst ha hb; exact h1
end

theorem eqArray_of_pointwise : ∀ a b : List Node, a.length = b.length →
    (∀ (i : Nat) (x y : Node), a[i]? = some x → b[i]? = some y → Node.eq x y = true) →
    Node.eqArray a b = true
  | [], [], _, _ => rfl
  | [], _ :: _, h, _ => by simp at h
  | _ :: _, [], h, _ => by simp at h
  | x :: xs, y :: ys, hl, h => by
    simp only [Node.eqArray, Bool.and_eq_true]
    refine ⟨h 0 x y (by simp) (by simp), eqArray_of_pointwise xs ys (by simpa using hl) ?_⟩
    intro i a b ha hb
    exact h (i + 1) a b (by simpa using ha) (by simpa using hb)

theorem find_head (k : List Char) (x : Node) (rest : Dict) : find k ((k, x) :: rest) = some x := by
  simp [find, stringLess_irrefl]

theorem keysAscending_tail (e : List Char × Node) (rest : Dict)
    (h : keysAscending (e :: rest) = true) : keysAscending rest = true := by
  cases rest with
  | nil => rfl
  | cons f rest' =>
    obtain ⟨k, x⟩ := e
    obtain ⟨l, y⟩ := f
    simp only [keysAscending, Bool.and_eq_true] at h
    exact h.2

/-- Below the first key of an ascending map nothing is found in its tail. -/
theorem find_tail_none (k : List Char) (x : Node) (rest : Dict) (key : List Char)
    (h : keysAscending ((k, x) :: rest) = true) (hk : stringLess k key = false) :
    find key rest = none := by
  cases rest with
  | nil => rfl
  | cons f rest' =>
    obtain ⟨l, y⟩ := f
    simp only [keysAscending, Bool.and_eq_true] at h
    have : stringLess key l = true := by
      by_cases c : stringLess key k = true
      · exact stringLess_trans _ _ _ c h.1
      · have e : key = k := stringLess_total key k (by simpa using c) hk
        rw [e]; exact h.1
    simp [find, this]

theorem find_tail (k : List Char) (x : Node) (rest : Dict) (key : List Char)
    (h : keysAscending ((k, x) :: rest) = true) :
    find key rest = if stringLess k key = true then find key ((k, x) :: rest) else none := by
  by_cases c : stringLess k key = true
  · simp only [c, if_true, find]
    rw [stringLess_asymm _ _ c]
    simp
  · simp only [c, if_false]
    exact find_tail_none k x rest key h (by simpa using c)

theorem eqDict_of_pointwise : ∀ a b : Dict, keysAscending a = true → keysAscending b = true →
    (∀ key : List Char, (find key a).isSome = (find key b).isSome) →
    (∀ (key : List Char) (x y : Node), find key a = some x → find key b = some y →
      Node.eq x y = true) →
    Node.eqDict a b = true
  | [], [], _, _, _, _ => rfl
  | [], (l, y) :: ys, _, _, h, _ => by
    have := h l
    rw [find_head] at this
    simp [find] at this
  | (k, x) :: xs, [], _, _, h, _ => by
    have := h k
    rw [find_head] at this
    simp [find] at this
  | (k, x) :: xs, (l, y) :: ys, sa, sb, hkeys, hvals => by
    have e1 : stringLess k l = false := by
      have := hkeys k
      rw [find_head] at this
      by_contra c
      simp only [Bool.not_eq_false] at c
      simp [find, c] at this
    have e2 : stringLess l k = false := by
      have := hkeys l
      rw [find_head] at this
      by_contra c
      simp only [Bool.not_eq_false] at c
      simp [find, c] at this
    have e : k = l := stringLess_total k l e1 e2
    subst e
    simp only [Node.eqDict, Bool.and_eq_true, decide_eq_true_eq, true_and]
    refine ⟨hvals k x y (find_head _ _ _) (find_head _ _ _), ?_⟩
    apply eqDict_of_pointwise xs ys (keysAscending_tail _ _ sa) (keysAscending_tail _ _ sb)
    · intro key
      rw [find_tail k x xs key sa, find_tail k y ys key sb]
      by_cases c : stringLess k key = true
      · simp only [c, if_true]; exact hkeys key
      · simp [c]
    · intro key a b ha hb
      rw [find_tail k x xs key sa] at ha
      rw [find_tail k y ys key sb] at hb
      by_cases c : stringLess k key = true
      · simp only [c, if_true] at ha hb
        exact hvals key a b ha hb
      · simp [c] at ha

theorem WellFormed_getElem : ∀ (a : List Node) (i : Nat) (x : Node),
    WellFormed.array a = true → a[i]? = some x → x.WellFormed = true
  | [], _, _, _, h => by simp at h
  | y :: ys, 0, x, hw, h => by
    simp only [WellFormed.array, Bool.and_eq_true] at hw
    simp only [List.getElem?_cons_zero, Option.some.injEq] at h
    subst h; exact hw.1
  | y :: ys, i + 1, x, hw, h => by
    simp only [WellFormed.array, Bool.and_eq_true] at hw
    simp only [List.getElem?_cons_succ] at h
    exact WellFormed_getElem ys i x hw.2 h

theorem WellFormed_find : ∀ (a : Dict) (key : List Char) (x : Node),
    WellFormed.dict a = true → find key a = some x → x.WellFormed = true
  | [], _, _, _, h => by simp [find] at h
  | (k, y) :: ys, key, x, hw, h => by
    simp only [WellFormed.dict, Bool.and_eq_true] at hw
    simp only [find] at h
    by_cases c1 : stringLess key k = true
    · simp [c1] at h
    · by_cases c2 : stringLess k key = true
      · simp only [c1, c2, if_true, if_false] at h
        exact WellFormed_find ys key x hw.2 h
      · simp only [c1, c2, Bool.false_eq_true, if_false, Option.some.injEq] at h
        subst h; exact hw.1

theorem structEq_eq (a b : Node) (h : StructEq a b) :
    a.WellFormed = true → b.WellFormed = true → Node.eq a b = true := by
  induction h with
  | null => intros; rfl
  | bool v => intros; simp [Node.eq]
  | int v => intros; simp [Node.eq]
  | string v => intros; simp [Node.eq]
  | array a b hl _ ih =>
    intro wa wb
    simp only [Node.WellFormed] at wa wb
    simp only [Node.eq]
    exact eqArray_of_pointwise a b hl (fun i x y hx hy =>
      ih i x y hx hy (WellFormed_getElem a i x wa hx) (WellFormed_getElem b i y wb hy))
  | dict a b hk _ ih =>
    intro wa wb
    simp only [Node.WellFormed, Bool.and_eq_true] at wa wb
    simp only [Node.eq]
    exact eqDict_of_pointwise a b wa.1 wb.1 hk (fun key x y hx hy =>
      ih key x y hx hy (WellFormed_find a key x wa.2 hx) (WellFormed_find b key y wb.2 hy))

/-- Claim C9: on trees without `double`, `operator==` holds exactly when the two
trees are structurally equal (same alternative, arrays element by element in
order, maps as the same keys with equal values), `operator!=` is its negation,
and an Int-tagged node is never equal to a Double-tagged node. -/
theorem Node_eq_structural (a b : Node) (ha : a.DoubleFree = true) (hb : b.DoubleFree = true)
    (wa : a.WellFormed = true) (wb : b.WellFormed = true) :
    (Node.eq a b = true ↔ StructEq a b) ∧
    (Node.eq b a = true ↔ StructEq b a) ∧
    (Node.ne a b = true ↔ ¬ StructEq a b) ∧
    (∀ (n : Int) (d : Double),
      Node.eq (.int n) (.double d) = false ∧ Node.ne (.int n) (.double d) = true) := by
  have key : ∀ a b : Node, a.DoubleFree = true → a.WellFormed = true → b.WellFormed = true →
      (Node.eq a b = true ↔ StructEq a b) := fun a b ha wa wb =>
    ⟨eq_structEq a b ha, fun h => structEq_eq a b h wa wb⟩
  refine ⟨key a b ha wa wb, key b a hb wb wa, ?_, fun n d => ⟨rfl, rfl⟩⟩
  rw [← key a b ha wa wb]
  simp [Node.ne]

/-- Claim C9, witness: a map over an array and a string, compared with itself. -/
theorem Node_eq_structural_witness :
    sampleObject.DoubleFree = true ∧ sampleObject.WellFormed = true ∧
    (Node.eq sampleObject sampleObject = true ↔ StructEq sampleObject sampleObject) :=
  ⟨rfl, rfl, (Node_eq_structural sampleObject sampleObject rfl rfl rfl rfl).1⟩

/-! ## Further statements on the value model and the printer -/

/-- Claim C1, at a failing input: a map key is printed without escaping, so
the text printed for a map whose key is one double quote does not load, and
the text printed for the key backslash, `n` loads as a map with another key;
the round trip does not give back an equal document. -/
theorem Load_Print_unescaped_key (fmtDouble : Double → List Char) :
    Load (Print fmtDouble ⟨.dict [(['"'], .int 1)]⟩) = .parsingError ∧
    Load (Print fmtDouble ⟨.dict [(['\\', 'n'], .int 1)]⟩)
      = .ok ⟨.dict [(['\n'], .int 1)]⟩ [] ∧
    Document.eq ⟨.dict [(['\n'], .int 1)]⟩ ⟨.dict [(['\\', 'n'], .int 1)]⟩ = false :=
  ⟨rfl, rfl, rfl⟩

/-- Claim C2, at a failing input: the printer writes a map key between two
double quotes as it is stored, with no escaping; for the key `a"` it writes
`"a""`, where the String printer writes `"a\""`. -/
theorem PrintValue_dict_key_not_escaped (fmtDouble : Double → List Char) :
    (∀ (key : List Char) (value : Node),
      PrintValue.dict fmtDouble true [(key, value)]
        = ['"'] ++ key ++ ['"', ':', ' '] ++ Node.Print fmtDouble value) ∧
    PrintValue.dict fmtDouble true [(['a', '"'], .null)]
      = ['"', 'a', '"', '"', ':', ' ', 'n', 'u', 'l', 'l'] ∧
    PrintValue.string ['a', '"'] = ['"', 'a', '\\', '"', '"'] := by
  refine ⟨fun key value => ?_, rfl, rfl⟩
  simp [PrintValue.dict]

/-- Claim C4, at a failing input: a string literal that is never closed but
whose last character is an escaped double quote is accepted; `ParseString`
returns the decoded characters instead of failing. -/
theorem ParseString_escaped_quote_at_end :
    ParseString ['"', 'a', '\\', '"'] = .ok ['a', '"'] [] ∧
    Load ['"', 'a', '\\', '"'] = .ok ⟨.string ['a', '"']⟩ [] :=
  ⟨rfl, rfl⟩

/-- Claim C6, counterexample: `1` followed by 309 zeros is an integer literal
whose value is outside the 32-bit signed range, and `LoadNumber` fails on it
with `ParsingError`. -/
theorem LoadNumber_huge_literal_fails :
    IsIntegerPart sampleHugeLiteral ∧
    2147483647 < integerValue sampleHugeLiteral ∧
    LoadNumber sampleHugeLiteral = .parsingError := by
  have hv : integerValue sampleHugeLiteral = 10 ^ 309 := sample_literal_value
  have hip : IsIntegerPart sampleHugeLiteral := by
    right
    refine ⟨List.cons_ne_nil _ _, ?_, by
      simp only [sampleHugeLiteral, List.head?_cons]
      decide⟩
    intro c hc
    simp only [sampleHugeLiteral, List.mem_cons, List.mem_replicate] at hc
    rcases hc with rfl | ⟨-, rfl⟩ <;> decide
  have h := LoadNumber_integer_literal [] sampleHugeLiteral [] (Or.inl rfl) hip EndsToken_nil
  simp only [List.nil_append, List.append_nil, hv] at h
  refine ⟨hip, by rw [hv]; norm_num, ?_⟩
  rw [h]
  have h1 : ¬ ((-2147483648 : Int) ≤ 10 ^ 309 ∧ (10 : Int) ^ 309 ≤ 2147483647) := by norm_num
  have h2 : binary64Overflow ≤ |(((10 : Int) ^ 309 : Int) : ℚ)| := by
    unfold binary64Overflow
    rw [abs_of_nonneg (by positivity)]
    norm_num
  simp only [h1, if_false, h2, if_true]

/-- Claim C6, witness: the literal `2147483648`, the least one above the
range of `int`. -/
theorem LoadNumber_integer_overflow_witness :
    2147483647 < integerValue ([] ++ "2147483648".toList) ∧
    ∃ d, LoadNumber ([] ++ "2147483648".toList ++ []) = .ok (.double d) [] :=
  ⟨by decide,
    (LoadNumber_integer_overflow [] "2147483648".toList [] (Or.inl rfl)
      (Or.inr ⟨by decide, by decide, by decide⟩) (fun c hc => by simp at hc)
      (Or.inr (by decide))).1 (by
        have e : integerValue ([] ++ "2147483648".toList) = 2147483648 := by decide
        rw [e]
        unfold binary64Overflow
        norm_num)⟩

/-- Claim C8: each typed extractor returns the stored payload when the active
alternative is its own and raises `std::logic_error` otherwise; `AsDouble`
succeeds exactly on Int (widened to `double`) and on Double (the stored
value); `AsInt` raises on a Double-tagged node. -/
theorem Node_extractors (node : Node) :
    (node.AsBool = match node with
      | .bool v => .ok v
      | _ => .error .mk) ∧
    (node.AsInt = match node with
      | .int v => .ok v
      | _ => .error .mk) ∧
    (node.AsString = match node with
      | .string v => .ok v
      | _ => .error .mk) ∧
    (node.AsArray = match node with
      | .array v => .ok v
      | _ => .error .mk) ∧
    (node.AsMap = match node with
      | .dict v => .ok v
      | _ => .error .mk) ∧
    (node.AsDouble = match node with
      | .int v => .ok (.finite (v : ℚ))
      | .double v => .ok v
      | _ => .error .mk) ∧
    ((∃ v, node.AsDouble = .ok v) ↔ (node.IsInt = true ∨ node.IsPureDouble = true)) ∧
    (∀ d : Double, (Node.double d).AsInt = .error .mk) := by
  refine ⟨?_, ?_, ?_, ?_, ?_, ?_, ?_, fun d => rfl⟩ <;> cases node <;>
    simp [Node.AsBool, Node.AsInt, Node.AsString, Node.AsArray, Node.AsMap, Node.AsDouble,
      Node.IsBool, Node.IsInt, Node.IsString, Node.IsArray, Node.IsMap, Node.IsDouble,
      Node.IsPureDouble, Double.ofInt]

/-- Claim C10: exactly one of `IsNull`, `IsBool`, `IsInt`, `IsPureDouble`,
`IsString`, `IsArray`, `IsMap` holds of a node, and `IsDouble` is `IsInt` or
`IsPureDouble`; so `IsDouble` holds together with `IsInt` or with
`IsPureDouble` and with no other predicate. -/
theorem Node_tags (node : Node) :
    ((if node.IsNull then 1 else 0) + (if node.IsBool then 1 else 0)
      + (if node.IsInt then 1 else 0) + (if node.IsPureDouble then 1 else 0)
      + (if node.IsString then 1 else 0) + (if node.IsArray then 1 else 0)
      + (if node.IsMap then 1 else 0) = 1) ∧
    node.IsDouble = (node.IsInt || node.IsPureDouble) ∧
    (node.IsDouble = true → node.IsNull = false ∧ node.IsBool = false ∧
      node.IsString = false ∧ node.IsArray = false ∧ node.IsMap = false) := by
  cases node <;> simp [Node.IsNull, Node.IsBool, Node.IsInt, Node.IsPureDouble, Node.IsString,
    Node.IsArray, Node.IsMap, Node.IsDouble]


/-! ## The loader: termination, errors and round trips -/

/-! Every routine that returns has read at least one character. -/

theorem SkipSpace_length_le : ∀ input : List Char, (SkipSpace input).length ≤ input.length
  | [] => by simp [SkipSpace]
  | c :: rest => by
    simp only [SkipSpace]
    by_cases h : isspace c = true
    · simp only [h, if_true, List.length_cons]
      have := SkipSpace_length_le rest
      omega
    · simp [h]

theorem ParseStringLoop_length : ∀ (input str : List Char) (c : Option Char) (escape : Bool)
    (s rest : List Char), ParseStringLoop str c escape input = .ok s rest →
    rest.length ≤ input.length
  | [], str, c, escape, s, rest, h => by
    simp only [ParseStringLoop] at h
    by_cases hc : c = some '"'
    · simp only [hc, if_true, ParseResult.ok.injEq] at h
      rw [← h.2]
    · simp [hc] at h
  | ch :: input, str, c, escape, s, rest, h => by
    simp only [ParseStringLoop] at h
    by_cases h1 : (!escape && decide (ch = '"')) = true
    · simp only [h1, if_true, ParseResult.ok.injEq] at h
      rw [← h.2]
      simp
    · simp only [h1, if_false] at h
      by_cases h2 : escape = true
      · simp only [h2, if_true] at h
        have := ParseStringLoop_length input _ _ _ _ _ h
        simp only [List.length_cons]
        omega
      · simp only [h2, if_false] at h
        by_cases h3 : ch = '\\'
        · simp only [h3, if_true] at h
          have := ParseStringLoop_length input _ _ _ _ _ h
          simp only [List.length_cons]
          omega
        · simp only [h3, if_false] at h
          have := ParseStringLoop_length input _ _ _ _ _ h
          simp only [List.length_cons]
          omega

theorem ParseString_length (input s rest : List Char) (h : ParseString input = .ok s rest) :
    rest.length < input.length := by
  cases input with
  | nil => simp [ParseString] at h
  | cons c r =>
    simp only [ParseString] at h
    by_cases hc : c = '"'
    · simp only [hc, ne_eq, not_true_eq_false, if_false] at h
      have := ParseStringLoop_length r _ _ _ _ _ h
      simp only [List.length_cons]
      omega
    · simp [hc] at h

theorem ParseString_ne_outOfFuel_loop : ∀ (input str : List Char) (c : Option Char)
    (escape : Bool), ParseStringLoop str c escape input ≠ .outOfFuel
  | [], str, c, escape => by
    simp only [ParseStringLoop]
    by_cases hc : c = some '"' <;> simp [hc]
  | ch :: input, str, c, escape => by
    simp only [ParseStringLoop]
    by_cases h1 : (!escape && decide (ch = '"')) = true
    · simp [h1]
    · simp only [h1, if_false]
      by_cases h2 : escape = true
      · simp only [h2, if_true]
        exact ParseString_ne_outOfFuel_loop input _ _ _
      · simp only [h2, if_false]
        by_cases h3 : ch = '\\'
        · simp only [h3, if_true]
          exact ParseString_ne_outOfFuel_loop input _ _ _
        · simp only [h3, if_false]
          exact ParseString_ne_outOfFuel_loop input _ _ _

theorem ParseString_ne_outOfFuel (input : List Char) : ParseString input ≠ .outOfFuel := by
  cases input with
  | nil => simp [ParseString]
  | cons c r =>
    simp only [ParseString]
    by_cases hc : c = '"'
    · simp only [hc, ne_eq, not_true_eq_false, if_false]
      exact ParseString_ne_outOfFuel_loop r _ _ _
    · simp [hc]

theorem readAlpha_eq : ∀ (input str : List Char),
    readAlpha str input = (str ++ input.takeWhile isalpha, input.dropWhile isalpha)
  | [], str => by simp [readAlpha]
  | c :: rest, str => by
    simp only [readAlpha, List.takeWhile_cons, List.dropWhile_cons]
    by_cases h : isalpha c = true
    · simp [h, readAlpha_eq rest]
    · simp [h]

theorem dropWhile_length_of_takeWhile_ne_nil (p : Char → Bool) (input : List Char)
    (h : input.takeWhile p ≠ []) : (input.dropWhile p).length < input.length := by
  have h1 := List.takeWhile_append_dropWhile p input
  have h2 : (input.takeWhile p).length + (input.dropWhile p).length = input.length := by
    rw [← List.length_append, h1]
  have h3 : 0 < (input.takeWhile p).length := List.length_pos.mpr h
  omega

theorem LoadBool_length (input : List Char) (v : Node) (rest : List Char)
    (h : LoadBool input = .ok v rest) : rest.length < input.length := by
  simp only [LoadBool, readAlpha_eq, List.nil_append] at h
  by_cases h1 : input.takeWhile isalpha = ['t', 'r', 'u', 'e']
  · simp only [h1, String.toList, if_true, ParseResult.ok.injEq] at h
    rw [← h.2]
    exact dropWhile_length_of_takeWhile_ne_nil _ _ (by rw [h1]; decide)
  · simp only [h1, String.toList, if_false] at h
    by_cases h2 : input.takeWhile isalpha = ['f', 'a', 'l', 's', 'e']
    · simp only [h2, if_true, ParseResult.ok.injEq] at h
      rw [← h.2]
      exact dropWhile_length_of_takeWhile_ne_nil _ _ (by rw [h2]; decide)
    · simp [h2] at h

theorem LoadNull_length (input : List Char) (v : Node) (rest : List Char)
    (h : LoadNull input = .ok v rest) : rest.length < input.length := by
  simp only [LoadNull, readAlpha_eq, List.nil_append] at h
  by_cases h1 : input.takeWhile isalpha = ['n', 'u', 'l', 'l']
  · simp only [h1, String.toList, ne_eq, not_true_eq_false, if_false,
      ParseResult.ok.injEq] at h
    rw [← h.2]
    exact dropWhile_length_of_takeWhile_ne_nil _ _ (by rw [h1]; decide)
  · simp [h1] at h

theorem read_char_length {s t : List Char × List Char} (h : read_char s = some t) :
    t.2.length < s.2.length := by
  obtain ⟨c, hc, -⟩ := read_char_some h
  rw [hc]; simp

theorem read_digits_length {s t : List Char × List Char} (h : read_digits s = some t) :
    t.2.length < s.2.length := by
  obtain ⟨ds, hne, -, -, hs⟩ := read_digits_some h
  rw [hs, List.length_append]
  have := List.length_pos.mpr hne
  omega

theorem scanNumber_length {input str : List Char} {is_int : Bool} {rest : List Char}
    (h : scanNumber input = some (str, is_int, rest)) : rest.length < input.length := by
  simp only [scanNumber, Option.map_eq_some', Option.bind_eq_some] at h
  obtain ⟨q, ⟨p, ⟨s2, ⟨s1, h1, h2⟩, h3⟩, h4⟩, hq⟩ := h
  simp only [Prod.mk.injEq] at hq
  obtain ⟨-, -, rfl⟩ := hq
  have l1 : s1.2.length ≤ input.length := by
    simp only [scanSign] at h1
    by_cases c : input.head? = some '-'
    · simp only [c, if_true] at h1
      exact le_of_lt (read_char_length h1)
    · simp only [c, if_false, Option.some.injEq] at h1
      rw [← h1]
  have l2 : s2.2.length < s1.2.length := by
    unfold scanInteger at h2
    by_cases c : s1.2.head? = some '0'
    · simp only [c, if_true] at h2
      exact read_char_length h2
    · simp only [c, if_false] at h2
      exact read_digits_length h2
  have l3 : p.1.2.length ≤ s2.2.length := by
    unfold scanFraction at h3
    by_cases c : s2.2.head? = some '.'
    · simp only [c, if_true, Option.map_eq_some', Option.bind_eq_some] at h3
      obtain ⟨t, ⟨u, hu, ht⟩, rfl⟩ := h3
      have := read_char_length hu
      have := read_digits_length ht
      simp only
      omega
    · simp only [c, if_false, Option.some.injEq] at h3
      rw [← h3]
  have l4 : q.1.2.length ≤ p.1.2.length := by
    unfold scanExponent at h4
    by_cases c : p.1.2.head? = some 'e' ∨ p.1.2.head? = some 'E'
    · simp only [c, if_true, Option.map_eq_some', Option.bind_eq_some] at h4
      obtain ⟨t, ⟨u, ⟨v, hv, hu⟩, ht⟩, rfl⟩ := h4
      have := read_char_length hv
      have := read_digits_length ht
      have : u.2.length ≤ v.2.length := by
        by_cases c2 : v.2.head? = some '+' ∨ v.2.head? = some '-'
        · simp only [c2, if_true] at hu
          exact le_of_lt (read_char_length hu)
        · simp only [c2, if_false, Option.some.injEq] at hu
          rw [← hu]
      simp only
      omega
    · simp only [c, if_false, Option.some.injEq] at h4
      rw [← h4]
  omega

theorem LoadNumber_length (input : List Char) (v : Node) (rest : List Char)
    (h : LoadNumber input = .ok v rest) : rest.length < input.length := by
  unfold LoadNumber at h
  cases hs : scanNumber input with
  | none => simp [hs] at h
  | some t =>
    obtain ⟨str, is_int, r⟩ := t
    simp only [hs] at h
    have hl := scanNumber_length hs
    have hr : rest = r := by
      unfold convertNumber at h
      cases h1 : (if is_int = true then stoi str else none) with
      | some n =>
        simp only [h1, ParseResult.ok.injEq] at h
        exact h.2.symm
      | none =>
        simp only [h1] at h
        cases h2 : stod str with
        | some d =>
          simp only [h2, ParseResult.ok.injEq] at h
          exact h.2.symm
        | none => simp [h2] at h
    rw [hr]; exact hl

theorem LoadNumber_ne_outOfFuel (input : List Char) : LoadNumber input ≠ .outOfFuel := by
  unfold LoadNumber
  cases hs : scanNumber input with
  | none => simp
  | some t =>
    obtain ⟨str, is_int, r⟩ := t
    simp only [convertNumber]
    cases h1 : (if is_int = true then stoi str else none) with
    | some n => simp
    | none =>
      cases h2 : stod str <;> simp

theorem LoadBool_ne_outOfFuel (input : List Char) : LoadBool input ≠ .outOfFuel := by
  simp only [LoadBool]
  split <;> [simp; (split <;> simp)]

theorem LoadNull_ne_outOfFuel (input : List Char) : LoadNull input ≠ .outOfFuel := by
  simp only [LoadNull]
  split <;> simp

theorem LoadString_length (input : List Char) (v : Node) (rest : List Char)
    (h : LoadString input = .ok v rest) : rest.length < input.length := by
  unfold LoadString at h
  cases hp : ParseString input with
  | ok s r =>
    simp only [hp, ParseResult.map, ParseResult.ok.injEq] at h
    rw [← h.2]
    exact ParseString_length _ _ _ hp
  | parsingError => simp [hp, ParseResult.map] at h
  | outOfFuel => simp [hp, ParseResult.map] at h

theorem LoadString_ne_outOfFuel (input : List Char) : LoadString input ≠ .outOfFuel := by
  unfold LoadString
  cases hp : ParseString input with
  | ok s r => simp [ParseResult.map]
  | parsingError => simp [ParseResult.map]
  | outOfFuel => exact absurd hp (ParseString_ne_outOfFuel input)

theorem LoadArrayLoop_length (L : List Char → ParseResult Node)
    (hL : ∀ x v r, L x = .ok v r → r.length < x.length) :
    ∀ (fuel : Nat) (result : List Node) (input : List Char) (v : Node) (rest : List Char),
      LoadArrayLoop L fuel result input = .ok v rest → rest.length < input.length
  | 0, _, _, _, _, h => by simp [LoadArrayLoop] at h
  | fuel + 1, result, input, v, rest, h => by
    simp only [LoadArrayLoop] at h
    cases hv : L (SkipSpace input) with
    | parsingError => simp [hv] at h
    | outOfFuel => simp [hv] at h
    | ok value r0 =>
      simp only [hv] at h
      have l0 := hL _ _ _ hv
      have l1 := SkipSpace_length_le input
      have l2 := SkipSpace_length_le r0
      cases hs : SkipSpace r0 with
      | nil => simp [hs] at h
      | cons c r1 =>
        simp only [hs] at h
        rw [hs, List.length_cons] at l2
        by_cases hc : c = ']'
        · simp only [hc, if_true, ParseResult.ok.injEq] at h
          rw [← h.2]; omega
        · simp only [hc, if_false] at h
          by_cases hc2 : c = ','
          · simp only [hc2, ne_eq, not_true_eq_false, if_false] at h
            have := LoadArrayLoop_length L hL fuel _ _ _ _ h
            omega
          · simp [hc2] at h

theorem LoadArray_length (L : List Char → ParseResult Node)
    (hL : ∀ x v r, L x = .ok v r → r.length < x.length)
    (input : List Char) (v : Node) (rest : List Char)
    (h : LoadArray L input = .ok v rest) : rest.length < input.length := by
  cases input with
  | nil => simp [LoadArray] at h
  | cons c r =>
    simp only [LoadArray] at h
    have l1 := SkipSpace_length_le r
    by_cases hc : c = '['
    · simp only [hc, ne_eq, not_true_eq_false, if_false] at h
      by_cases he : (SkipSpace r).head? = some ']'
      · simp only [he, if_true, ParseResult.ok.injEq] at h
        rw [← h.2, List.length_tail, List.length_cons]
        omega
      · simp only [he, if_false] at h
        have := LoadArrayLoop_length L hL _ _ _ _ _ h
        rw [List.length_cons]
        omega
    · simp [hc] at h

theorem LoadDictLoop_length (L : List Char → ParseResult Node)
    (hL : ∀ x v r, L x = .ok v r → r.length < x.length) :
    ∀ (fuel : Nat) (result : Dict) (input : List Char) (v : Node) (rest : List Char),
      LoadDictLoop L fuel result input = .ok v rest → rest.length < input.length
  | 0, _, _, _, _, h => by simp [LoadDictLoop] at h
  | fuel + 1, result, input, v, rest, h => by
    simp only [LoadDictLoop] at h
    cases hk : ParseString (SkipSpace input) with
    | parsingError => simp [hk] at h
    | outOfFuel => simp [hk] at h
    | ok key r0 =>
      simp only [hk] at h
      have l0 := ParseString_length _ _ _ hk
      have l1 := SkipSpace_length_le input
      have l2 := SkipSpace_length_le r0
      cases hs : SkipSpace r0 with
      | nil => simp [hs] at h
      | cons c r1 =>
        simp only [hs] at h
        rw [hs, List.length_cons] at l2
        by_cases hc : c = ':'
        · simp only [hc, ne_eq, not_true_eq_false, if_false] at h
          cases hv : L (SkipSpace r1) with
          | parsingError => simp [hv] at h
          | outOfFuel => simp [hv] at h
          | ok value r2 =>
            simp only [hv] at h
            have l3 := hL _ _ _ hv
            have l4 := SkipSpace_length_le r1
            have l5 := SkipSpace_length_le r2
            cases hs2 : SkipSpace r2 with
            | nil => simp [hs2] at h
            | cons d r3 =>
              simp only [hs2] at h
              rw [hs2, List.length_cons] at l5
              by_cases hd : d = '}'
              · simp only [hd, if_true, ParseResult.ok.injEq] at h
                rw [← h.2]; omega
              · simp only [hd, if_false] at h
                by_cases hd2 : d = ','
                · simp only [hd2, ne_eq, not_true_eq_false, if_false] at h
                  have := LoadDictLoop_length L hL fuel _ _ _ _ h
                  omega
                · simp [hd2] at h
        · simp [hc] at h

theorem LoadDict_length (L : List Char → ParseResult Node)
    (hL : ∀ x v r, L x = .ok v r → r.length < x.length)
    (input : List Char) (v : Node) (rest : List Char)
    (h : LoadDict L input = .ok v rest) : rest.length < input.length := by
  cases input with
  | nil => simp [LoadDict] at h
  | cons c r =>
    simp only [LoadDict] at h
    have l1 := SkipSpace_length_le r
    by_cases hc : c = '{'
    · simp only [hc, ne_eq, not_true_eq_false, if_false] at h
      by_cases he : (SkipSpace r).head? = some '}'
      · simp only [he, if_true, ParseResult.ok.injEq] at h
        rw [← h.2, List.length_tail, List.length_cons]
        omega
      · simp only [he, if_false] at h
        have := LoadDictLoop_length L hL _ _ _ _ _ h
        rw [List.length_cons]
        omega
    · simp [hc] at h

/-- A value that `LoadNode` returns has taken at least one character. -/
theorem LoadNode_length : ∀ (fuel : Nat) (input : List Char) (v : Node) (rest : List Char),
    LoadNode fuel input = .ok v rest → rest.length < input.length
  | 0, _, _, _, h => by simp [LoadNode] at h
  | fuel + 1, input, v, rest, h => by
    simp only [LoadNode] at h
    have l1 := SkipSpace_length_le input
    cases hs : SkipSpace input with
    | nil => simp [hs] at h
    | cons c r =>
      simp only [hs] at h
      rw [hs] at l1
      have ih := LoadNode_length fuel
      split_ifs at h
      · exact lt_of_lt_of_le (LoadArray_length _ ih _ _ _ h) l1
      · exact lt_of_lt_of_le (LoadDict_length _ ih _ _ _ h) l1
      · exact lt_of_lt_of_le (LoadString_length _ _ _ h) l1
      · exact lt_of_lt_of_le (LoadNull_length _ _ _ h) l1
      · exact lt_of_lt_of_le (LoadBool_length _ _ _ h) l1
      · exact lt_of_lt_of_le (LoadBool_length _ _ _ h) l1
      · exact lt_of_lt_of_le (LoadNumber_length _ _ _ h) l1

/-! The fuel is never used up when it exceeds the length of the input. -/

theorem LoadArrayLoop_ne_outOfFuel (L : List Char → ParseResult Node)
    (hL : ∀ x v r, L x = .ok v r → r.length < x.length) :
    ∀ (fuel : Nat) (result : List Node) (input : List Char), input.length < fuel →
      (∀ x : List Char, x.length ≤ input.length → L x ≠ .outOfFuel) →
      LoadArrayLoop L fuel result input ≠ .outOfFuel
  | 0, _, _, h, _ => by omega
  | fuel + 1, result, input, hf, hT => by
    simp only [LoadArrayLoop]
    have l1 := SkipSpace_length_le input
    cases hv : L (SkipSpace input) with
    | parsingError => simp
    | outOfFuel => exact absurd hv (hT _ l1)
    | ok value r0 =>
      simp only
      have l0 := hL _ _ _ hv
      have l2 := SkipSpace_length_le r0
      cases hs : SkipSpace r0 with
      | nil => simp
      | cons c r1 =>
        simp only
        rw [hs, List.length_cons] at l2
        by_cases hc : c = ']'
        · simp [hc]
        · simp only [hc, if_false]
          by_cases hc2 : c = ','
          · simp only [hc2, ne_eq, not_true_eq_false, if_false]
            exact LoadArrayLoop_ne_outOfFuel L hL fuel _ r1 (by omega)
              (fun x hx => hT x (by omega))
          · simp [hc2]

theorem LoadDictLoop_ne_outOfFuel (L : List Char → ParseResult Node)
    (hL : ∀ x v r, L x = .ok v r → r.length < x.length) :
    ∀ (fuel : Nat) (result : Dict) (input : List Char), input.length < fuel →
      (∀ x : List Char, x.length ≤ input.length → L x ≠ .outOfFuel) →
      LoadDictLoop L fuel result input ≠ .outOfFuel
  | 0, _, _, h, _ => by omega
  | fuel + 1, result, input, hf, hT => by
    simp only [LoadDictLoop]
    have l1 := SkipSpace_length_le input
    cases hk : ParseString (SkipSpace input) with
    | parsingError => simp
    | outOfFuel => exact absurd hk (ParseString_ne_outOfFuel _)
    | ok key r0 =>
      simp only
      have l0 := ParseString_length _ _ _ hk
      have l2 := SkipSpace_length_le r0
      cases hs : SkipSpace r0 with
      | nil => simp
      | cons c r1 =>
        simp only
        rw [hs, List.length_cons] at l2
        by_cases hc : c = ':'
        · simp only [hc, ne_eq, not_true_eq_false, if_false]
          have l4 := SkipSpace_length_le r1
          cases hv : L (SkipSpace r1) with
          | parsingError => simp
          | outOfFuel => exact absurd hv (hT _ (by omega))
          | ok value r2 =>
            simp only
            have l3 := hL _ _ _ hv
            have l5 := SkipSpace_length_le r2
            cases hs2 : SkipSpace r2 with
            | nil => simp
            | cons d r3 =>
              simp only
              rw [hs2, List.length_cons] at l5
              by_cases hd : d = '}'
              · simp [hd]
              · simp only [hd, if_false]
                by_cases hd2 : d = ','
                · simp only [hd2, ne_eq, not_true_eq_false, if_false]
                  exact LoadDictLoop_ne_outOfFuel L hL fuel _ r3 (by omega)
                    (fun x hx => hT x (by omega))
                · simp [hd2]
        · simp [hc]

/-- With more fuel than the input has characters `LoadNode` does not run out
of fuel. -/
theorem LoadNode_ne_outOfFuel : ∀ (fuel : Nat) (input : List Char), input.length < fuel →
    LoadNode fuel input ≠ .outOfFuel
  | 0, _, h => by omega
  | fuel + 1, input, hf => by
    simp only [LoadNode]
    have l1 := SkipSpace_length_le input
    cases hs : SkipSpace input with
    | nil => simp
    | cons c r =>
      simp only
      rw [hs, List.length_cons] at l1
      have l2 := SkipSpace_length_le r
      have ih : ∀ x : List Char, x.length ≤ (SkipSpace r).length → LoadNode fuel x ≠ .outOfFuel :=
        fun x hx => LoadNode_ne_outOfFuel fuel x (by omega)
      split_ifs
      · simp only [LoadArray, ne_eq, not_true_eq_false, if_false]
        split_ifs
        · simp
        · exact LoadArrayLoop_ne_outOfFuel _ (LoadNode_length fuel) _ _ _ (by omega) ih
      · simp only [LoadDict, ne_eq, not_true_eq_false, if_false]
        split_ifs
        · simp
        · exact LoadDictLoop_ne_outOfFuel _ (LoadNode_length fuel) _ _ _ (by omega) ih
      · exact LoadString_ne_outOfFuel _
      · exact LoadNull_ne_outOfFuel _
      · exact LoadBool_ne_outOfFuel _
      · exact LoadBool_ne_outOfFuel _
      · exact LoadNumber_ne_outOfFuel _

/-! More fuel does not change a result. -/

theorem LoadArrayLoop_mono (L L' : List Char → ParseResult Node)
    (hLL : ∀ x r, L x = r → r ≠ .outOfFuel → L' x = r) :
    ∀ (fuel : Nat) (result : List Node) (input : List Char) (r : ParseResult Node),
      LoadArrayLoop L fuel result input = r → r ≠ .outOfFuel →
      LoadArrayLoop L' fuel result input = r
  | 0, _, _, r, h, hr => by
    simp only [LoadArrayLoop] at h
    exact absurd h.symm hr
  | fuel + 1, result, input, r, h, hr => by
    simp only [LoadArrayLoop] at h ⊢
    cases hv : L (SkipSpace input) with
    | parsingError =>
      rw [hLL _ _ hv (by simp)]
      simpa [hv] using h
    | outOfFuel =>
      simp only [hv] at h
      exact absurd h.symm hr
    | ok value r0 =>
      rw [hLL _ _ hv (by simp)]
      simp only [hv] at h
      simp only
      cases hs : SkipSpace r0 with
      | nil => simpa [hs] using h
      | cons c r1 =>
        simp only [hs] at h
        simp only
        by_cases hc : c = ']'
        · simpa [hc] using h
        · simp only [hc, if_false] at h ⊢
          by_cases hc2 : c = ','
          · simp only [hc2, ne_eq, not_true_eq_false, if_false] at h ⊢
            exact LoadArrayLoop_mono L L' hLL fuel _ _ r h hr
          · simpa [hc2] using h

theorem LoadDictLoop_mono (L L' : List Char → ParseResult Node)
    (hLL : ∀ x r, L x = r → r ≠ .outOfFuel → L' x = r) :
    ∀ (fuel : Nat) (result : Dict) (input : List Char) (r : ParseResult Node),
      LoadDictLoop L fuel result input = r → r ≠ .outOfFuel →
      LoadDictLoop L' fuel result input = r
  | 0, _, _, r, h, hr => by
    simp only [LoadDictLoop] at h
    exact absurd h.symm hr
  | fuel + 1, result, input, r, h, hr => by
    simp only [LoadDictLoop] at h ⊢
    cases hk : ParseString (SkipSpace input) with
    | parsingError => simpa [hk] using h
    | outOfFuel => simpa [hk] using h
    | ok key r0 =>
      simp only [hk] at h
      simp only
      cases hs : SkipSpace r0 with
      | nil => simpa [hs] using h
      | cons c r1 =>
        simp only [hs] at h
        simp only
        by_cases hc : c = ':'
        · simp only [hc, ne_eq, not_true_eq_false, if_false] at h ⊢
          cases hv : L (SkipSpace r1) with
          | parsingError =>
            rw [hLL _ _ hv (by simp)]
            simpa [hv] using h
          | outOfFuel =>
            simp only [hv] at h
            exact absurd h.symm hr
          | ok value r2 =>
            rw [hLL _ _ hv (by simp)]
            simp only [hv] at h
            simp only
            cases hs2 : SkipSpace r2 with
            | nil => simpa [hs2] using h
            | cons d r3 =>
              simp only [hs2] at h
              simp only
              by_cases hd : d = '}'
              · simpa [hd] using h
              · simp only [hd, if_false] at h ⊢
                by_cases hd2 : d = ','
                · simp only [hd2, ne_eq, not_true_eq_false, if_false] at h ⊢
                  exact LoadDictLoop_mono L L' hLL fuel _ _ r h hr
                · simpa [hd2] using h
        · simpa [hc] using h

theorem LoadNode_mono_succ : ∀ (fuel : Nat) (input : List Char) (r : ParseResult Node),
    LoadNode fuel input = r → r ≠ .outOfFuel → LoadNode (fuel + 1) input = r
  | 0, _, r, h, hr => by
    simp only [LoadNode] at h
    exact absurd h.symm hr
  | fuel + 1, input, r, h, hr => by
    rw [LoadNode] at h ⊢
    have ih := LoadNode_mono_succ fuel
    cases hs : SkipSpace input with
    | nil => simpa [hs] using h
    | cons c rest =>
      simp only [hs] at h
      simp only
      split_ifs at h ⊢
      · rename_i hc
        subst hc
        simp only [LoadArray, ne_eq, not_true_eq_false, if_false] at h ⊢
        split_ifs at h ⊢
        · exact h
        · exact LoadArrayLoop_mono _ _ ih _ _ _ r h hr
      · rename_i hc
        subst hc
        simp only [LoadDict, ne_eq, not_true_eq_false, if_false] at h ⊢
        split_ifs at h ⊢
        · exact h
        · exact LoadDictLoop_mono _ _ ih _ _ _ r h hr
      · exact h
      · exact h
      · exact h
      · exact h
      · exact h

theorem LoadNode_mono (fuel extra : Nat) (input : List Char) (r : ParseResult Node)
    (h : LoadNode fuel input = r) (hr : r ≠ .outOfFuel) : LoadNode (fuel + extra) input = r := by
  induction extra with
  | zero => exact h
  | succ n ih => exact LoadNode_mono_succ _ _ _ ih hr

/-- Above the length of the input the amount of fuel does not matter. -/
theorem LoadNode_fuel (fuel fuel' : Nat) (input : List Char) (h : input.length < fuel)
    (h' : input.length < fuel') : LoadNode fuel input = LoadNode fuel' input := by
  rcases Nat.le_total fuel fuel' with hle | hle
  · obtain ⟨k, rfl⟩ := Nat.exists_eq_add_of_le hle
    exact (LoadNode_mono fuel k input _ rfl (LoadNode_ne_outOfFuel fuel input h)).symm
  · obtain ⟨k, rfl⟩ := Nat.exists_eq_add_of_le hle
    exact LoadNode_mono fuel' k input _ rfl (LoadNode_ne_outOfFuel fuel' input h')

/-- What some amount of fuel returns is returned with every amount above the
length of the input. -/
theorem LoadNode_of_some_fuel (f fuel : Nat) (input : List Char) (v : Node) (rest : List Char)
    (h : LoadNode f input = .ok v rest) (hf : input.length < fuel) :
    LoadNode fuel input = .ok v rest := by
  rcases Nat.le_total f fuel with hle | hle
  · obtain ⟨k, rfl⟩ := Nat.exists_eq_add_of_le hle
    exact LoadNode_mono f k input _ h (by simp)
  · obtain ⟨k, rfl⟩ := Nat.exists_eq_add_of_le hle
    rw [← h]
    exact (LoadNode_mono fuel k input _ rfl (LoadNode_ne_outOfFuel fuel input hf)).symm

/-- Claim C20: the loader terminates on every finite input.  `Load` returns a
value, having read at least one character, or `ParsingError`, and never runs
out of fuel: the length of the input bounds the depth of the recursion and the
turns of the loops, because every value that `LoadNode` returns has taken at
least one character; any amount of fuel above the length gives the same
result. -/
theorem Load_terminates (input : List Char) :
    ((∃ (doc : Document) (rest : List Char),
        Load input = .ok doc rest ∧ rest.length < input.length) ∨
      Load input = .parsingError) ∧
    (∀ fuel : Nat, input.length < fuel →
      LoadNode fuel input = LoadNode (input.length + 1) input) ∧
    (∀ (fuel : Nat) (x : List Char) (v : Node) (rest : List Char),
      LoadNode fuel x = .ok v rest → rest.length < x.length) := by
  refine ⟨?_, fun fuel hf => LoadNode_fuel _ _ _ hf (by omega), LoadNode_length⟩
  unfold Load
  cases h : LoadNode (input.length + 1) input with
  | ok v rest =>
    left
    exact ⟨⟨v⟩, rest, rfl, LoadNode_length _ _ _ _ h⟩
  | parsingError => right; rfl
  | outOfFuel => exact absurd h (LoadNode_ne_outOfFuel _ _ (by omega))

/-- Claim C18: when the first character after white space is none of `[`,
`\x7b`, `"`, `n`, `t`, `f`, `-` and no decimal digit, `Load` fails with
`ParsingError`. -/
theorem Load_unknown_lookahead (input : List Char) (c : Char) (rest : List Char)
    (hs : SkipSpace input = c :: rest)
    (hc : c ≠ '[' ∧ c ≠ '{' ∧ c ≠ '"' ∧ c ≠ 'n' ∧ c ≠ 't' ∧ c ≠ 'f' ∧ c ≠ '-' ∧
      isdigit c = false) :
    Load input = .parsingError := by
  obtain ⟨h1, h2, h3, h4, h5, h6, h7, h8⟩ := hc
  have hscan : scanNumber (c :: rest) = none := by
    have hh : (c :: rest).head? ≠ some '-' := by simpa using h7
    simp only [scanNumber, scanSign_skip _ _ hh, Option.some_bind,
      scanInteger_none _ _ (NoDigitAhead_cons rest h8), Option.none_bind, Option.map_none']
  simp [Load, LoadNode, hs, h1, h2, h3, h4, h5, h6, LoadNumber, hscan, ParseResult.map]

/-- Claim C18, witness: the input ` +1`. -/
theorem Load_unknown_lookahead_witness :
    SkipSpace " +1".toList = '+' :: ['1'] ∧ Load " +1".toList = .parsingError :=
  ⟨rfl, Load_unknown_lookahead " +1".toList '+' ['1'] rfl (by decide)⟩

/-- Claim C16: on the input `0` followed by a non-empty run `d` of decimal
digits, `Load` returns `Int 0` and leaves exactly `d` unread. -/
theorem Load_leading_zero (d : List Char) (hne : d ≠ []) (hd : ∀ c ∈ d, isdigit c = true) :
    Load ('0' :: d) = .ok ⟨.int 0⟩ d := by
  cases d with
  | nil => exact absurd rfl hne
  | cons x xs =>
    have hx := digit_not_mark (hd x (by simp))
    have h1 := scan_sign_integer [] ['0'] (x :: xs) (Or.inl rfl) (Or.inl rfl)
      (fun h => absurd rfl h)
    simp only [List.nil_append, List.singleton_append] at h1
    have hscan : scanNumber ('0' :: x :: xs) = some (['0'], true, x :: xs) := by
      simp only [scanNumber, h1, Option.some_bind]
      rw [scanFraction_skip _ (by simpa using hx.1), Option.some_bind,
        scanExponent_skip _ ⟨by simpa using hx.2.1, by simpa using hx.2.2.1⟩]
      rfl
    have hstoi : stoi ['0'] = some 0 := by decide
    have hload : LoadNumber ('0' :: x :: xs) = .ok (.int 0) (x :: xs) := by
      simp only [LoadNumber, hscan]
      exact convertNumber_int _ _ _ hstoi
    simp only [Load]
    rw [LoadNode_number _ '0' (x :: xs) (Or.inr (by decide)), hload]
    rfl

/-- Claim C16, witness: the input `01`. -/
theorem Load_leading_zero_witness : Load "01".toList = .ok ⟨.int 0⟩ "1".toList :=
  Load_leading_zero ['1'] (by decide) (by decide)

/-- Claim C11: when the first character after white space is `t` or `f`,
`Load` takes the longest run of alphabetic characters that starts there; it
returns `Bool true` if the run is `true`, `Bool false` if the run is `false`,
leaving what follows the run unread, and fails with `ParsingError` on every
other run.  When the first character is `n`, it returns `Null` if the run is
`null` and fails on every other run. -/
theorem Load_literal (input : List Char) (c : Char) (rest : List Char)
    (hs : SkipSpace input = c :: rest) (hc : c = 't' ∨ c = 'f' ∨ c = 'n') :
    Load input =
      if c = 'n' then
        (if (c :: rest).takeWhile isalpha = ['n', 'u', 'l', 'l'] then
          .ok ⟨.null⟩ ((c :: rest).dropWhile isalpha)
        else .parsingError)
      else
        (if (c :: rest).takeWhile isalpha = ['t', 'r', 'u', 'e'] then
          .ok ⟨.bool true⟩ ((c :: rest).dropWhile isalpha)
        else if (c :: rest).takeWhile isalpha = ['f', 'a', 'l', 's', 'e'] then
          .ok ⟨.bool false⟩ ((c :: rest).dropWhile isalpha)
        else .parsingError) := by
  have e1 : "true".toList = ['t', 'r', 'u', 'e'] := rfl
  have e2 : "false".toList = ['f', 'a', 'l', 's', 'e'] := rfl
  have e3 : "null".toList = ['n', 'u', 'l', 'l'] := rfl
  rcases hc with rfl | rfl | rfl
  · have h1 : ¬ ('t' = '[') := by decide
    have h2 : ¬ ('t' = '{') := by decide
    have h3 : ¬ ('t' = '"') := by decide
    have h4 : ¬ ('t' = 'n') := by decide
    simp only [Load, LoadNode, hs, h1, h2, h3, h4, if_false, if_true, LoadBool, readAlpha_eq,
      List.nil_append, e1, e2]
    split_ifs <;> rfl
  · have h1 : ¬ ('f' = '[') := by decide
    have h2 : ¬ ('f' = '{') := by decide
    have h3 : ¬ ('f' = '"') := by decide
    have h4 : ¬ ('f' = 'n') := by decide
    have h5 : ¬ ('f' = 't') := by decide
    simp only [Load, LoadNode, hs, h1, h2, h3, h4, h5, if_false, if_true, LoadBool,
      readAlpha_eq, List.nil_append, e1, e2]
    split_ifs <;> rfl
  · have h1 : ¬ ('n' = '[') := by decide
    have h2 : ¬ ('n' = '{') := by decide
    have h3 : ¬ ('n' = '"') := by decide
    simp only [Load, LoadNode, hs, h1, h2, h3, if_false, if_true, LoadNull, readAlpha_eq,
      List.nil_append, e3, ne_eq]
    split_ifs <;> rfl

/-- Claim C11, witness: the input `truex` fails, its run being `truex`. -/
theorem Load_literal_witness :
    SkipSpace "truex".toList = 't' :: "ruex".toList ∧ Load "truex".toList = .parsingError :=
  ⟨rfl, (Load_literal "truex".toList 't' "ruex".toList rfl (Or.inl rfl)).trans rfl⟩

theorem ParseStringLoop_pieces : ∀ (pieces : List Piece) (str : List Char) (c : Option Char)
    (rest : List Char), (∀ p ∈ pieces, p.Proper) →
    ParseStringLoop str c false (literalText pieces ++ '"' :: rest)
      = .ok (str ++ literalValue pieces) rest
  | [], str, c, rest, _ => by
    simp [literalText, literalValue, ParseStringLoop]
  | .plain ch :: ps, str, c, rest, h => by
    have hp : ch ≠ '\\' ∧ ch ≠ '"' := h (.plain ch) (by simp)
    have ih := ParseStringLoop_pieces ps (str ++ [ch]) (some ch) rest
      (fun p hp' => h p (by simp [hp']))
    show ParseStringLoop str c false (ch :: (literalText ps ++ '"' :: rest)) = _
    simp only [literalText, Piece.text, List.singleton_append, List.cons_append,
      ParseStringLoop, hp.1, hp.2, Bool.not_false, decide_False, Bool.and_false,
      Bool.false_eq_true, if_false, literalValue, Piece.decoded, List.nil_append]
    rw [ih]
    simp
  | .escaped x :: ps, str, c, rest, h => by
    have e1 : ¬ ('\\' = '"') := by decide
    have step : ∀ str' : List Char,
        ParseStringLoop str' (some x) false (literalText ps ++ '"' :: rest)
          = .ok (str' ++ literalValue ps) rest :=
      fun str' => ParseStringLoop_pieces ps str' (some x) rest (fun p hp' => h p (by simp [hp']))
    simp only [literalText, Piece.text, List.cons_append, List.nil_append, ParseStringLoop, e1,
      Bool.not_false, decide_False, Bool.and_false, Bool.false_eq_true, if_false, if_true,
      Bool.not_true, Bool.false_and, literalValue, Piece.decoded]
    by_cases h1 : x = 'n'
    · subst h1; simp [step]
    · by_cases h2 : x = 'r'
      · subst h2; simp [step]
      · by_cases h3 : x = '"'
        · subst h3; simp [step]
        · by_cases h4 : x = 't'
          · subst h4; simp [step]
          · by_cases h5 : x = '\\'
            · subst h5; simp [step]
            · simp [h1, h2, h3, h4, h5, step]

/-- Claim C12: in a string literal a backslash followed by `n`, `r`, `t`, a
double quote or a backslash is decoded to a newline, a carriage return, a tab,
a double quote or a backslash; a backslash followed by any other character
adds nothing; every other character that is neither backslash nor double quote
is copied. -/
theorem ParseString_decodes (pieces : List Piece) (rest : List Char)
    (h : ∀ p ∈ pieces, p.Proper) :
    ParseString ('"' :: (literalText pieces ++ '"' :: rest)) = .ok (literalValue pieces) rest := by
  simp only [ParseString, ne_eq, not_true_eq_false, if_false]
  rw [ParseStringLoop_pieces pieces [] none rest h]
  simp

/-- Claim C12, witness: the literal `"a\q\n"` stands for `a` and a newline. -/
theorem ParseString_decodes_witness :
    ParseString ['"', 'a', '\\', 'q', '\\', 'n', '"'] = .ok ['a', '\n'] [] :=
  ParseString_decodes [.plain 'a', .escaped 'q', .escaped 'n'] [] (by
    intro p hp
    simp only [List.mem_cons, List.mem_singleton, List.not_mem_nil, or_false] at hp
    rcases hp with rfl | rfl | rfl
    · exact ⟨by decide, by decide⟩
    · trivial
    · trivial)

theorem ParseStringLoop_escape : ∀ (s str : List Char) (c : Option Char) (rest : List Char),
    ParseStringLoop str c false (PrintValue.escape s ++ '"' :: rest) = .ok (str ++ s) rest
  | [], str, c, rest => by simp [PrintValue.escape, ParseStringLoop]
  | ch :: s, str, c, rest => by
    have ih := fun str' c' => ParseStringLoop_escape s str' c' rest
    have e1 : ¬ ('\\' = '"') := by decide
    simp only [PrintValue.escape]
    by_cases h1 : ch = '\n'
    · subst h1
      simp [ParseStringLoop, ih]
    · by_cases h2 : ch = '\r'
      · subst h2
        simp [ParseStringLoop, ih]
      · by_cases h3 : ch = '"'
        · subst h3
          simp [ParseStringLoop, ih]
        · by_cases h4 : ch = '\t'
          · subst h4
            simp [ParseStringLoop, ih]
          · by_cases h5 : ch = '\\'
            · subst h5
              simp [ParseStringLoop, ih]
            · simp [ParseStringLoop, ih, h1, h2, h3, h4, h5]

/-- What `ParseString` reads from the text of the String printer. -/
theorem ParseString_PrintValue_string (s rest : List Char) :
    ParseString (PrintValue.string s ++ rest) = .ok s rest := by
  have e : PrintValue.string s ++ rest = '"' :: (PrintValue.escape s ++ '"' :: rest) := by
    simp [PrintValue.string]
  rw [e]
  simp only [ParseString, ne_eq, not_true_eq_false, if_false]
  rw [ParseStringLoop_escape s [] none rest]
  simp

/-- Claim C17: for every string `s`, parsing the text that the String printer
writes for `s` succeeds, reads the whole text and returns `s`. -/
theorem ParseString_round_trip (s : List Char) :
    ParseString (PrintValue.string s) = .ok s [] ∧
    Load (PrintValue.string s) = .ok ⟨.string s⟩ [] := by
  have h := ParseString_PrintValue_string s []
  rw [List.append_nil] at h
  refine ⟨h, ?_⟩
  have hh : PrintValue.string s = '"' :: (PrintValue.escape s ++ ['"']) := by
    simp [PrintValue.string]
  have hsp : isspace '"' = false := by decide
  have h1 : ¬ ('"' = '[') := by decide
  have h2 : ¬ ('"' = '{') := by decide
  rw [hh] at h ⊢
  simp only [Load, LoadNode, SkipSpace_of_head _ _ hsp, h1, h2, if_false, if_true, LoadString, h,
    ParseResult.map]

theorem SkipSpace_idem : ∀ input : List Char, SkipSpace (SkipSpace input) = SkipSpace input
  | [] => rfl
  | c :: rest => by
    by_cases h : isspace c = true
    · simp only [SkipSpace, h, if_true]
      exact SkipSpace_idem rest
    · simp [SkipSpace, h]

theorem Parses_length {input : List Char} {value : Node} {rest : List Char}
    (h : Parses input value rest) : rest.length < input.length := by
  obtain ⟨f, hf⟩ := h
  exact LoadNode_length f _ _ _ hf

theorem LoadNode_of_Parses {input : List Char} {value : Node} {rest : List Char}
    (h : Parses input value rest) (fuel : Nat) (hf : input.length < fuel) :
    LoadNode fuel input = .ok value rest := by
  obtain ⟨f, hf'⟩ := h
  exact LoadNode_of_some_fuel f fuel input value rest hf' hf

/-- The default branch of the dispatch fails on a character that begins no
value. -/
theorem LoadNode_unknown_lookahead (fuel : Nat) (input : List Char) (c : Char)
    (rest : List Char) (hs : SkipSpace input = c :: rest)
    (hc : c ≠ '[' ∧ c ≠ '{' ∧ c ≠ '"' ∧ c ≠ 'n' ∧ c ≠ 't' ∧ c ≠ 'f' ∧ c ≠ '-' ∧
      isdigit c = false) :
    LoadNode (fuel + 1) input = .parsingError := by
  obtain ⟨h1, h2, h3, h4, h5, h6, h7, h8⟩ := hc
  have hscan : scanNumber (c :: rest) = none := by
    have hh : (c :: rest).head? ≠ some '-' := by simpa using h7
    simp only [scanNumber, scanSign_skip _ _ hh, Option.some_bind,
      scanInteger_none _ _ (NoDigitAhead_cons rest h8), Option.none_bind, Option.map_none']
  simp [LoadNode, hs, h1, h2, h3, h4, h5, h6, LoadNumber, hscan]

theorem LoadNode_close_bracket (fuel : Nat) (input : List Char)
    (h : (SkipSpace input).head? = some ']') : LoadNode (fuel + 1) input = .parsingError := by
  cases hs : SkipSpace input with
  | nil => simp [hs] at h
  | cons c rest =>
    rw [hs] at h
    simp only [List.head?_cons, Option.some.injEq] at h
    subst h
    exact LoadNode_unknown_lookahead fuel input ']' rest hs (by decide)

theorem LoadArrayLoop_delimiter_error (L : List Char → ParseResult Node)
    (input : List Char) (h : ArrayDelimiterError input) :
    ∀ (n fuel : Nat) (result : List Node),
      (∀ x v r, x.length ≤ n → Parses x v r → L x = .ok v r) →
      (∀ x, (SkipSpace x).head? = some ']' → L x = .parsingError) →
      input.length ≤ n → input.length < fuel →
      LoadArrayLoop L fuel result input = .parsingError := by
  induction h with
  | badDelimiter input value rest hp hd =>
    intro n fuel result hLP _ hn hf
    obtain ⟨k, rfl⟩ : ∃ k, fuel = k + 1 := ⟨fuel - 1, by omega⟩
    have l1 := SkipSpace_length_le input
    simp only [LoadArrayLoop, hLP _ _ _ (by omega) hp]
    cases hs : SkipSpace rest with
    | nil => rfl
    | cons c r1 =>
      have := hd c (by simp [hs])
      simp [this.1, this.2]
  | trailingComma input value rest next hp hs hb =>
    intro n fuel result hLP hLB hn hf
    obtain ⟨k, rfl⟩ : ∃ k, fuel = k + 1 := ⟨fuel - 1, by omega⟩
    have l1 := SkipSpace_length_le input
    have l2 := Parses_length hp
    have l3 := SkipSpace_length_le rest
    rw [hs, List.length_cons] at l3
    have e1 : ¬ (',' = ']') := by decide
    simp only [LoadArrayLoop, hLP _ _ _ (by omega) hp, hs, e1, if_false, ne_eq,
      not_true_eq_false]
    obtain ⟨j, rfl⟩ : ∃ j, k = j + 1 := ⟨k - 1, by omega⟩
    have hb' : (SkipSpace (SkipSpace next)).head? = some ']' := by rw [SkipSpace_idem]; exact hb
    simp only [LoadArrayLoop, hLB _ hb']
  | later input value rest next hp hs _ ih =>
    intro n fuel result hLP hLB hn hf
    obtain ⟨k, rfl⟩ : ∃ k, fuel = k + 1 := ⟨fuel - 1, by omega⟩
    have l1 := SkipSpace_length_le input
    have l2 := Parses_length hp
    have l3 := SkipSpace_length_le rest
    rw [hs, List.length_cons] at l3
    have e1 : ¬ (',' = ']') := by decide
    simp only [LoadArrayLoop, hLP _ _ _ (by omega) hp, hs, e1, if_false, ne_eq,
      not_true_eq_false]
    exact ih n k _ hLP hLB (by omega) (by omega)

theorem ArrayDelimiterError_SkipSpace (input : List Char) (h : ArrayDelimiterError input) :
    ArrayDelimiterError (SkipSpace input) := by
  cases h with
  | badDelimiter _ value rest hp hd =>
    exact .badDelimiter _ value rest (by rw [SkipSpace_idem]; exact hp) hd
  | trailingComma _ value rest next hp hs hb =>
    exact .trailingComma _ value rest next (by rw [SkipSpace_idem]; exact hp) hs hb
  | later _ value rest next hp hs hn =>
    exact .later _ value rest next (by rw [SkipSpace_idem]; exact hp) hs hn

theorem ArrayDelimiterError_head (input : List Char) (h : ArrayDelimiterError input) :
    (SkipSpace input).head? ≠ some ']' := by
  intro hb
  have hp : ∃ value rest, Parses (SkipSpace input) value rest := by
    cases h with
    | badDelimiter _ value rest hp _ => exact ⟨value, rest, hp⟩
    | trailingComma _ value rest _ hp _ _ => exact ⟨value, rest, hp⟩
    | later _ value rest _ hp _ _ => exact ⟨value, rest, hp⟩
  obtain ⟨value, rest, f, hf⟩ := hp
  cases f with
  | zero => simp [LoadNode] at hf
  | succ f =>
    rw [LoadNode_close_bracket f _ (by rw [SkipSpace_idem]; exact hb)] at hf
    simp at hf

/-- Claim C14: an input that begins an array fails with `ParsingError` when,
behind some element that is read and optional white space, the next character
is neither `,` nor `]` or the input has ended, and also when a `,` is followed,
after optional white space, by `]`. -/
theorem Load_array_delimiter_error (input body : List Char)
    (hs : SkipSpace input = '[' :: body) (h : ArrayDelimiterError body) :
    Load input = .parsingError := by
  have hh := ArrayDelimiterError_head body h
  have l1 := SkipSpace_length_le input
  rw [hs, List.length_cons] at l1
  have l2 := SkipSpace_length_le body
  obtain ⟨k, hk⟩ : ∃ k, input.length = k + 1 := ⟨input.length - 1, by omega⟩
  have hloop := LoadArrayLoop_delimiter_error (LoadNode input.length) (SkipSpace body)
    (ArrayDelimiterError_SkipSpace body h) (SkipSpace body).length
    ((SkipSpace body).length + 1) []
    (fun x v r hx hp => LoadNode_of_Parses hp _ (by omega))
    (fun x hx => by rw [hk]; exact LoadNode_close_bracket k x hx)
    (le_refl _) (by omega)
  simp only [Load, LoadNode, hs, if_true, LoadArray, ne_eq, not_true_eq_false, if_false, hh,
    hloop, ParseResult.map]

/-- Claim C14, witness: the input `[1, 2`, which ends behind the second
element. -/
theorem Load_array_delimiter_error_witness :
    SkipSpace "[1, 2".toList = '[' :: "1, 2".toList ∧ Load "[1, 2".toList = .parsingError :=
  ⟨rfl, Load_array_delimiter_error "[1, 2".toList "1, 2".toList rfl
    (.later "1, 2".toList (.int 1) ", 2".toList " 2".toList ⟨2, rfl⟩ rfl
      (.badDelimiter " 2".toList (.int 2) [] ⟨2, rfl⟩ (by intro c hc; simp [SkipSpace] at hc)))⟩

theorem LoadDictLoop_key_error (L : List Char → ParseResult Node)
    (input : List Char) (h : ObjectKeyError input) :
    ∀ (n fuel : Nat) (result : Dict),
      (∀ x v r, x.length ≤ n → Parses x v r → L x = .ok v r) →
      input.length ≤ n → input.length < fuel →
      LoadDictLoop L fuel result input = .parsingError := by
  induction h with
  | noQuote input hq =>
    intro n fuel result _ _ hf
    obtain ⟨k, rfl⟩ : ∃ k, fuel = k + 1 := ⟨fuel - 1, by omega⟩
    have hp : ParseString (SkipSpace input) = .parsingError := by
      cases hs : SkipSpace input with
      | nil => rfl
      | cons c r =>
        rw [hs] at hq
        have : c ≠ '"' := by simpa using hq
        simp [ParseString, this]
    simp only [LoadDictLoop, hp]
  | noColon input key rest hk hc =>
    intro n fuel result _ _ hf
    obtain ⟨k, rfl⟩ : ∃ k, fuel = k + 1 := ⟨fuel - 1, by omega⟩
    simp only [LoadDictLoop, hk]
    cases hs : SkipSpace rest with
    | nil => rfl
    | cons c r =>
      rw [hs] at hc
      have : c ≠ ':' := by simpa using hc
      simp [this]
  | later input key rest rest1 value rest2 next hk hs hp hs2 _ ih =>
    intro n fuel result hLP hn hf
    obtain ⟨k, rfl⟩ : ∃ k, fuel = k + 1 := ⟨fuel - 1, by omega⟩
    have l1 := SkipSpace_length_le input
    have l2 := ParseString_length _ _ _ hk
    have l3 := SkipSpace_length_le rest
    rw [hs, List.length_cons] at l3
    have l4 := SkipSpace_length_le rest1
    have l5 := Parses_length hp
    have l6 := SkipSpace_length_le rest2
    rw [hs2, List.length_cons] at l6
    have e1 : ¬ (',' = '}') := by decide
    simp only [LoadDictLoop, hk, hs, ne_eq, not_true_eq_false, if_false,
      hLP _ _ _ (by omega) hp, hs2, e1]
    exact ih n k _ hLP (by omega) (by omega)

theorem ObjectKeyError_SkipSpace (input : List Char) (h : ObjectKeyError input) :
    ObjectKeyError (SkipSpace input) := by
  cases h with
  | noQuote _ hq => exact .noQuote _ (by rw [SkipSpace_idem]; exact hq)
  | noColon _ key rest hk hc => exact .noColon _ key rest (by rw [SkipSpace_idem]; exact hk) hc
  | later _ key rest rest1 value rest2 next hk hs hp hs2 hn =>
    exact .later _ key rest rest1 value rest2 next (by rw [SkipSpace_idem]; exact hk) hs hp hs2 hn

/-- Claim C15: an input that begins with `\x7b` and is not an empty object
fails with `ParsingError` when the first character after white space at a key
position is not a double quote, or when the first character after white space
behind the key string is not `:`. -/
theorem Load_object_key_error (input body : List Char)
    (hs : SkipSpace input = '{' :: body) (hne : (SkipSpace body).head? ≠ some '}')
    (h : ObjectKeyError body) :
    Load input = .parsingError := by
  have l1 := SkipSpace_length_le input
  rw [hs, List.length_cons] at l1
  have l2 := SkipSpace_length_le body
  have hloop := LoadDictLoop_key_error (LoadNode input.length) (SkipSpace body)
    (ObjectKeyError_SkipSpace body h) (SkipSpace body).length
    ((SkipSpace body).length + 1) []
    (fun x v r hx hp => LoadNode_of_Parses hp _ (by omega))
    (le_refl _) (by omega)
  have e1 : ¬ ('{' = '[') := by decide
  simp only [Load, LoadNode, hs, e1, if_true, if_false, LoadDict, ne_eq, not_true_eq_false,
    hne, hloop, ParseResult.map]

/-- Claim C15, witness: the input `\x7b"a" 1\x7d`, where no `:` follows the
key. -/
theorem Load_object_key_error_witness :
    SkipSpace "\x7b\"a\" 1\x7d".toList = '{' :: "\"a\" 1\x7d".toList ∧
    Load "\x7b\"a\" 1\x7d".toList = .parsingError :=
  ⟨rfl, Load_object_key_error "\x7b\"a\" 1\x7d".toList "\"a\" 1\x7d".toList rfl (by decide)
    (.noColon "\"a\" 1\x7d".toList "a".toList " 1\x7d".toList rfl (by decide))⟩

theorem keysAscending_cons (k : List Char) (v : Node) (rest : Dict) :
    keysAscending ((k, v) :: rest) =
      ((match rest.head? with
        | none => true
        | some e => stringLess k e.1) && keysAscending rest) := by
  cases rest with
  | nil => simp [keysAscending]
  | cons e rest' =>
    obtain ⟨l, w⟩ := e
    simp [keysAscending]

theorem emplace_head (key : List Char) (value : Node) (d : Dict) :
    (emplace key value d).head? = some (key, value) ∨ (emplace key value d).head? = d.head? := by
  cases d with
  | nil => left; rfl
  | cons e rest =>
    obtain ⟨k, v⟩ := e
    simp only [emplace]
    split_ifs
    · left; rfl
    · right; rfl
    · right; rfl

/-- The call `emplace` keeps the keys of a map strictly ascending. -/
theorem keysAscending_emplace (key : List Char) (value : Node) :
    ∀ d : Dict, keysAscending d = true → keysAscending (emplace key value d) = true
  | [], _ => rfl
  | (k, v) :: rest, h => by
    have ht := keysAscending_tail _ _ h
    simp only [emplace]
    by_cases c1 : stringLess key k = true
    · simp only [c1, if_true]
      rw [keysAscending_cons]
      simp [c1, h]
    · by_cases c2 : stringLess k key = true
      · simp only [c1, c2, Bool.false_eq_true, if_true, if_false]
        have ih := keysAscending_emplace key value rest ht
        rw [keysAscending_cons, ih, Bool.and_true]
        rw [keysAscending_cons] at h
        rcases emplace_head key value rest with he | he
        · rw [he]; exact c2
        · rw [he]
          simp only [Bool.and_eq_true] at h
          exact h.1
      · simp only [c1, c2, Bool.false_eq_true, if_false]
        exact h

section PrinterFormat

variable (fmtDouble : Double → List Char)

theorem PrintValue_array_false :
    ∀ (x : Node) (xs : List Node),
      Node.Print fmtDouble x ++ PrintValue.array fmtDouble false xs
        = separated [',', ' '] ((x :: xs).map (Node.Print fmtDouble))
  | x, [] => by simp [PrintValue.array, separated]
  | x, y :: ys => by
    have ih := PrintValue_array_false y ys
    simp only [PrintValue.array, Bool.false_eq_true, if_false, List.map_cons, separated]
    simp only [List.map_cons] at ih
    rw [← ih]
    simp

theorem PrintValue_array_true (xs : List Node) :
    PrintValue.array fmtDouble true xs = separated [',', ' '] (xs.map (Node.Print fmtDouble)) := by
  cases xs with
  | nil => simp [PrintValue.array, separated]
  | cons x xs =>
    simp only [PrintValue.array, if_true, List.nil_append]
    exact PrintValue_array_false fmtDouble x xs

theorem PrintValue_dict_false :
    ∀ (e : List Char × Node) (xs : List (List Char × Node)),
      (['"'] ++ e.1 ++ ['"', ':', ' '] ++ Node.Print fmtDouble e.2)
          ++ PrintValue.dict fmtDouble false xs
        = separated [',', ' '] ((e :: xs).map
            (fun p => ['"'] ++ p.1 ++ ['"', ':', ' '] ++ Node.Print fmtDouble p.2))
  | e, [] => by simp [PrintValue.dict, separated]
  | e, (k, v) :: ys => by
    have ih := PrintValue_dict_false (k, v) ys
    simp only [PrintValue.dict, Bool.false_eq_true, if_false, List.map_cons, separated]
    simp only [List.map_cons] at ih
    rw [← ih]
    simp

theorem PrintValue_dict_true (xs : List (List Char × Node)) :
    PrintValue.dict fmtDouble true xs = separated [',', ' '] (xs.map
      (fun p => ['"'] ++ p.1 ++ ['"', ':', ' '] ++ Node.Print fmtDouble p.2)) := by
  cases xs with
  | nil => simp [PrintValue.dict, separated]
  | cons e xs =>
    obtain ⟨k, v⟩ := e
    simp only [PrintValue.dict, if_true, List.nil_append]
    have := PrintValue_dict_false fmtDouble (k, v) xs
    simp only [List.append_assoc] at this ⊢
    simpa using this

mutual
theorem Print_canonicalText : ∀ v : Node, v.DoubleFree = true →
    Node.Print fmtDouble v = canonicalText v
  | .null, _ => rfl
  | .bool v, _ => by cases v <;> rfl
  | .int n, _ => by
    simp only [Node.Print, canonicalText]
    exact PrintValue_int_toString n
  | .double _, h => by simp [Node.DoubleFree] at h
  | .string s, _ => rfl
  | .array vs, h => by
    simp only [Node.DoubleFree] at h
    simp only [Node.Print, canonicalText, PrintValue_array_true, Print_canonicalTexts vs h]
  | .dict d, h => by
    simp only [Node.DoubleFree] at h
    simp only [Node.Print, canonicalText, PrintValue_dict_true, Print_canonicalEntries d h]
theorem Print_canonicalTexts : ∀ vs : List Node, DoubleFree.array vs = true →
    vs.map (Node.Print fmtDouble) = canonicalTexts vs
  | [], _ => rfl
  | x :: xs, h => by
    simp only [DoubleFree.array, Bool.and_eq_true] at h
    simp only [List.map_cons, canonicalTexts, Print_canonicalText x h.1,
      Print_canonicalTexts xs h.2]
theorem Print_canonicalEntries : ∀ d : List (List Char × Node), DoubleFree.dict d = true →
    d.map (fun p => ['"'] ++ p.1 ++ ['"', ':', ' '] ++ Node.Print fmtDouble p.2)
      = canonicalEntries d
  | [], _ => rfl
  | (k, x) :: xs, h => by
    simp only [DoubleFree.dict, Bool.and_eq_true] at h
    simp only [List.map_cons, canonicalEntries, Print_canonicalText x h.1,
      Print_canonicalEntries xs h.2]
end

/-- Claim C13: for a tree without `double`, `Print` writes exactly `null` for
Null, `true` or `false` for Bool, the decimal text of `n` for `Int n`, for an
array `[`, the texts of its elements in stored order with comma and space
between them, `]`, and for a map `\x7b`, its entries in iteration order with
comma and space between them, each as the key between double quotes, a colon, a
space and the text of the value, `\x7d`; nothing else is written.  The
iteration order of a map is the ascending order of `operator<` on the keys,
which `emplace` keeps. -/
theorem Print_format (v : Node) (h : v.DoubleFree = true) :
    Print fmtDouble ⟨v⟩ = canonicalText v ∧
    (∀ (key : List Char) (value : Node) (d : Dict),
      keysAscending d = true → keysAscending (emplace key value d) = true) ∧
    (∀ d : Dict, v = .dict d → v.WellFormed = true → keysAscending d = true) := by
  refine ⟨Print_canonicalText fmtDouble v h, keysAscending_emplace, ?_⟩
  rintro d rfl hw
  simp only [Node.WellFormed, Bool.and_eq_true] at hw
  exact hw.1

/-- Claim C13, witness: a map over an array and a string. -/
theorem Print_format_witness :
    sampleObject.DoubleFree = true ∧
    Print (fun _ => []) ⟨sampleObject⟩ = "\x7b\"a\": [1, null], \"b\": \"x\"\x7d".toList :=
  ⟨rfl, ((Print_format (fun _ => []) sampleObject rfl).1).trans (by decide)⟩

end PrinterFormat

theorem Delimited_nil : Delimited [] := by
  intro c hc; simp at hc

theorem Delimited_cons {c : Char} (rest : List Char)
    (h : isdigit c = false ∧ isalpha c = false ∧ c ≠ '.') : Delimited (c :: rest) := by
  intro d hd
  simp only [List.head?_cons, Option.mem_def, Option.some.injEq] at hd
  subst hd; exact h

theorem Delimited_EndsToken {tail : List Char} (h : Delimited tail) : EndsToken tail := by
  intro c hc
  obtain ⟨h1, h2, h3⟩ := h c hc
  refine ⟨h1, h3, ?_, ?_⟩ <;> (rintro rfl; exact absurd h2 (by decide))

theorem takeWhile_alpha : ∀ (w tail : List Char), (∀ c ∈ w, isalpha c = true) →
    (∀ c ∈ tail.head?, isalpha c = false) →
    (w ++ tail).takeWhile isalpha = w ∧ (w ++ tail).dropWhile isalpha = tail
  | [], [], _, _ => by simp
  | [], c :: rest, _, ht => by
    have : isalpha c = false := ht c (by simp)
    simp [List.takeWhile_cons, List.dropWhile_cons, this]
  | d :: ds, tail, hd, ht => by
    have h1 : isalpha d = true := hd d (by simp)
    have ih := takeWhile_alpha ds tail (fun c hc => hd c (by simp [hc])) ht
    simp [List.takeWhile_cons, List.dropWhile_cons, h1, ih.1, ih.2]

theorem LoadNode_null (fuel : Nat) (tail : List Char) (ht : Delimited tail) :
    LoadNode (fuel + 1) (['n', 'u', 'l', 'l'] ++ tail) = .ok .null tail := by
  have hw := takeWhile_alpha ['n', 'u', 'l', 'l'] tail (by decide) (fun c hc => (ht c hc).2.1)
  have e : ['n', 'u', 'l', 'l'] ++ tail = 'n' :: (['u', 'l', 'l'] ++ tail) := rfl
  have hsp : isspace 'n' = false := by decide
  have h1 : ¬ ('n' = '[') := by decide
  have h2 : ¬ ('n' = '{') := by decide
  have h3 : ¬ ('n' = '"') := by decide
  rw [e] at hw ⊢
  simp only [LoadNode, SkipSpace_of_head _ _ hsp, h1, h2, h3, if_false, if_true, LoadNull,
    readAlpha_eq, List.nil_append, hw.1, hw.2]
  rfl

theorem LoadNode_true (fuel : Nat) (tail : List Char) (ht : Delimited tail) :
    LoadNode (fuel + 1) (['t', 'r', 'u', 'e'] ++ tail) = .ok (.bool true) tail := by
  have hw := takeWhile_alpha ['t', 'r', 'u', 'e'] tail (by decide) (fun c hc => (ht c hc).2.1)
  have e : ['t', 'r', 'u', 'e'] ++ tail = 't' :: (['r', 'u', 'e'] ++ tail) := rfl
  have hsp : isspace 't' = false := by decide
  have h1 : ¬ ('t' = '[') := by decide
  have h2 : ¬ ('t' = '{') := by decide
  have h3 : ¬ ('t' = '"') := by decide
  have h4 : ¬ ('t' = 'n') := by decide
  rw [e] at hw ⊢
  simp only [LoadNode, SkipSpace_of_head _ _ hsp, h1, h2, h3, h4, if_false, if_true, LoadBool,
    readAlpha_eq, List.nil_append, hw.1, hw.2]
  rfl

theorem LoadNode_false (fuel : Nat) (tail : List Char) (ht : Delimited tail) :
    LoadNode (fuel + 1) (['f', 'a', 'l', 's', 'e'] ++ tail) = .ok (.bool false) tail := by
  have hw := takeWhile_alpha ['f', 'a', 'l', 's', 'e'] tail (by decide)
    (fun c hc => (ht c hc).2.1)
  have e : ['f', 'a', 'l', 's', 'e'] ++ tail = 'f' :: (['a', 'l', 's', 'e'] ++ tail) := rfl
  have hsp : isspace 'f' = false := by decide
  have h1 : ¬ ('f' = '[') := by decide
  have h2 : ¬ ('f' = '{') := by decide
  have h3 : ¬ ('f' = '"') := by decide
  have h4 : ¬ ('f' = 'n') := by decide
  have h5 : ¬ ('f' = 't') := by decide
  rw [e] at hw ⊢
  simp only [LoadNode, SkipSpace_of_head _ _ hsp, h1, h2, h3, h4, h5, if_false, if_true,
    LoadBool, readAlpha_eq, List.nil_append, hw.1, hw.2]
  rfl

theorem LoadNode_string (fuel : Nat) (s tail : List Char) :
    LoadNode (fuel + 1) (PrintValue.string s ++ tail) = .ok (.string s) tail := by
  have h := ParseString_PrintValue_string s tail
  have e : PrintValue.string s ++ tail = '"' :: (PrintValue.escape s ++ '"' :: tail) := by
    simp [PrintValue.string]
  have hsp : isspace '"' = false := by decide
  have h1 : ¬ ('"' = '[') := by decide
  have h2 : ¬ ('"' = '{') := by decide
  rw [e] at h ⊢
  simp only [LoadNode, SkipSpace_of_head _ _ hsp, h1, h2, if_false, if_true, LoadString, h,
    ParseResult.map]

section RoundTrip

variable (fmtDouble : Double → List Char)

/-- The text of a value begins with a character that starts a value. -/
theorem Print_head (v : Node) (h : v.DoubleFree = true) :
    ∃ c r, Node.Print fmtDouble v = c :: r ∧ isspace c = false ∧ c ≠ ']' ∧ c ≠ '}' := by
  cases v with
  | null => exact ⟨'n', _, rfl, by decide, by decide, by decide⟩
  | bool b =>
    cases b
    · exact ⟨'f', _, rfl, by decide, by decide, by decide⟩
    · exact ⟨'t', _, rfl, by decide, by decide, by decide⟩
  | int n =>
    obtain ⟨h1, -, ⟨c, r, h3, -⟩, -⟩ := decimalDigits_spec (n.natAbs + 1) n.natAbs (by omega)
    simp only [Node.Print, PrintValue_int_eq]
    by_cases hn : n < 0
    · exact ⟨'-', decimalDigits (n.natAbs + 1) n.natAbs, by simp [hn], by decide, by decide,
        by decide⟩
    · have hd := h1 c (by rw [h3]; simp)
      refine ⟨c, r, by simp [hn, h3], isdigit_not_space hd, ?_, ?_⟩ <;>
        (rintro rfl; exact absurd hd (by decide))
  | double d => simp [Node.DoubleFree] at h
  | string s => exact ⟨'"', PrintValue.escape s ++ ['"'],
      by simp [Node.Print, PrintValue.string], by decide, by decide, by decide⟩
  | array vs => exact ⟨'[', PrintValue.array fmtDouble true vs ++ [']'],
      by simp [Node.Print], by decide, by decide, by decide⟩
  | dict d => exact ⟨'{', PrintValue.dict fmtDouble true d ++ ['}'],
      by simp [Node.Print], by decide, by decide, by decide⟩

theorem SkipSpace_Print (v : Node) (h : v.DoubleFree = true) (rest : List Char) :
    SkipSpace (Node.Print fmtDouble v ++ rest) = Node.Print fmtDouble v ++ rest := by
  obtain ⟨c, r, e, hsp, -, -⟩ := Print_head fmtDouble v h
  rw [e, List.cons_append]
  exact SkipSpace_of_head _ _ hsp

theorem PrintValue_array_false_length : ∀ xs : List Node,
    xs.length ≤ (PrintValue.array fmtDouble false xs).length
  | [] => by simp [PrintValue.array]
  | x :: xs => by
    have := PrintValue_array_false_length xs
    have e : ", ".toList.length = 2 := rfl
    simp only [PrintValue.array, Bool.false_eq_true, if_false, List.length_append,
      List.length_cons, e]
    omega

/-- The loop of `LoadArray` on the text of the elements that are still to be
read: the stream stands before the text of `x`. -/
theorem LoadArrayLoop_Print (L : List Char → ParseResult Node) :
    ∀ (xs : List Node) (x : Node) (fuel : Nat) (result : List Node) (input tail : List Char),
      (∀ v ∈ x :: xs, v.DoubleFree = true ∧
        ∀ tl, Delimited tl → L (Node.Print fmtDouble v ++ tl) = .ok v tl) →
      xs.length < fuel →
      SkipSpace input
        = Node.Print fmtDouble x ++ (PrintValue.array fmtDouble false xs ++ ']' :: tail) →
      LoadArrayLoop L fuel result input = .ok (.array (result ++ x :: xs)) tail
  | [], x, fuel, result, input, tail, hL, hf, hs => by
    obtain ⟨k, rfl⟩ : ∃ k, fuel = k + 1 := ⟨fuel - 1, by omega⟩
    have hx := (hL x (by simp)).2 (']' :: tail) (Delimited_cons _ (by decide))
    simp only [PrintValue.array, List.nil_append] at hs
    have hsp : isspace ']' = false := by decide
    simp only [LoadArrayLoop, hs, hx, SkipSpace_of_head _ _ hsp, if_true]
  | y :: ys, x, fuel, result, input, tail, hL, hf, hs => by
    obtain ⟨k, rfl⟩ : ∃ k, fuel = k + 1 := ⟨fuel - 1, by omega⟩
    have e : PrintValue.array fmtDouble false (y :: ys) ++ ']' :: tail
        = ',' :: ' ' :: (Node.Print fmtDouble y
            ++ (PrintValue.array fmtDouble false ys ++ ']' :: tail)) := by
      simp [PrintValue.array]
    rw [e] at hs
    have hx := (hL x (by simp)).2 _ (Delimited_cons (' ' :: (Node.Print fmtDouble y
      ++ (PrintValue.array fmtDouble false ys ++ ']' :: tail))) (c := ',') (by decide))
    have hsp : isspace ',' = false := by decide
    have e1 : ¬ (',' = ']') := by decide
    simp only [LoadArrayLoop, hs, hx, SkipSpace_of_head _ _ hsp, e1, if_false, ne_eq,
      not_true_eq_false]
    have hy := (hL y (by simp)).1
    have hs' : SkipSpace (' ' :: (Node.Print fmtDouble y
        ++ (PrintValue.array fmtDouble false ys ++ ']' :: tail)))
        = Node.Print fmtDouble y ++ (PrintValue.array fmtDouble false ys ++ ']' :: tail) := by
      have hsp2 : isspace ' ' = true := by decide
      simp only [SkipSpace, hsp2, if_true]
      exact SkipSpace_Print fmtDouble y hy _
    have := LoadArrayLoop_Print L ys y k (result ++ [x]) _ tail
      (fun v hv => hL v (by simp only [List.mem_cons] at hv ⊢; exact Or.inr hv))
      (by simp only [List.length_cons] at hf; omega) hs'
    rw [this]
    simp

/-- The function `LoadArray` on the text that the printer writes for an array. -/
theorem LoadArray_Print (L : List Char → ParseResult Node) (vs : List Node) (tail : List Char)
    (hL : ∀ v ∈ vs, v.DoubleFree = true ∧
      ∀ tl, Delimited tl → L (Node.Print fmtDouble v ++ tl) = .ok v tl) :
    LoadArray L (Node.Print fmtDouble (.array vs) ++ tail) = .ok (.array vs) tail := by
  cases vs with
  | nil =>
    have hsp : isspace ']' = false := by decide
    simp [Node.Print, PrintValue.array, LoadArray, SkipSpace_of_head _ _ hsp]
  | cons x xs =>
    have hx := (hL x (by simp)).1
    obtain ⟨c, r, e, hsp, hc, -⟩ := Print_head fmtDouble x hx
    have e0 : Node.Print fmtDouble (.array (x :: xs)) ++ tail
        = '[' :: (Node.Print fmtDouble x
            ++ (PrintValue.array fmtDouble false xs ++ ']' :: tail)) := by
      simp [Node.Print, PrintValue.array]
    have hs := SkipSpace_Print fmtDouble x hx (PrintValue.array fmtDouble false xs ++ ']' :: tail)
    have hh : (SkipSpace (Node.Print fmtDouble x
        ++ (PrintValue.array fmtDouble false xs ++ ']' :: tail))).head? ≠ some ']' := by
      rw [hs, e]
      simpa using hc
    rw [e0]
    simp only [LoadArray, ne_eq, not_true_eq_false, if_false, hh]
    have hlen : xs.length < (SkipSpace (Node.Print fmtDouble x
        ++ (PrintValue.array fmtDouble false xs ++ ']' :: tail))).length + 1 := by
      rw [hs]
      have := PrintValue_array_false_length fmtDouble xs
      simp only [List.length_append, List.length_cons]
      omega
    have := LoadArrayLoop_Print fmtDouble L xs x _ [] _ tail hL hlen
      (by rw [SkipSpace_idem]; exact hs)
    rw [this]
    simp

end RoundTrip

theorem ParseStringLoop_plain : ∀ (key str : List Char) (c : Option Char) (rest : List Char),
    (∀ ch ∈ key, isEscaped ch = false) →
    ParseStringLoop str c false (key ++ '"' :: rest) = .ok (str ++ key) rest
  | [], str, c, rest, _ => by simp [ParseStringLoop]
  | ch :: key, str, c, rest, h => by
    have hc : isEscaped ch = false := h ch (by simp)
    have h1 : ch ≠ '"' := by
      rintro rfl; exact absurd hc (by decide)
    have h2 : ch ≠ '\\' := by
      rintro rfl; exact absurd hc (by decide)
    have ih := ParseStringLoop_plain key (str ++ [ch]) (some ch) rest
      (fun x hx => h x (by simp [hx]))
    show ParseStringLoop str c false (ch :: (key ++ '"' :: rest)) = _
    simp only [ParseStringLoop, h1, h2, Bool.not_false, decide_False,
      Bool.and_false, Bool.false_eq_true, if_false]
    rw [ih]
    simp

/-- What `ParseString` reads from a key that the printer wrote as it is. -/
theorem ParseString_plain_key (key rest : List Char) (h : ∀ ch ∈ key, isEscaped ch = false) :
    ParseString ('"' :: (key ++ '"' :: rest)) = .ok key rest := by
  simp only [ParseString, ne_eq, not_true_eq_false, if_false]
  rw [ParseStringLoop_plain key [] none rest h]
  simp

theorem keysAscending_append_left : ∀ (xs ys : Dict), keysAscending (xs ++ ys) = true →
    keysAscending xs = true
  | [], _, _ => rfl
  | [_], _, _ => rfl
  | (k, v) :: (l, w) :: xs, ys, h => by
    simp only [List.cons_append, keysAscending, Bool.and_eq_true] at h ⊢
    exact ⟨h.1, keysAscending_append_left ((l, w) :: xs) ys h.2⟩

theorem keysAscending_append_lt : ∀ (xs : Dict) (k : List Char) (v : Node),
    keysAscending (xs ++ [(k, v)]) = true → ∀ e ∈ xs, stringLess e.1 k = true
  | [], _, _, _ => by simp
  | [(k1, v1)], k, v, h => by
    simp only [List.singleton_append, keysAscending, Bool.and_eq_true] at h
    intro e he
    simp only [List.mem_singleton] at he
    subst he; exact h.1
  | (k1, v1) :: (k2, v2) :: xs, k, v, h => by
    simp only [List.cons_append, keysAscending, Bool.and_eq_true] at h
    have ih := keysAscending_append_lt ((k2, v2) :: xs) k v h.2
    intro e he
    simp only [List.mem_cons] at he
    rcases he with rfl | he
    · exact stringLess_trans _ _ _ h.1 (ih (k2, v2) (by simp))
    · exact ih e (by simp only [List.mem_cons]; exact he)

theorem emplace_append : ∀ (xs : Dict) (k : List Char) (v : Node),
    (∀ e ∈ xs, stringLess e.1 k = true) → emplace k v xs = xs ++ [(k, v)]
  | [], _, _, _ => rfl
  | (k1, v1) :: xs, k, v, h => by
    have h1 : stringLess k1 k = true := h (k1, v1) (by simp)
    have h2 : stringLess k k1 = false := stringLess_asymm _ _ h1
    simp only [emplace, h1, h2, Bool.false_eq_true, if_false, if_true, List.cons_append]
    rw [emplace_append xs k v (fun e he => h e (by simp [he]))]

section RoundTrip

variable (fmtDouble : Double → List Char)

theorem PrintValue_dict_false_length : ∀ xs : List (List Char × Node),
    xs.length ≤ (PrintValue.dict fmtDouble false xs).length
  | [] => by simp [PrintValue.dict]
  | (k, x) :: xs => by
    have := PrintValue_dict_false_length xs
    have e : ", ".toList.length = 2 := rfl
    simp only [PrintValue.dict, Bool.false_eq_true, if_false, List.length_append,
      List.length_cons, e]
    omega

/-- The loop of `LoadDict` on the text of the entries that are still to be
read: the stream stands before the key `k`. -/
theorem LoadDictLoop_Print (L : List Char → ParseResult Node) :
    ∀ (rest : List (List Char × Node)) (k : List Char) (x : Node) (fuel : Nat) (result : Dict)
      (input tail : List Char),
      (∀ e ∈ (k, x) :: rest, e.2.DoubleFree = true ∧ (∀ ch ∈ e.1, isEscaped ch = false) ∧
        ∀ tl, Delimited tl → L (Node.Print fmtDouble e.2 ++ tl) = .ok e.2 tl) →
      keysAscending (result ++ (k, x) :: rest) = true →
      rest.length < fuel →
      SkipSpace input = '"' :: (k ++ '"' :: ':' :: ' ' :: (Node.Print fmtDouble x
        ++ (PrintValue.dict fmtDouble false rest ++ '}' :: tail))) →
      LoadDictLoop L fuel result input = .ok (.dict (result ++ (k, x) :: rest)) tail
  | [], k, x, fuel, result, input, tail, hL, hasc, hf, hs => by
    obtain ⟨j, rfl⟩ : ∃ j, fuel = j + 1 := ⟨fuel - 1, by omega⟩
    obtain ⟨hdf, hk, hx⟩ := hL (k, x) (by simp)
    have hx' := hx ('}' :: tail) (Delimited_cons _ (by decide))
    have hem := emplace_append result k x (keysAscending_append_lt result k x hasc)
    simp only [PrintValue.dict, List.nil_append] at hs
    have hsp1 : isspace ':' = false := by decide
    have hsp2 : isspace ' ' = true := by decide
    have hsp3 : isspace '}' = false := by decide
    have hsx : SkipSpace (' ' :: (Node.Print fmtDouble x ++ '}' :: tail))
        = Node.Print fmtDouble x ++ '}' :: tail := by
      simp only [SkipSpace, hsp2, if_true]
      exact SkipSpace_Print fmtDouble x hdf _
    simp only [LoadDictLoop, hs, ParseString_plain_key k _ hk, SkipSpace_of_head _ _ hsp1,
      ne_eq, not_true_eq_false, if_false, hsx, hx', SkipSpace_of_head _ _ hsp3, if_true, hem]
  | (k', x') :: rest, k, x, fuel, result, input, tail, hL, hasc, hf, hs => by
    obtain ⟨j, rfl⟩ : ∃ j, fuel = j + 1 := ⟨fuel - 1, by omega⟩
    obtain ⟨hdf, hk, hx⟩ := hL (k, x) (by simp)
    have e : PrintValue.dict fmtDouble false ((k', x') :: rest) ++ '}' :: tail
        = ',' :: ' ' :: '"' :: (k' ++ '"' :: ':' :: ' ' :: (Node.Print fmtDouble x'
            ++ (PrintValue.dict fmtDouble false rest ++ '}' :: tail))) := by
      simp [PrintValue.dict]
    rw [e] at hs
    have hx' := hx _ (Delimited_cons (' ' :: '"' :: (k' ++ '"' :: ':' :: ' ' ::
      (Node.Print fmtDouble x' ++ (PrintValue.dict fmtDouble false rest ++ '}' :: tail))))
      (c := ',') (by decide))
    have hasc' : keysAscending ((result ++ [(k, x)]) ++ (k', x') :: rest) = true := by
      simpa using hasc
    have hem := emplace_append result k x
      (keysAscending_append_lt result k x (keysAscending_append_left _ _ hasc'))
    have hsp1 : isspace ':' = false := by decide
    have hsp2 : isspace ' ' = true := by decide
    have hsp3 : isspace ',' = false := by decide
    have hsp4 : isspace '"' = false := by decide
    have hsx : ∀ r, SkipSpace (' ' :: (Node.Print fmtDouble x ++ r))
        = Node.Print fmtDouble x ++ r := by
      intro r
      simp only [SkipSpace, hsp2, if_true]
      exact SkipSpace_Print fmtDouble x hdf _
    have e1 : ¬ (',' = '}') := by decide
    simp only [LoadDictLoop, hs, ParseString_plain_key k _ hk, SkipSpace_of_head _ _ hsp1,
      ne_eq, not_true_eq_false, if_false, hsx, hx', SkipSpace_of_head _ _ hsp3, e1, hem]
    have hs' : SkipSpace (' ' :: '"' :: (k' ++ '"' :: ':' :: ' ' :: (Node.Print fmtDouble x'
        ++ (PrintValue.dict fmtDouble false rest ++ '}' :: tail))))
        = '"' :: (k' ++ '"' :: ':' :: ' ' :: (Node.Print fmtDouble x'
        ++ (PrintValue.dict fmtDouble false rest ++ '}' :: tail))) := by
      simp only [SkipSpace, hsp2, hsp4, if_true, Bool.false_eq_true, if_false]
    have := LoadDictLoop_Print L rest k' x' j (result ++ [(k, x)]) _ tail
      (fun e he => hL e (by simp only [List.mem_cons] at he ⊢; exact Or.inr he))
      hasc' (by simp only [List.length_cons] at hf; omega) hs'
    rw [this]
    simp

/-- The function `LoadDict` on the text that the printer writes for a map. -/
theorem LoadDict_Print (L : List Char → ParseResult Node) (d : List (List Char × Node))
    (tail : List Char)
    (hL : ∀ e ∈ d, e.2.DoubleFree = true ∧ (∀ ch ∈ e.1, isEscaped ch = false) ∧
      ∀ tl, Delimited tl → L (Node.Print fmtDouble e.2 ++ tl) = .ok e.2 tl)
    (hasc : keysAscending d = true) :
    LoadDict L (Node.Print fmtDouble (.dict d) ++ tail) = .ok (.dict d) tail := by
  cases d with
  | nil =>
    have hsp : isspace '}' = false := by decide
    simp [Node.Print, PrintValue.dict, LoadDict, SkipSpace_of_head _ _ hsp]
  | cons e rest =>
    obtain ⟨k, x⟩ := e
    have e0 : Node.Print fmtDouble (.dict ((k, x) :: rest)) ++ tail
        = '{' :: '"' :: (k ++ '"' :: ':' :: ' ' :: (Node.Print fmtDouble x
            ++ (PrintValue.dict fmtDouble false rest ++ '}' :: tail))) := by
      simp [Node.Print, PrintValue.dict]
    have hsp : isspace '"' = false := by decide
    have hs := SkipSpace_of_head '"' (k ++ '"' :: ':' :: ' ' :: (Node.Print fmtDouble x
            ++ (PrintValue.dict fmtDouble false rest ++ '}' :: tail))) hsp
    have hh : (SkipSpace ('"' :: (k ++ '"' :: ':' :: ' ' :: (Node.Print fmtDouble x
        ++ (PrintValue.dict fmtDouble false rest ++ '}' :: tail))))).head? ≠ some '}' := by
      rw [hs]
      simp
    rw [e0]
    simp only [LoadDict, ne_eq, not_true_eq_false, if_false, hh]
    have hlen : rest.length < (SkipSpace ('"' :: (k ++ '"' :: ':' :: ' ' ::
        (Node.Print fmtDouble x
          ++ (PrintValue.dict fmtDouble false rest ++ '}' :: tail))))).length + 1 := by
      rw [hs]
      have := PrintValue_dict_false_length fmtDouble rest
      simp only [List.length_append, List.length_cons]
      omega
    have := LoadDictLoop_Print fmtDouble L rest k x _ [] _ tail hL (by simpa using hasc) hlen
      (by rw [SkipSpace_idem]; exact hs)
    rw [this]
    simp

end RoundTrip

section RoundTrip

variable (fmtDouble : Double → List Char)

mutual
theorem LoadNode_Print : ∀ v : Node, v.DoubleFree = true → v.WellFormed = true →
    v.KeysPlain = true →
    ∃ F : Nat, ∀ fuel : Nat, F ≤ fuel → ∀ tail : List Char, Delimited tail →
      LoadNode fuel (Node.Print fmtDouble v ++ tail) = .ok v tail
  | .null, _, _, _ => by
    refine ⟨1, fun fuel hf tail ht => ?_⟩
    obtain ⟨k, rfl⟩ : ∃ k, fuel = k + 1 := ⟨fuel - 1, by omega⟩
    exact LoadNode_null k tail ht
  | .bool true, _, _, _ => by
    refine ⟨1, fun fuel hf tail ht => ?_⟩
    obtain ⟨k, rfl⟩ : ∃ k, fuel = k + 1 := ⟨fuel - 1, by omega⟩
    exact LoadNode_true k tail ht
  | .bool false, _, _, _ => by
    refine ⟨1, fun fuel hf tail ht => ?_⟩
    obtain ⟨k, rfl⟩ : ∃ k, fuel = k + 1 := ⟨fuel - 1, by omega⟩
    exact LoadNode_false k tail ht
  | .int n, _, hw, _ => by
    refine ⟨1, fun fuel hf tail ht => ?_⟩
    obtain ⟨k, rfl⟩ : ∃ k, fuel = k + 1 := ⟨fuel - 1, by omega⟩
    simp only [Node.WellFormed, decide_eq_true_eq] at hw
    exact LoadNode_PrintValue_int k n tail hw (Delimited_EndsToken ht)
  | .double _, hd, _, _ => by simp [Node.DoubleFree] at hd
  | .string s, _, _, _ => by
    refine ⟨1, fun fuel hf tail _ => ?_⟩
    obtain ⟨k, rfl⟩ : ∃ k, fuel = k + 1 := ⟨fuel - 1, by omega⟩
    exact LoadNode_string k s tail
  | .array vs, hd, hw, hk => by
    simp only [Node.DoubleFree] at hd
    simp only [Node.WellFormed] at hw
    simp only [Node.KeysPlain] at hk
    obtain ⟨F, hF⟩ := LoadNode_Print_array vs hd hw hk
    refine ⟨F + 1, fun fuel hf tail _ => ?_⟩
    obtain ⟨k, rfl⟩ : ∃ k, fuel = k + 1 := ⟨fuel - 1, by omega⟩
    have hload := LoadArray_Print fmtDouble (LoadNode k) vs tail (hF k (by omega))
    have e : Node.Print fmtDouble (.array vs) ++ tail
        = '[' :: (PrintValue.array fmtDouble true vs ++ ']' :: tail) := by
      simp [Node.Print]
    have hsp : isspace '[' = false := by decide
    rw [e] at hload ⊢
    simp only [LoadNode, SkipSpace_of_head _ _ hsp, if_true, hload]
  | .dict d, hd, hw, hk => by
    simp only [Node.DoubleFree] at hd
    simp only [Node.WellFormed, Bool.and_eq_true] at hw
    simp only [Node.KeysPlain] at hk
    obtain ⟨F, hF⟩ := LoadNode_Print_dict d hd hw.2 hk
    refine ⟨F + 1, fun fuel hf tail _ => ?_⟩
    obtain ⟨k, rfl⟩ : ∃ k, fuel = k + 1 := ⟨fuel - 1, by omega⟩
    have hload := LoadDict_Print fmtDouble (LoadNode k) d tail (hF k (by omega)) hw.1
    have e : Node.Print fmtDouble (.dict d) ++ tail
        = '{' :: (PrintValue.dict fmtDouble true d ++ '}' :: tail) := by
      simp [Node.Print]
    have hsp : isspace '{' = false := by decide
    have h1 : ¬ ('{' = '[') := by decide
    rw [e] at hload ⊢
    simp only [LoadNode, SkipSpace_of_head _ _ hsp, h1, if_false, if_true, hload]
theorem LoadNode_Print_array : ∀ vs : List Node, DoubleFree.array vs = true →
    WellFormed.array vs = true → KeysPlain.array vs = true →
    ∃ F : Nat, ∀ fuel : Nat, F ≤ fuel → ∀ v ∈ vs, v.DoubleFree = true ∧
      ∀ tl, Delimited tl → LoadNode fuel (Node.Print fmtDouble v ++ tl) = .ok v tl
  | [], _, _, _ => ⟨0, fun _ _ v hv => by simp at hv⟩
  | x :: xs, hd, hw, hk => by
    simp only [DoubleFree.array, Bool.and_eq_true] at hd
    simp only [WellFormed.array, Bool.and_eq_true] at hw
    simp only [KeysPlain.array, Bool.and_eq_true] at hk
    obtain ⟨F1, h1⟩ := LoadNode_Print x hd.1 hw.1 hk.1
    obtain ⟨F2, h2⟩ := LoadNode_Print_array xs hd.2 hw.2 hk.2
    refine ⟨max F1 F2, fun fuel hf v hv => ?_⟩
    simp only [List.mem_cons] at hv
    rcases hv with rfl | hv
    · exact ⟨hd.1, fun tl htl => h1 fuel (le_trans (le_max_left _ _) hf) tl htl⟩
    · exact h2 fuel (le_trans (le_max_right _ _) hf) v hv
theorem LoadNode_Print_dict : ∀ d : List (List Char × Node), DoubleFree.dict d = true →
    WellFormed.dict d = true → KeysPlain.dict d = true →
    ∃ F : Nat, ∀ fuel : Nat, F ≤ fuel → ∀ e ∈ d, e.2.DoubleFree = true ∧
      (∀ ch ∈ e.1, isEscaped ch = false) ∧
      ∀ tl, Delimited tl → LoadNode fuel (Node.Print fmtDouble e.2 ++ tl) = .ok e.2 tl
  | [], _, _, _ => ⟨0, fun _ _ e he => by simp at he⟩
  | (k, x) :: xs, hd, hw, hk => by
    simp only [DoubleFree.dict, Bool.and_eq_true] at hd
    simp only [WellFormed.dict, Bool.and_eq_true] at hw
    simp only [KeysPlain.dict, Bool.and_eq_true] at hk
    obtain ⟨F1, h1⟩ := LoadNode_Print x hd.1 hw.1 hk.1.2
    obtain ⟨F2, h2⟩ := LoadNode_Print_dict xs hd.2 hw.2 hk.2
    refine ⟨max F1 F2, fun fuel hf e he => ?_⟩
    simp only [List.mem_cons] at he
    rcases he with rfl | he
    · refine ⟨hd.1, ?_, fun tl htl => h1 fuel (le_trans (le_max_left _ _) hf) tl htl⟩
      intro ch hch
      have := List.all_eq_true.mp hk.1.1 ch hch
      simpa using this
    · exact h2 fuel (le_trans (le_max_right _ _) hf) e he
end

mutual
theorem Node_eq_refl : ∀ v : Node, v.DoubleFree = true → Node.eq v v = true
  | .null, _ => rfl
  | .bool _, _ => by simp [Node.eq]
  | .int _, _ => by simp [Node.eq]
  | .double _, h => by simp [Node.DoubleFree] at h
  | .string _, _ => by simp [Node.eq]
  | .array vs, h => by
    simp only [Node.DoubleFree] at h
    simp only [Node.eq]
    exact eqArray_refl vs h
  | .dict d, h => by
    simp only [Node.DoubleFree] at h
    simp only [Node.eq]
    exact eqDict_refl d h
theorem eqArray_refl : ∀ vs : List Node, DoubleFree.array vs = true → Node.eqArray vs vs = true
  | [], _ => rfl
  | x :: xs, h => by
    simp only [DoubleFree.array, Bool.and_eq_true] at h
    simp only [Node.eqArray, Bool.and_eq_true]
    exact ⟨Node_eq_refl x h.1, eqArray_refl xs h.2⟩
theorem eqDict_refl : ∀ d : List (List Char × Node), DoubleFree.dict d = true →
    Node.eqDict d d = true
  | [], _ => rfl
  | (k, x) :: xs, h => by
    simp only [DoubleFree.dict, Bool.and_eq_true] at h
    simp only [Node.eqDict, Bool.and_eq_true, decide_eq_true_eq, true_and]
    exact ⟨Node_eq_refl x h.1, eqDict_refl xs h.2⟩
end

/-- Claim C19: for a tree without `double` whose map keys, at every depth,
hold no double quote, backslash, newline, carriage return or tab, `Load` on
the text of `Print` succeeds, reads the whole text and returns a document
equal to the original; hence printing the loaded document gives the same text
again. -/
theorem Load_Print_round_trip (v : Node) (hd : v.DoubleFree = true)
    (hw : v.WellFormed = true) (hk : v.KeysPlain = true) :
    Load (Print fmtDouble ⟨v⟩) = .ok ⟨v⟩ [] ∧
    Document.eq ⟨v⟩ ⟨v⟩ = true ∧
    (Load (Print fmtDouble ⟨v⟩)).map (Print fmtDouble) = .ok (Print fmtDouble ⟨v⟩) [] := by
  obtain ⟨F, hF⟩ := LoadNode_Print fmtDouble v hd hw hk
  have h1 := hF F (le_refl _) [] Delimited_nil
  rw [List.append_nil] at h1
  have h2 : Load (Print fmtDouble ⟨v⟩) = .ok ⟨v⟩ [] := by
    simp only [Load, Print, Document.GetRoot]
    rw [LoadNode_of_some_fuel F _ _ v [] h1 (by omega)]
    rfl
  refine ⟨h2, Node_eq_refl v hd, ?_⟩
  rw [h2]
  rfl

/-- Claim C19, witness: a map over an array and a string. -/
theorem Load_Print_round_trip_witness :
    sampleObject.DoubleFree = true ∧ sampleObject.WellFormed = true ∧
    sampleObject.KeysPlain = true ∧
    Load (Print (fun _ => []) ⟨sampleObject⟩) = .ok ⟨sampleObject⟩ [] :=
  ⟨rfl, rfl, rfl, (Load_Print_round_trip (fun _ => []) sampleObject rfl rfl rfl).1⟩

end RoundTrip

end Json
